import Mathlib

/-!
# sptensor: coordinate-list storage and tensor views

A shallow embedding of `lib/coo.c` and `lib/view.c`, with a model of the hash backend
declared in `include/sptensor/hash.h`.

Conventions of the embedding

* A coordinate (`sptensor_index_t*`, `sp_index_t*`) is a `List Nat`; the C code keeps the
  arity in the owning tensor (`modes`, `nmodes`), so arity appears here as an explicit
  hypothesis `c.length = t.modes`.
* The declarations of the index type and of the vector container are not among the
  sources.  Positions in the COO vectors and in dense storage are natural numbers /
  integers without a word size.  The translations of the slice and unfold views and the
  constructor of the unfold view compute in the index type: their arithmetic is taken
  modulo `2 ^ w`, the width `w` of the index type being a parameter, and the `int` of
  `unfold_to` is a two's complement integer of `32` bits.  The definitions named
  `*_exact` are the same functions over the natural numbers; they are the reference
  against which the bounded ones are proved.
* Values (`mpf_t` in `coo.c`, `double` in `view.c`) are an arbitrary type `V` with a zero
  and decidable equality.  The definitions named after the C functions copy values
  exactly, which is what the code does whenever the destination holds the value; the
  definitions named `*_mpf` take what GMP's assignment delivers in the destination as a
  parameter, and `mpf_set_limbs` is that assignment on integers.
* Allocation is assumed to succeed.
* The input of `sptensor_coo_read` and the output of `sptensor_coo_write` are sequences
  of white-space separated fields, each described by what the conversions `%u` and `%Ff`
  read from it.  The field a conversion prints for a number is a parameter of the
  writer; `coo_field_Ff` is the field `%Ff` prints, with six decimals, for values
  counted in units of `10 ^ (-7)`.
* Of the hash backend only the declarations of `hash.h` are among the sources; its
  functions are modelled from the spec, with the key encoding and the rehash threshold as
  parameters.
-/

namespace SpTensor

/-! ## Coordinate model and vector container -/

/-- Modelled from the spec: `sptensor_index_cmp(n, a, b)` of the coordinate model
(`index.c` is not among the sources): lexicographic comparison of the first `n`
components, `0` exactly when they agree.  A list that ends before `n` components orders
first, so that the result is `0` iff the two `n`-prefixes are the same list. -/
def sptensor_index_cmp : Nat → List Nat → List Nat → Int
  | 0, _, _ => 0
  | _ + 1, [], [] => 0
  | _ + 1, [], _ :: _ => -1
  | _ + 1, _ :: _, [] => 1
  | n + 1, x :: a, y :: b =>
    if x < y then -1 else if y < x then 1 else sptensor_index_cmp n a b

/-- Modelled from the spec: `sptensor_index_cpy(n, dst, src)` of the coordinate model
(`index.c` is not among the sources): the destination receives the first `n` components
of the source. -/
def sptensor_index_cpy (n : Nat) (src : List Nat) : List Nat :=
  src.take n

/-- Modelled from the spec: `sptensor_vector_push_back` of the dynamic sequence container
(`vector.c` is not among the sources): append one element at the end. -/
def sptensor_vector_push_back {α : Type} (v : List α) (x : α) : List α :=
  v ++ [x]

/-- Modelled from the spec: `sptensor_vector_remove` of the dynamic sequence container
(`vector.c` is not among the sources): remove the element at a position; the trailing
elements shift left by one. -/
def sptensor_vector_remove {α : Type} (v : List α) (i : Nat) : List α :=
  v.eraseIdx i

/-! ## COO backend (`lib/coo.c`) -/

/-- The fields of `sptensor_coo_t` that carry data: mode count, dimension vector, and the
two parallel vectors `coo` (coordinates) and `data` (values). -/
structure sptensor_coo (V : Type) where
  modes : Nat
  dim : List Nat
  coo : List (List Nat)
  data : List V

/-- Embeds `sptensor_coo_alloc(modes, nmodes)`: the dimensions are copied (`memcpy` of
`nmodes` components) and both vectors start empty. -/
def sptensor_coo_alloc {V : Type} (modes : List Nat) (nmodes : Nat) : sptensor_coo V :=
  { modes := nmodes, dim := modes.take nmodes, coo := [], data := [] }

/-- The loop of `sptensor_coo_search`: `i` is the loop counter, the list is what remains of
`t->coo` from position `i` on. -/
def sptensor_coo_search_loop (modes : Nat) (idx : List Nat) : List (List Nat) → Nat → Int
  | [], _ => -1
  | c :: rest, i =>
    if sptensor_index_cmp modes idx c = 0 then (i : Int)
    else sptensor_coo_search_loop modes idx rest (i + 1)

/-- Embeds `sptensor_coo_search`: position of the first stored coordinate equal to `idx`,
`-1` when there is none. -/
def sptensor_coo_search {V : Type} (t : sptensor_coo V) (idx : List Nat) : Int :=
  sptensor_coo_search_loop t.modes idx t.coo 0

/-- Embeds `sptensor_coo_get`: zero when the search fails, else the value at the position
found (`VVAL(mpf_t, t->data, index)`), returned as stored; `sptensor_coo_get_mpf` is the
same function with the truncation of `mpf_set` made explicit. -/
def sptensor_coo_get {V : Type} [Zero V] (t : sptensor_coo V) (i : List Nat) : V :=
  let index := sptensor_coo_search t i
  if index = -1 then 0 else t.data.getD index.toNat 0

/-- Embeds `sptensor_coo_set`.  The coordinate vector has element size
`sizeof(sptensor_index_t) * nmodes`, so `push_back` stores the first `modes` components
of `i`.  The value is stored as passed; `sptensor_coo_set_mpf` is the same function with
the truncation of `mpf_init_set` and `mpf_set` made explicit. -/
def sptensor_coo_set {V : Type} [Zero V] [DecidableEq V]
    (t : sptensor_coo V) (i : List Nat) (v : V) : sptensor_coo V :=
  let index := sptensor_coo_search t i
  if index = -1 then
    if v = 0 then t
    else
      { t with
        coo := sptensor_vector_push_back t.coo (i.take t.modes)
        data := sptensor_vector_push_back t.data v }
  else
    if v = 0 then
      { t with
        coo := sptensor_vector_remove t.coo index.toNat
        data := sptensor_vector_remove t.data index.toNat }
    else
      { t with data := t.data.set index.toNat v }

/-- The state of `struct sptensor_coo_nz_iterator`: the tensor iterated over, the
coordinate buffer `index` and the position `ci` in the COO list. -/
structure struct_sptensor_coo_nz_iterator (V : Type) where
  t : sptensor_coo V
  index : List Nat
  ci : Int

/-- Embeds `sptensor_coo_nz_valid`: `itr->ci >= 0 && itr->ci < t->coo->size`. -/
def sptensor_coo_nz_valid {V : Type} (itr : struct_sptensor_coo_nz_iterator V) : Bool :=
  decide (0 ≤ itr.ci) && decide (itr.ci < (itr.t.coo.length : Int))

/-- Embeds `sptensor_coo_nz_load_index`: at a valid position the stored coordinate is
copied into the iterator's buffer, otherwise the buffer is left alone. -/
def sptensor_coo_nz_load_index {V : Type} (itr : struct_sptensor_coo_nz_iterator V) :
    struct_sptensor_coo_nz_iterator V :=
  if sptensor_coo_nz_valid itr then
    { itr with index := sptensor_index_cpy itr.t.modes (itr.t.coo.getD itr.ci.toNat []) }
  else itr

/-- Embeds `sptensor_coo_nz_next`: the returned flag and the iterator after the call. -/
def sptensor_coo_nz_next {V : Type} (itr : struct_sptensor_coo_nz_iterator V) :
    Bool × struct_sptensor_coo_nz_iterator V :=
  let itr1 := if sptensor_coo_nz_valid itr then { itr with ci := itr.ci + 1 } else itr
  let itr2 := sptensor_coo_nz_load_index itr1
  (sptensor_coo_nz_valid itr2, itr2)

/-- Embeds `sptensor_coo_nz_prev`: the returned flag and the iterator after the call. -/
def sptensor_coo_nz_prev {V : Type} (itr : struct_sptensor_coo_nz_iterator V) :
    Bool × struct_sptensor_coo_nz_iterator V :=
  let itr1 := if sptensor_coo_nz_valid itr then { itr with ci := itr.ci - 1 } else itr
  let itr2 := sptensor_coo_nz_load_index itr1
  (sptensor_coo_nz_valid itr2, itr2)

/-- Embeds `sptensor_coo_nz_iterator`: position `0`, then `load_index`.  The freshly
allocated coordinate buffer is taken to hold zeros. -/
def sptensor_coo_nz_iterator {V : Type} (t : sptensor_coo V) :
    struct_sptensor_coo_nz_iterator V :=
  sptensor_coo_nz_load_index { t := t, index := List.replicate t.modes 0, ci := 0 }

/-- Embeds `sptensor_coo_nz_iterator_get`: the value at the iterator's position,
`VVAL(mpf_t, t->data, itr->ci)`; `none` when the position is outside the value vector. -/
def sptensor_coo_nz_iterator_get {V : Type} (itr : struct_sptensor_coo_nz_iterator V) :
    Option V :=
  if 0 ≤ itr.ci then itr.t.data.get? itr.ci.toNat else none

/-- Embeds `itr_dump` of `test/csftest.c`, with the printed lines collected in a list: while
the iterator is valid, emit the carried coordinate with `sptensor_get` at it, then call
`next`.  The first argument bounds the number of loop tests; `none` means the bound was
reached before the iterator became invalid. -/
def itr_dump {V : Type} [Zero V] :
    Nat → struct_sptensor_coo_nz_iterator V → Option (List (List Nat × V))
  | 0, _ => none
  | fuel + 1, itr =>
    if sptensor_coo_nz_valid itr then
      (itr_dump fuel (sptensor_coo_nz_next itr).2).map
        (fun rest => (itr.index, sptensor_coo_get itr.t itr.index) :: rest)
    else some []

/-- The walk `for(itr = nz_iterator(t); valid(itr); next(itr))` of `sptensor_coo_write`,
collecting at every visited position the carried coordinate and the value read through
the iterator's `get` slot.  The first argument bounds the number of loop tests. -/
def sptensor_coo_nz_walk {V : Type} :
    Nat → struct_sptensor_coo_nz_iterator V → Option (List (List Nat × Option V))
  | 0, _ => none
  | fuel + 1, itr =>
    if sptensor_coo_nz_valid itr then
      (sptensor_coo_nz_walk fuel (sptensor_coo_nz_next itr).2).map
        (fun rest => (itr.index, sptensor_coo_nz_iterator_get itr) :: rest)
    else some []

/-- A sequence of `sptensor_set` calls, applied in order. -/
def sptensor_coo_set_all {V : Type} [Zero V] [DecidableEq V]
    (t : sptensor_coo V) (ops : List (List Nat × V)) : sptensor_coo V :=
  ops.foldl (fun s op => sptensor_coo_set s op.1 op.2) t

/-- The COO storage invariant of the data model: the two vectors are parallel, no two
stored coordinates are equal, no stored value is zero. -/
def coo_invariant {V : Type} [Zero V] (t : sptensor_coo V) : Prop :=
  t.coo.length = t.data.length ∧ t.coo.Nodup ∧ ∀ v ∈ t.data, v ≠ 0

/-- Every element of the coordinate vector has the tensor's arity (the vector's element
size is `sizeof(sptensor_index_t) * nmodes`). -/
def coo_arity {V : Type} (t : sptensor_coo V) : Prop :=
  ∀ c ∈ t.coo, c.length = t.modes

instance coo_invariant_decidable {V : Type} [Zero V] [DecidableEq V] (t : sptensor_coo V) :
    Decidable (coo_invariant t) :=
  inferInstanceAs
    (Decidable (t.coo.length = t.data.length ∧ t.coo.Nodup ∧ ∀ v ∈ t.data, v ≠ 0))

instance coo_arity_decidable {V : Type} (t : sptensor_coo V) : Decidable (coo_arity t) :=
  inferInstanceAs (Decidable (∀ c ∈ t.coo, c.length = t.modes))

/-- What the spec promises `get` to return after a sequence of `set` calls: the value of
the last call that addressed `c`, zero when no call did. -/
def last_set_value {V : Type} [Zero V] (ops : List (List Nat × V)) (c : List Nat) : V :=
  match ops.reverse.find? (fun op => decide (op.1 = c)) with
  | some op => op.2
  | none => 0

/-- One step of an iterator: `next` or `prev`. -/
inductive nz_move where
  | next
  | prev
  deriving DecidableEq, Repr

/-- Calls the iterator slot named by the move. -/
def sptensor_coo_nz_step {V : Type} (mv : nz_move)
    (itr : struct_sptensor_coo_nz_iterator V) : Bool × struct_sptensor_coo_nz_iterator V :=
  match mv with
  | nz_move.next => sptensor_coo_nz_next itr
  | nz_move.prev => sptensor_coo_nz_prev itr

/-- Runs a sequence of `next`/`prev` calls; returns the flags the calls returned, in
order, and the iterator after the last call. -/
def sptensor_coo_nz_run {V : Type} :
    List nz_move → struct_sptensor_coo_nz_iterator V →
      List Bool × struct_sptensor_coo_nz_iterator V
  | [], itr => ([], itr)
  | mv :: rest, itr =>
    let r := sptensor_coo_nz_step mv itr
    let rs := sptensor_coo_nz_run rest r.2
    (r.1 :: rs.1, rs.2)

/-! ## Tensor views (`lib/view.c`) -/

/-- The read slots of a `tensor_view`, observed on a fixed underlying store.  A slot
result `none` stands for a call without a defined result in C (a division by zero, a read
of storage that was never written).  The macros `TVNNZ`, `TVIDX`, `TVGETI`, `TVGET`,
`TVTO`, `TVFROM` of `view.h` (not among the sources) are taken to call the slot of the
same name. -/
structure tensor_view (V : Type) where
  nmodes : Nat
  dim : List Nat
  nnz : Option Nat
  get_idx : Nat → Option (List Nat)
  geti : Nat → Option V
  get : List Nat → Option V
  «to» : List Nat → Option (List Nat)
  «from» : List Nat → Option (List Nat)

/-- Embeds `base_view_nnz`: the count of the wrapped view `v->tns`. -/
def base_view_nnz {V : Type} (tns : tensor_view V) : Option Nat :=
  tns.nnz

/-- Embeds `base_view_get_idx`: the `i`-th coordinate of the wrapped view, translated by
the view's own `from` slot (passed as `from_slot`). -/
def base_view_get_idx {V : Type} (tns : tensor_view V)
    (from_slot : List Nat → Option (List Nat)) (i : Nat) : Option (List Nat) :=
  (tns.get_idx i).bind from_slot

/-- Embeds `base_view_geti`: passed along to the wrapped view. -/
def base_view_geti {V : Type} (tns : tensor_view V) (i : Nat) : Option V :=
  tns.geti i

/-- Embeds `base_view_get`: the coordinate is translated by the view's own `to` slot
(passed as `to_slot`) and looked up in the wrapped view. -/
def base_view_get {V : Type} (tns : tensor_view V)
    (to_slot : List Nat → Option (List Nat)) (idx : List Nat) : Option V :=
  (to_slot idx).bind tns.get

/-- Embeds `tensor_transpose_index` for the pair `t = (t0, t1)` stored in `v->data`:
`memmove` of `nmodes` components, then `out[t0] = in[t1]` and `out[t1] = in[t0]`.  Input
and output are distinct buffers at every call site. -/
def tensor_transpose_index (t0 t1 nmodes : Nat) (inn : List Nat) : List Nat :=
  let out := inn.take nmodes
  let out := out.set t0 (inn.getD t1 0)
  out.set t1 (inn.getD t0 0)

/-- Embeds `tensor_transpose`: a view over `v` whose `to` and `from` are both
`tensor_transpose_index`, with the other slots those of `base_view_alloc`. -/
def tensor_transpose {V : Type} (v : tensor_view V) (i j : Nat) : tensor_view V :=
  { nmodes := v.nmodes
    dim := tensor_transpose_index i j v.nmodes v.dim
    nnz := base_view_nnz v
    get_idx := base_view_get_idx v (fun c => some (tensor_transpose_index i j v.nmodes c))
    geti := base_view_geti v
    get := base_view_get v (fun c => some (tensor_transpose_index i j v.nmodes c))
    «to» := fun c => some (tensor_transpose_index i j v.nmodes c)
    «from» := fun c => some (tensor_transpose_index i j v.nmodes c) }

/-- The data of `struct unfold_view`.  `jk` lists the values the constructor writes to
`jk[0], jk[1], ...` in index order and `jk_alloc` is the number of entries it allocated
for them. -/
structure unfold_view where
  n : Nat
  jk : List Nat
  jk_alloc : Nat
  dim : List Nat

/-- The loop of `unfold_tensor` with the products taken in the natural numbers, without
the word size of the index type: the reference the embedding `unfold_tensor_loop` is
compared with.  `i` is the loop counter, the list holds `v->dim[i], v->dim[i+1], ...`, the
state is `tv->dim[1]` and the coefficients written so far. -/
def unfold_tensor_loop_exact (n : Nat) : List Nat → Nat → Nat × List Nat → Nat × List Nat
  | [], _, st => st
  | d :: ds, i, st =>
    if i = n then unfold_tensor_loop_exact n ds (i + 1) st
    else
      unfold_tensor_loop_exact n ds (i + 1)
        (st.1 * d, st.2 ++ [st.2.getD (st.2.length - 1) 0 * d])

/-- The `unfold_view` data with exact products (see `unfold_tensor_loop_exact`). -/
def unfold_tensor_data_exact (nmodes : Nat) (dim : List Nat) (n : Nat) : unfold_view :=
  let r := unfold_tensor_loop_exact n (dim.take nmodes) 0 (1, [1])
  { n := n, jk := r.2, jk_alloc := nmodes - 1, dim := [dim.getD n 0, r.1] }

/-- Reads `uv->jk[k]` for a C `int` index: `none` at an index that was never written. -/
def unfold_jk_read (uv : unfold_view) (k : Int) : Option Nat :=
  if 0 ≤ k then uv.jk.get? k.toNat else none

/-- The loop of `unfold_to` with `j` a natural number and exact arithmetic, the reference
for `unfold_to_loop`: the first numeric argument is `i + 1`, then the running `j` and `k`;
the output is built by prepending.  `none` when a coefficient read is undefined or
zero. -/
def unfold_to_loop_exact (uv : unfold_view) (in0 : Nat) :
    Nat → Nat → Int → List Nat → Option (List Nat)
  | 0, _, _, out => some out
  | i + 1, j, k, out =>
    if i = uv.n then unfold_to_loop_exact uv in0 i j k (in0 :: out)
    else
      match unfold_jk_read uv k with
      | none => none
      | some c =>
        if c = 0 then none
        else unfold_to_loop_exact uv in0 i (j % c) (k - 1) ((j / c + 1) :: out)

/-- The translation of `unfold_to` with exact arithmetic; `nmodes` is
`v->tns->nmodes`. -/
def unfold_to_exact (uv : unfold_view) (nmodes : Nat) (inn : List Nat) : Option (List Nat) :=
  unfold_to_loop_exact uv (inn.getD 0 0) nmodes (inn.getD 1 0 - 1) ((nmodes : Int) - 2) []

/-- The loop of `unfold_from` with exact arithmetic, the reference for
`unfold_from_loop`: `i` is the loop counter, `k` the coefficient index, the last argument
the running `out[1]`. -/
def unfold_from_loop_exact (uv : unfold_view) : List Nat → Nat → Nat → Nat → Option Nat
  | [], _, _, acc => some acc
  | x :: rest, i, k, acc =>
    if i = uv.n then unfold_from_loop_exact uv rest (i + 1) k acc
    else
      match uv.jk.get? k with
      | none => none
      | some c => unfold_from_loop_exact uv rest (i + 1) (k + 1) (acc + (x - 1) * c)

/-- The translation of `unfold_from` with exact arithmetic; `nmodes` is
`v->tns->nmodes`. -/
def unfold_from_exact (uv : unfold_view) (nmodes : Nat) (inn : List Nat) : Option (List Nat) :=
  (unfold_from_loop_exact uv (inn.take nmodes) 0 0 1).map (fun o1 => [inn.getD uv.n 0, o1])

/-- The unfold view with exact arithmetic in its translations: what `unfold_tensor`
computes as long as no product leaves the index type. -/
def unfold_tensor_exact {V : Type} (v : tensor_view V) (n : Nat) : tensor_view V :=
  { nmodes := 2
    dim := (unfold_tensor_data_exact v.nmodes v.dim n).dim
    nnz := base_view_nnz v
    get_idx := base_view_get_idx v (unfold_from_exact (unfold_tensor_data_exact v.nmodes v.dim n) v.nmodes)
    geti := base_view_geti v
    get := base_view_get v (unfold_to_exact (unfold_tensor_data_exact v.nmodes v.dim n) v.nmodes)
    «to» := unfold_to_exact (unfold_tensor_data_exact v.nmodes v.dim n) v.nmodes
    «from» := unfold_from_exact (unfold_tensor_data_exact v.nmodes v.dim n) v.nmodes }

/-- The value of the coefficient index `k` of `unfold_from` when its loop counter is `i`:
the number of modes below `i` other than the unfolded mode `n`. -/
def unfold_k_at (n i : Nat) : Nat :=
  if n < i then i - 1 else i

/-- A coordinate is in range for a dimension vector: same arity, and every component
lies in `[1, dim[mode]]` (the coordinates of the data model are 1-based). -/
def coord_in_range (dim c : List Nat) : Prop :=
  c.length = dim.length ∧ ∀ i < dim.length, 1 ≤ c.getD i 0 ∧ c.getD i 0 ≤ dim.getD i 0

instance coord_in_range_decidable (dim c : List Nat) : Decidable (coord_in_range dim c) :=
  inferInstanceAs
    (Decidable
      (c.length = dim.length ∧ ∀ i < dim.length, 1 ≤ c.getD i 0 ∧ c.getD i 0 ≤ dim.getD i 0))

/-- The product of `dim[m]` over the modes `m < i` other than `n`, in the words of the
matricisation formula. -/
def unfold_stride (dim : List Nat) (n i : Nat) : Nat :=
  ((dim.take i).eraseIdx n).prod

/-- The column index of the standard mode-`n` matricisation of a coordinate `c` of a tensor
with dimensions `dim`: `1 + sum over i != n of (c[i] - 1) * product of dim[m] over
m < i, m != n`. -/
def matricize_column (dim c : List Nat) (n nmodes : Nat) : Nat :=
  1 + ((List.range nmodes).map
    (fun i => if i = n then 0 else (c.getD i 0 - 1) * unfold_stride dim n i)).sum

/-- The part of the matricisation sum contributed by the modes below `i`. -/
def matricize_below (dim c : List Nat) (n i : Nat) : Nat :=
  ((List.range i).map
    (fun i => if i = n then 0 else (c.getD i 0 - 1) * unfold_stride dim n i)).sum

/-! ### Dense views -/

/-- A dense view: `nmodes` and `dim` of the `tensor_view`, and the fields `mul`,
`totalCount`, `elem` of `struct dense_tensor` behind its `data` pointer. -/
structure dense_tensor (V : Type) where
  nmodes : Nat
  dim : List Nat
  mul : List Nat
  totalCount : Nat
  elem : List V

/-- The loop of `dense_tensor_alloc`, `for(i = nmodes-2; i >= 0; i--)`: the numeric
argument is `i + 1`; the state is `totalCount` and the multipliers written so far,
`mul[i+1], ..., mul[nmodes-1]`, so `mul[i+1]` is the head of the list. -/
def dense_tensor_alloc_loop (dim : List Nat) : Nat → Nat × List Nat → Nat × List Nat
  | 0, st => st
  | i + 1, st =>
    dense_tensor_alloc_loop dim i
      (st.1 * dim.getD i 0, (st.2.headD 0 * dim.getD i 0) :: st.2)

/-- Embeds `dense_tensor_alloc(nmodes, dim)`: `mul[nmodes-1] = 1`,
`totalCount = dim[nmodes-1]`, then the loop; `calloc` fills `elem` with zeros. -/
def dense_tensor_alloc {V : Type} [Zero V] (nmodes : Nat) (dim : List Nat) : dense_tensor V :=
  let r := dense_tensor_alloc_loop (dim.take nmodes) (nmodes - 1)
    ((dim.take nmodes).getD (nmodes - 1) 0, [1])
  { nmodes := nmodes, dim := dim.take nmodes, mul := r.2, totalCount := r.1,
    elem := List.replicate r.1 0 }

/-- The loop of `dense_tensor_compute_index`: the lists are `idx[ui], idx[ui+1], ...` and
`mul[ui], mul[ui+1], ...`, the last argument is the running `j`. -/
def dense_tensor_compute_index_loop : List Nat → List Nat → Nat → Nat
  | x :: xs, m :: ms, j => dense_tensor_compute_index_loop xs ms (j + (x - 1) * m)
  | _, _, j => j

/-- Embeds `dense_tensor_compute_index`: the sum of `(idx[ui] - 1) * mul[ui]` over the
modes. -/
def dense_tensor_compute_index {V : Type} (d : dense_tensor V) (idx : List Nat) : Nat :=
  dense_tensor_compute_index_loop (idx.take d.nmodes) d.mul 0

/-- Embeds `dense_tensor_get`: `elem[compute_index(idx)]`; `none` when that position is
outside the element array. -/
def dense_tensor_get {V : Type} (d : dense_tensor V) (idx : List Nat) : Option V :=
  d.elem.get? (dense_tensor_compute_index d idx)

/-- Embeds `dense_tensor_set`: `elem[compute_index(idx)] = val`; `none` when that position
is outside the element array. -/
def dense_tensor_set {V : Type} (d : dense_tensor V) (idx : List Nat) (val : V) :
    Option (dense_tensor V) :=
  if dense_tensor_compute_index d idx < d.elem.length then
    some { d with elem := d.elem.set (dense_tensor_compute_index d idx) val }
  else none

/-- The row-major linear offset of a coordinate for a dimension vector: the stride of
mode `k` is the product of `dim[m]` over `m > k`. -/
def row_major_offset : List Nat → List Nat → Nat
  | x :: xs, _ :: ds => (x - 1) * ds.prod + row_major_offset xs ds
  | _, _ => 0

/-! ### Identity views -/

/-- The loop of `identity_nnz` over `dim[0], dim[1], ...` with the running minimum. -/
def identity_nnz_loop : List Nat → Nat → Nat
  | [], m => m
  | d :: ds, m => identity_nnz_loop ds (if d < m then d else m)

/-- Embeds `identity_nnz`: the running minimum starts at `dim[0]`. -/
def identity_nnz (nmodes : Nat) (dim : List Nat) : Nat :=
  identity_nnz_loop (dim.take nmodes) (dim.getD 0 0)

/-- Embeds `identity_get_idx`: `i + 1` repeated `nmodes` times. -/
def identity_get_idx (nmodes i : Nat) : List Nat :=
  List.replicate nmodes (i + 1)

/-- The loop of `identity_get` over `idx[1], idx[2], ...`: zero at the first component that
differs from `idx[0]`, one when there is none. -/
def identity_get_loop {V : Type} [Zero V] [One V] (x0 : Nat) : List Nat → V
  | [] => 1
  | x :: rest => if x ≠ x0 then 0 else identity_get_loop x0 rest

/-- Embeds `identity_get`. -/
def identity_get {V : Type} [Zero V] [One V] (nmodes : Nat) (idx : List Nat) : V :=
  identity_get_loop (idx.getD 0 0) ((idx.take nmodes).drop 1)

/-- Embeds `identity_tensor_geti`: always one. -/
def identity_tensor_geti {V : Type} [One V] (_i : Nat) : V :=
  1

/-- The read slots installed by `identity_tensor(nmodes, dim)`.  The `to` and `from`
slots are `sptensor_view_idxcpy`, which reads the element size through `v->data`; an
identity view has no `data`, so these two slots have no defined result. -/
def identity_tensor {V : Type} [Zero V] [One V] (nmodes : Nat) (dim : List Nat) :
    tensor_view V :=
  { nmodes := nmodes
    dim := dim.take nmodes
    nnz := some (identity_nnz nmodes (dim.take nmodes))
    get_idx := fun i => some (identity_get_idx nmodes i)
    geti := fun i => some (identity_tensor_geti i)
    get := fun idx => some (identity_get nmodes idx)
    «to» := fun _ => none
    «from» := fun _ => none }

/-! ### The `set` slot -/

/-- A view object over a backing store of type `S`: its read slots in a given state of
the store, and its `set` slot, `none` for the null pointer. -/
structure tensor_view_handle (S V : Type) where
  read : S → tensor_view V
  set : Option (S → List Nat → V → Option S)

/-- Modelled from the spec: the macro `TVSET(v, idx, val)` of `view.h` (not among the
sources).  It calls the view's `set` slot; for a view whose slot is absent the spec makes
the mutation a no-op rather than an error ("the `set` slot is simply absent/ignored"), so
the store is returned unchanged. -/
def TVSET {S V : Type} (h : tensor_view_handle S V) (s : S) (idx : List Nat) (val : V) :
    Option S :=
  match h.set with
  | none => some s
  | some f => f s idx val

/-- Embeds `identity_tensor(nmodes, dim)` as a view object: the read slots above and
`v->set = 0x00`.  The view owns nothing but its dimension vector, so the store is
`Unit`. -/
def identity_tensor_handle {V : Type} [Zero V] [One V] (nmodes : Nat) (dim : List Nat) :
    tensor_view_handle Unit V :=
  { read := fun _ => identity_tensor nmodes dim, set := none }

/-! ### The sptensor wrapper view -/

/-- Modelled from the spec: the `sptensor` struct that `view.c` wraps (its header and
implementation are not among the sources): mode count, dimension vector, and the
coordinate-list storage of the spec, the vector `idx` of coordinates and the parallel
vector `ar` of values. -/
structure sptensor (V : Type) where
  nmodes : Nat
  dim : List Nat
  idx : List (List Nat)
  ar : List V

/-- Modelled from the spec: `sptensor_alloc(nmodes, dim)`, an empty tensor with a copy of
the dimensions. -/
def sptensor_alloc {V : Type} (nmodes : Nat) (dim : List Nat) : sptensor V :=
  { nmodes := nmodes, dim := dim.take nmodes, idx := [], ar := [] }

/-- Modelled from the spec: `sptensor_get`, the `get` of the coordinate-list backend
(linear scan, zero when absent). -/
def sptensor_get {V : Type} [Zero V] (t : sptensor V) (i : List Nat) : V :=
  sptensor_coo_get (⟨t.nmodes, t.dim, t.idx, t.ar⟩ : sptensor_coo V) i

/-- Modelled from the spec: `sptensor_set`, the `set` of the coordinate-list backend
(append, overwrite, or remove on zero). -/
def sptensor_set {V : Type} [Zero V] [DecidableEq V] (t : sptensor V) (i : List Nat)
    (v : V) : sptensor V :=
  { nmodes := t.nmodes
    dim := t.dim
    idx := (sptensor_coo_set (⟨t.nmodes, t.dim, t.idx, t.ar⟩ : sptensor_coo V) i v).coo
    ar := (sptensor_coo_set (⟨t.nmodes, t.dim, t.idx, t.ar⟩ : sptensor_coo V) i v).data }

/-- Embeds `sptensor_view_idxcpy`: `memcpy` of one coordinate (`idx->element_size`
bytes). -/
def sptensor_view_idxcpy {V : Type} (t : sptensor V) (inn : List Nat) : List Nat :=
  inn.take t.nmodes

/-- Embeds `sptensor_view(tns)`: `nnz` is the size of `ar`, `get_idx` and `geti` read the
`i`-th entry of `idx` and `ar`, `get` is `sptensor_get`, `to` and `from` copy. -/
def sptensor_view {V : Type} [Zero V] (tns : sptensor V) : tensor_view V :=
  { nmodes := tns.nmodes
    dim := tns.dim
    nnz := some tns.ar.length
    get_idx := fun i => (tns.idx.get? i).map (fun c => c.take tns.nmodes)
    geti := fun i => tns.ar.get? i
    get := fun idx => some (sptensor_get tns idx)
    «to» := fun c => some (sptensor_view_idxcpy tns c)
    «from» := fun c => some (sptensor_view_idxcpy tns c) }

/-! ### Slice views -/

/-- Subtraction in the unsigned index type, `w` bits wide: the result modulo `2 ^ w`.
The slice translations subtract values that nothing orders, so their wrap-around is part
of the model. -/
def sp_index_sub (w a b : Nat) : Nat :=
  (a + (2 ^ w - b % 2 ^ w)) % 2 ^ w

/-- Addition in the unsigned index type, `w` bits wide. -/
def sp_index_add (w a b : Nat) : Nat :=
  (a + b) % 2 ^ w

/-- The three arrays of `tensor_slice_spec`. -/
structure tensor_slice_spec where
  fixed : List Nat
  «begin» : List Nat
  «end» : List Nat

/-- Embeds `tensor_slice_spec_alloc(v)`: the default spec, nothing fixed, every mode from
`1` to `v->dim[i]`. -/
def tensor_slice_spec_alloc {V : Type} (v : tensor_view V) : tensor_slice_spec :=
  { fixed := List.replicate v.nmodes 0
    «begin» := List.replicate v.nmodes 1
    «end» := v.dim.take v.nmodes }

/-- The loop of `tensor_slice_index_within`: the list is `idx[i], idx[i+1], ...`. -/
def tensor_slice_index_within_loop (spec : tensor_slice_spec) : List Nat → Nat → Bool
  | [], _ => true
  | x :: rest, i =>
    if spec.fixed.getD i 0 ≠ 0 ∧ x ≠ spec.fixed.getD i 0 then false
    else if x < spec.«begin».getD i 0 ∨ x > spec.«end».getD i 0 then false
    else tensor_slice_index_within_loop spec rest (i + 1)

/-- Embeds `tensor_slice_index_within`; `n` is the mode count of the wrapped view. -/
def tensor_slice_index_within (spec : tensor_slice_spec) (n : Nat) (idx : List Nat) : Bool :=
  tensor_slice_index_within_loop spec (idx.take n) 0

/-- The loop of `tensor_slice_to`: the first argument counts the modes still to do, `i` is
the loop counter, the list is what the moving pointer `in` still has ahead. -/
def tensor_slice_to_loop (w : Nat) (spec : tensor_slice_spec) :
    Nat → Nat → List Nat → List Nat
  | 0, _, _ => []
  | m + 1, i, inn =>
    if spec.fixed.getD i 0 ≠ 0 then
      spec.fixed.getD i 0 :: tensor_slice_to_loop w spec m (i + 1) inn
    else
      sp_index_add w (sp_index_sub w (inn.headD 0) 1) (spec.«begin».getD i 0) ::
        tensor_slice_to_loop w spec m (i + 1) inn.tail

/-- Embeds `tensor_slice_to` (view coordinate to wrapped coordinate); `n` is the mode
count of the wrapped view. -/
def tensor_slice_to (w : Nat) (spec : tensor_slice_spec) (n : Nat) (inn : List Nat) :
    List Nat :=
  tensor_slice_to_loop w spec n 0 inn

/-- The loop of `tensor_slice_from`: the list is `in[i], in[i+1], ...`; the outputs are
written through the moving pointer `out`, in order. -/
def tensor_slice_from_loop (w : Nat) (spec : tensor_slice_spec) : List Nat → Nat → List Nat
  | [], _ => []
  | x :: rest, i =>
    if spec.fixed.getD i 0 ≠ 0 then tensor_slice_from_loop w spec rest (i + 1)
    else
      sp_index_add w (sp_index_sub w x (spec.«begin».getD i 0)) 1 ::
        tensor_slice_from_loop w spec rest (i + 1)

/-- Embeds `tensor_slice_from` (wrapped coordinate to view coordinate). -/
def tensor_slice_from (w : Nat) (spec : tensor_slice_spec) (n : Nat) (inn : List Nat) :
    List Nat :=
  tensor_slice_from_loop w spec (inn.take n) 0

/-- The loop of `tensor_slice_nnz` over the nonzero entries of the wrapped view: entries
still to visit, loop counter, running count. -/
def tensor_slice_nnz_loop {V : Type} (tns : tensor_view V) (spec : tensor_slice_spec) :
    Nat → Nat → Nat → Option Nat
  | 0, _, count => some count
  | m + 1, i, count =>
    match tns.get_idx i with
    | none => none
    | some idx =>
      tensor_slice_nnz_loop tns spec m (i + 1)
        (if tensor_slice_index_within spec tns.nmodes idx then count + 1 else count)

/-- Embeds `tensor_slice_nnz`. -/
def tensor_slice_nnz {V : Type} (tns : tensor_view V) (spec : tensor_slice_spec) :
    Option Nat :=
  match tns.nnz with
  | none => none
  | some n => tensor_slice_nnz_loop tns spec n 0 0

/-- The loop of `tensor_slice_idx`: entries still to visit, loop counter `j`, remaining
`i`.  When the loop ends without reaching the `i`-th entry inside the slice nothing is
written to the output, which is `none` here. -/
def tensor_slice_idx_loop {V : Type} (w : Nat) (tns : tensor_view V)
    (spec : tensor_slice_spec) : Nat → Nat → Nat → Option (List Nat)
  | 0, _, _ => none
  | m + 1, j, i =>
    match tns.get_idx j with
    | none => none
    | some fidx =>
      if tensor_slice_index_within spec tns.nmodes fidx then
        if i = 0 then some (tensor_slice_from w spec tns.nmodes fidx)
        else tensor_slice_idx_loop w tns spec m (j + 1) (i - 1)
      else tensor_slice_idx_loop w tns spec m (j + 1) i

/-- Embeds `tensor_slice_idx`. -/
def tensor_slice_idx {V : Type} (w : Nat) (tns : tensor_view V) (spec : tensor_slice_spec)
    (i : Nat) : Option (List Nat) :=
  match tns.nnz with
  | none => none
  | some n => tensor_slice_idx_loop w tns spec n 0 i

/-- The first loop of `tensor_slice`: `sv->nmodes--` for every fixed mode. -/
def tensor_slice_nmodes_loop : List Nat → Nat → Nat
  | [], k => k
  | f :: fs, k => tensor_slice_nmodes_loop fs (if f ≠ 0 then k - 1 else k)

/-- The second loop of `tensor_slice`: `sv->dim[j++] = end[i] - begin[i] + 1` for every
mode that is not fixed; modes still to do, loop counter. -/
def tensor_slice_dim_loop (w : Nat) (spec : tensor_slice_spec) : Nat → Nat → List Nat
  | 0, _ => []
  | m + 1, i =>
    if spec.fixed.getD i 0 ≠ 0 then tensor_slice_dim_loop w spec m (i + 1)
    else
      sp_index_add w (sp_index_sub w (spec.«end».getD i 0) (spec.«begin».getD i 0)) 1 ::
        tensor_slice_dim_loop w spec m (i + 1)

/-- The copy of the caller's spec kept by `tensor_slice`: `memcpy` of `v->nmodes` entries
of each array. -/
def tensor_slice_copy_spec (spec : tensor_slice_spec) (nmodes : Nat) : tensor_slice_spec :=
  { fixed := spec.fixed.take nmodes
    «begin» := spec.«begin».take nmodes
    «end» := spec.«end».take nmodes }

/-- Embeds `tensor_slice(v, spec)`; `w` is the width of the index type.  The slots `nnz`,
`get_idx`, `to`, `from` are the slice functions, `geti` and `get` stay those of
`base_view_alloc`. -/
def tensor_slice {V : Type} (w : Nat) (v : tensor_view V) (spec : tensor_slice_spec) :
    tensor_view V :=
  { nmodes := tensor_slice_nmodes_loop (tensor_slice_copy_spec spec v.nmodes).fixed v.nmodes
    dim := tensor_slice_dim_loop w (tensor_slice_copy_spec spec v.nmodes) v.nmodes 0
    nnz := tensor_slice_nnz v (tensor_slice_copy_spec spec v.nmodes)
    get_idx := tensor_slice_idx w v (tensor_slice_copy_spec spec v.nmodes)
    geti := base_view_geti v
    get := base_view_get v
      (fun c => some (tensor_slice_to w (tensor_slice_copy_spec spec v.nmodes) v.nmodes c))
    «to» := fun c =>
      some (tensor_slice_to w (tensor_slice_copy_spec spec v.nmodes) v.nmodes c)
    «from» := fun c =>
      some (tensor_slice_from w (tensor_slice_copy_spec spec v.nmodes) v.nmodes c) }

/-- The tensor of `test/csftest.c`: dimensions `(3,4,5)` and the four entries, set in the
order of the test. -/
def csftest_sptensor : sptensor Int :=
  sptensor_set (sptensor_set (sptensor_set (sptensor_set (sptensor_alloc 3 [3, 4, 5])
    [1, 1, 1] 99) [2, 3, 1] 44) [2, 4, 4] 100) [3, 2, 2] 1

/-- The default spec for the view of `csftest_sptensor` with mode `0` fixed at `2`. -/
def csftest_slice_spec : tensor_slice_spec :=
  { tensor_slice_spec_alloc (sptensor_view csftest_sptensor) with
    fixed := (tensor_slice_spec_alloc (sptensor_view csftest_sptensor)).fixed.set 0 2 }

/-- The modes `j` with `i <= j < i + m` that the spec leaves free (`fixed[j] = 0`), in
increasing order. -/
def tensor_slice_free_modes (spec : tensor_slice_spec) (i m : Nat) : List Nat :=
  (List.range' i m).filter (fun j => decide (spec.fixed.getD j 0 = 0))

/-! ### Unfold views in the index type -/

/-- The width taken for the C type `int`. -/
def c_int_bits : Nat := 32

/-- Multiplication in the unsigned index type, `w` bits wide: the result modulo
`2 ^ w`. -/
def sp_index_mul (w a b : Nat) : Nat :=
  (a * b) % 2 ^ w

/-- Conversion of an index value to `int`: the value modulo `2 ^ 32`, read as a two's
complement number. -/
def c_int_of_index (x : Nat) : Int :=
  if x % 2 ^ c_int_bits < 2 ^ (c_int_bits - 1) then ((x % 2 ^ c_int_bits : Nat) : Int)
  else ((x % 2 ^ c_int_bits : Nat) : Int) - ((2 ^ c_int_bits : Nat) : Int)

/-- Conversion of an `int` to the unsigned index type of `w` bits: the value modulo
`2 ^ w`. -/
def c_index_of_int (w : Nat) (j : Int) : Nat :=
  (j % ((2 ^ w : Nat) : Int)).toNat

/-- The loop of `unfold_tensor` over the modes of the wrapped view: `i` is the loop
counter, the list holds `v->dim[i], v->dim[i+1], ...`, the state is `tv->dim[1]` and the
coefficients written so far (`k` is their number, so `jk[k-1]` is the last of them).
Both `tv->dim[1] *= v->dim[i]` and `uv->jk[k] = uv->jk[k-1] * v->dim[i]` multiply in the
index type, of `w` bits. -/
def unfold_tensor_loop (w n : Nat) : List Nat → Nat → Nat × List Nat → Nat × List Nat
  | [], _, st => st
  | d :: ds, i, st =>
    if i = n then unfold_tensor_loop w n ds (i + 1) st
    else
      unfold_tensor_loop w n ds (i + 1)
        (sp_index_mul w st.1 d,
          st.2 ++ [sp_index_mul w (st.2.getD (st.2.length - 1) 0) d])

/-- The `unfold_view` data computed by `unfold_tensor(v, n)` from `v->nmodes` and
`v->dim`, for an index type of `w` bits. -/
def unfold_tensor_data (w nmodes : Nat) (dim : List Nat) (n : Nat) : unfold_view :=
  let r := unfold_tensor_loop w n (dim.take nmodes) 0 (1, [1])
  { n := n, jk := r.2, jk_alloc := nmodes - 1, dim := [dim.getD n 0, r.1] }

/-- The loop of `unfold_to`, `for(i = nmodes-1; i >= 0; i--)`: the first numeric argument
is `i + 1`, then the running `int j` and `int k`; `out[i]` is written for descending `i`,
so the output is built by prepending.  The index type (its declaration is not among the
sources) is taken as an unsigned type of `w` bits at least as wide as `int`, so in
`j / jk[k]` and `j % jk[k]` the operand `j` is converted to the index type, and the
remainder is converted back to `int` on assignment.  `none` when a coefficient read is
undefined or zero (a division by zero). -/
def unfold_to_loop (w : Nat) (uv : unfold_view) (in0 : Nat) :
    Nat → Int → Int → List Nat → Option (List Nat)
  | 0, _, _, out => some out
  | i + 1, j, k, out =>
    if i = uv.n then unfold_to_loop w uv in0 i j k (in0 :: out)
    else
      match unfold_jk_read uv k with
      | none => none
      | some c =>
        if c = 0 then none
        else
          unfold_to_loop w uv in0 i (c_int_of_index (c_index_of_int w j % c)) (k - 1)
            (sp_index_add w (c_index_of_int w j / c) 1 :: out)

/-- Embeds `unfold_to` (view coordinate to wrapped coordinate); `nmodes` is
`v->tns->nmodes`.  `j = in[1] - 1` is computed in the index type and converted to
`int`. -/
def unfold_to (w : Nat) (uv : unfold_view) (nmodes : Nat) (inn : List Nat) :
    Option (List Nat) :=
  unfold_to_loop w uv (inn.getD 0 0) nmodes
    (c_int_of_index (sp_index_sub w (inn.getD 1 0) 1)) ((nmodes : Int) - 2) []

/-- The loop of `unfold_from` over the wrapped coordinate: `i` is the loop counter, `k`
the coefficient index, the last argument the running `out[1]`;
`out[1] += (in[i] - 1) * uv->jk[k++]` is computed in the index type. -/
def unfold_from_loop (w : Nat) (uv : unfold_view) : List Nat → Nat → Nat → Nat → Option Nat
  | [], _, _, acc => some acc
  | x :: rest, i, k, acc =>
    if i = uv.n then unfold_from_loop w uv rest (i + 1) k acc
    else
      match uv.jk.get? k with
      | none => none
      | some c =>
        unfold_from_loop w uv rest (i + 1) (k + 1)
          (sp_index_add w acc (sp_index_mul w (sp_index_sub w x 1) c))

/-- Embeds `unfold_from` (wrapped coordinate to view coordinate); `nmodes` is
`v->tns->nmodes`. -/
def unfold_from (w : Nat) (uv : unfold_view) (nmodes : Nat) (inn : List Nat) :
    Option (List Nat) :=
  (unfold_from_loop w uv (inn.take nmodes) 0 0 1).map (fun o1 => [inn.getD uv.n 0, o1])

/-- Embeds `unfold_tensor(v, n)`: a two-mode view over `v` with `to = unfold_to`,
`from = unfold_from` and the other slots those of `base_view_alloc`; `w` is the width of
the index type. -/
def unfold_tensor {V : Type} (w : Nat) (v : tensor_view V) (n : Nat) : tensor_view V :=
  { nmodes := 2
    dim := (unfold_tensor_data w v.nmodes v.dim n).dim
    nnz := base_view_nnz v
    get_idx := base_view_get_idx v
      (unfold_from w (unfold_tensor_data w v.nmodes v.dim n) v.nmodes)
    geti := base_view_geti v
    get := base_view_get v (unfold_to w (unfold_tensor_data w v.nmodes v.dim n) v.nmodes)
    «to» := unfold_to w (unfold_tensor_data w v.nmodes v.dim n) v.nmodes
    «from» := unfold_from w (unfold_tensor_data w v.nmodes v.dim n) v.nmodes }

/-- A view with dimensions `(65536, 65536, 2, 2)` and no entry: the product of the first
two dimensions is `2 ^ 32`. -/
def unfold_wide_view : tensor_view Int :=
  { nmodes := 4, dim := [65536, 65536, 2, 2], nnz := some 0, get_idx := fun _ => none,
    geti := fun _ => none, get := fun _ => some 0, «to» := fun c => some c,
    «from» := fun c => some c }

/-- The wrapper view of the tensor with dimensions `(65536, 65536, 2, 2)` and the single
entry `(1,1,1,1) = 5`. -/
def unfold_wide_sptensor : sptensor Int :=
  sptensor_set (sptensor_alloc 4 [65536, 65536, 2, 2]) [1, 1, 1, 1] 5

/-! ### Writing through the nonzero iterator -/

/-- Embeds `sptensor_coo_nz_iterator_set`: `mpf_set(VVAL(mpf_t, t->data, itr->ci), v)`.
The value at the iterator's position is overwritten, whatever `v` is; `none` when the
position is outside the value vector. -/
def sptensor_coo_nz_iterator_set {V : Type} (itr : struct_sptensor_coo_nz_iterator V)
    (v : V) : Option (struct_sptensor_coo_nz_iterator V) :=
  if 0 ≤ itr.ci ∧ itr.ci.toNat < itr.t.data.length then
    some { itr with t := { itr.t with data := itr.t.data.set itr.ci.toNat v } }
  else none

/-! ### Enumeration of a dense view -/

/-- The loop of `dense_tensor_nnz`, `for(i = 0; i < totalCount; i++)`: the first argument
is the number of iterations left, then `i` and the running `nnz`; `none` when a cell read
is outside the element array. -/
def dense_tensor_nnz_loop {V : Type} [Zero V] [DecidableEq V] (d : dense_tensor V) :
    Nat → Nat → Nat → Option Nat
  | 0, _, nnz => some nnz
  | m + 1, i, nnz =>
    match d.elem.get? i with
    | none => none
    | some e => dense_tensor_nnz_loop d m (i + 1) (if e ≠ 0 then nnz + 1 else nnz)

/-- Embeds `dense_tensor_nnz`: the number of cells `elem[i]`, `i < totalCount`, that are
not zero. -/
def dense_tensor_nnz {V : Type} [Zero V] [DecidableEq V] (d : dense_tensor V) : Option Nat :=
  dense_tensor_nnz_loop d d.totalCount 0 0

/-- The search loop that `dense_tensor_idx` and `dense_tensor_geti` both start with,
`for(j = 0; i >= 0 && j < totalCount; j++)`: the first argument is `totalCount - j`, then
`j`, `i` and the flag `first`; the result is `j` when the loop is left.  The test `i >= 0`
holds for every value of the unsigned `i`, and `break` is reached only in the branch taken
at the first non-zero cell.  Once `first` is cleared `i` is decremented and never tested
again, so its wrap-around at zero cannot change the result and the model subtracts in the
natural numbers.  `none` when a cell read is outside the element array. -/
def dense_tensor_find_loop {V : Type} [Zero V] [DecidableEq V] (d : dense_tensor V) :
    Nat → Nat → Nat → Bool → Option Nat
  | 0, j, _, _ => some j
  | m + 1, j, i, first =>
    match d.elem.get? j with
    | none => none
    | some e =>
      if e ≠ 0 then
        if first then
          if i = 0 then some j
          else dense_tensor_find_loop d m (j + 1) i false
        else dense_tensor_find_loop d m (j + 1) (i - 1) false
      else dense_tensor_find_loop d m (j + 1) i first

/-- The translation loop of `dense_tensor_idx`, `for(ui = 0; ui < nmodes; ui++)`:
`idx[ui] = j / mul[ui] + 1; j %= mul[ui]`.  The first argument is the number of modes
left, then `ui` and `j`; `none` on a division by zero or a multiplier that was never
written. -/
def dense_tensor_idx_loop {V : Type} (d : dense_tensor V) : Nat → Nat → Nat → Option (List Nat)
  | 0, _, _ => some []
  | r + 1, ui, j =>
    match d.mul.get? ui with
    | none => none
    | some m =>
      if m = 0 then none
      else (dense_tensor_idx_loop d r (ui + 1) (j % m)).map (fun rest => (j / m + 1) :: rest)

/-- Embeds `dense_tensor_idx(v, i, idx)`: the search loop, then the translation of the
position it stopped at. -/
def dense_tensor_idx {V : Type} [Zero V] [DecidableEq V] (d : dense_tensor V) (i : Nat) :
    Option (List Nat) :=
  match dense_tensor_find_loop d d.totalCount 0 i true with
  | none => none
  | some j => dense_tensor_idx_loop d d.nmodes 0 j

/-- Embeds `dense_tensor_geti(v, i)`: the search loop, then `elem[j]`; `none` when `j` is
outside the element array. -/
def dense_tensor_geti {V : Type} [Zero V] [DecidableEq V] (d : dense_tensor V) (i : Nat) :
    Option V :=
  match dense_tensor_find_loop d d.totalCount 0 i true with
  | none => none
  | some j => d.elem.get? j

/-- Embeds `dense_tensor_idxcpy`: `memcpy` of `nmodes` indexes. -/
def dense_tensor_idxcpy {V : Type} (d : dense_tensor V) (inn : List Nat) : List Nat :=
  inn.take d.nmodes

/-- The read slots that `dense_tensor_alloc` installs, for a given state of the element
array. -/
def dense_tensor_view {V : Type} [Zero V] [DecidableEq V] (d : dense_tensor V) :
    tensor_view V :=
  { nmodes := d.nmodes
    dim := d.dim
    nnz := dense_tensor_nnz d
    get_idx := dense_tensor_idx d
    geti := dense_tensor_geti d
    get := dense_tensor_get d
    «to» := fun c => some (dense_tensor_idxcpy d c)
    «from» := fun c => some (dense_tensor_idxcpy d c) }

/-- The cells of the element array that are not zero, in storage order, each with its
linear position. -/
def dense_nonzero_cells {V : Type} [Zero V] [DecidableEq V] (d : dense_tensor V) :
    List (Nat × V) :=
  ((d.elem.take d.totalCount).enum).filter (fun p => decide (p.2 ≠ 0))

/-! ### Deep copy -/

/-- Embeds `sptensor_view_set`: passes the write to `sptensor_set`. -/
def sptensor_view_set {V : Type} [Zero V] [DecidableEq V] (s : sptensor V) (idx : List Nat)
    (value : V) : Option (sptensor V) :=
  some (sptensor_set s idx value)

/-- The view object that `sptensor_view` builds: the read slots for a given state of the
wrapped tensor, and `v->set = sptensor_view_set`. -/
def sptensor_view_handle {V : Type} [Zero V] [DecidableEq V] :
    tensor_view_handle (sptensor V) V :=
  { read := sptensor_view, set := some sptensor_view_set }

/-- Embeds `tensor_alloc(nmodes, dim)`: `sptensor_view(sptensor_alloc(nmodes, dim))`, the
view object together with the fresh tensor it owns. -/
def tensor_alloc {V : Type} [Zero V] [DecidableEq V] (nmodes : Nat) (dim : List Nat) :
    tensor_view_handle (sptensor V) V × sptensor V :=
  (sptensor_view_handle, sptensor_alloc nmodes dim)

/-- The loop of `tensor_view_deep_copy`, `for(i = 0; i < nnz; i++)`:
`TVIDX(t, i, idx); TVSET(result, idx, TVGETI(t, i))`.  The first argument is the number
of iterations left, then `i` and the store of `result`; `none` when a slot of `t` has no
result. -/
def tensor_view_deep_copy_loop {S V : Type} (t : tensor_view V) (h : tensor_view_handle S V) :
    Nat → Nat → S → Option S
  | 0, _, r => some r
  | m + 1, i, r =>
    match t.get_idx i, t.geti i with
    | some idx, some val =>
      match TVSET h r idx val with
      | none => none
      | some r2 => tensor_view_deep_copy_loop t h m (i + 1) r2
    | _, _ => none

/-- Embeds `tensor_view_deep_copy(t)`: a fresh tensor from `tensor_alloc(t->nmodes,
t->dim)`, filled by the loop over `TVNNZ(t)` positions; the result is the view of the
filled tensor. -/
def tensor_view_deep_copy {V : Type} [Zero V] [DecidableEq V] (t : tensor_view V) :
    Option (tensor_view V) :=
  match t.nnz with
  | none => none
  | some nnz =>
    (tensor_view_deep_copy_loop t (tensor_alloc t.nmodes t.dim).1 nnz 0
      (tensor_alloc t.nmodes t.dim).2).map (tensor_alloc t.nmodes t.dim).1.read

/-- A COO tensor with dimensions `(3,4,5)` and the single entry `(1,1,1) = 9`. -/
def coo_single_entry : sptensor_coo Int :=
  sptensor_coo_set (sptensor_coo_alloc [3, 4, 5] 3) [1, 1, 1] 9

/-- A dense view of one mode with dimension `3` whose cells hold `5, 7, 0`: the state
after `dense_tensor_set` at `(1)` and at `(2)`. -/
def dense_two_cells : dense_tensor Int :=
  { (dense_tensor_alloc 1 [3] : dense_tensor Int) with elem := [5, 7, 0] }

/-! ### The text reader -/

/-- One whitespace-separated field of the input stream, described by what the two
conversions of `sptensor_coo_read` make of it: `as_index` is the number `%u` converts it
to and `as_value` the value `%Ff` converts it to, `none` when the conversion fails (the
field is then left in the stream).  Both conversions skip white space, line ends
included, so the stream is the sequence of its fields; a text on which a conversion stops
early counts as the fields it is split into. -/
structure coo_field (V : Type) where
  as_index : Option Nat
  as_value : Option V

/-- The loop `for(i = 0; i < nmodes; i++)` over `gmp_fscanf(file, "%u", idx + i)`: the
first argument is the number of indexes still to read; the result is the indexes read
and the rest of the stream, `none` when a conversion fails or the stream ends. -/
def sptensor_coo_read_index_loop {V : Type} :
    Nat → List (coo_field V) → Option (List Nat × List (coo_field V))
  | 0, inp => some ([], inp)
  | _ + 1, [] => none
  | n + 1, f :: rest =>
    match f.as_index with
    | none => none
    | some x => (sptensor_coo_read_index_loop n rest).map (fun r => (x :: r.1, r.2))

/-- The loop `while(!done)` of `sptensor_coo_read`: read `nmodes` indexes, then a value,
then `sptensor_set`; the first failed conversion ends the loop.  The first argument
bounds the number of iterations; `none` means the bound was reached. -/
def sptensor_coo_read_loop {V : Type} [Zero V] [DecidableEq V] (nmodes : Nat) :
    Nat → sptensor_coo V → List (coo_field V) → Option (sptensor_coo V)
  | 0, _, _ => none
  | fuel + 1, tns, inp =>
    match sptensor_coo_read_index_loop nmodes inp with
    | none => some tns
    | some (_, []) => some tns
    | some (idx, f :: rest) =>
      match f.as_value with
      | none => some tns
      | some val => sptensor_coo_read_loop nmodes fuel (sptensor_coo_set tns idx val) rest

/-- Embeds `sptensor_coo_read`: the mode count, then that many dimensions, then
`sptensor_coo_alloc` and the entry loop, which is given one iteration per field left plus
one.  The return values of the header conversions are not tested by the code; the model
answers `none` when one of them fails, since the tensor is then built from values that
were never written. -/
def sptensor_coo_read {V : Type} [Zero V] [DecidableEq V] (inp : List (coo_field V)) :
    Option (sptensor_coo V) :=
  match inp with
  | [] => none
  | f :: rest =>
    match f.as_index with
    | none => none
    | some nmodes =>
      match sptensor_coo_read_index_loop nmodes rest with
      | none => none
      | some (dims, body) =>
        sptensor_coo_read_loop nmodes (body.length + 1) (sptensor_coo_alloc dims nmodes) body

/-- A line is a well-formed entry line in the words of the format: exactly `nmodes`
fields that convert as indexes, then exactly one field that converts as a value; the
result is the entry it denotes. -/
def coo_line_entry {V : Type} (nmodes : Nat) (line : List (coo_field V)) :
    Option (List Nat × V) :=
  match sptensor_coo_read_index_loop nmodes line with
  | some (idx, [f]) => f.as_value.map (fun v => (idx, v))
  | _ => none

/-- A line holds a field that stops the reader: one of its first `nmodes` fields does
not convert as an index (and those before it do), or these all convert and the field
after them does not convert as a value.  The first argument is the number of index
fields still expected. -/
def coo_line_stops {V : Type} : Nat → List (coo_field V) → Bool
  | _, [] => false
  | 0, f :: _ => f.as_value.isNone
  | n + 1, f :: rest => f.as_index.isNone || coo_line_stops n rest

/-- A field written as a string of digits: it converts under `%u` and under `%Ff`. -/
def coo_field_digits (n : Nat) : coo_field Int :=
  { as_index := some n, as_value := some (n : Int) }

/-- A field no conversion accepts, such as a word. -/
def coo_field_word : coo_field Int :=
  { as_index := none, as_value := none }

/-! ### The hash backend -/

/-- The initial bucket count, `#define NBUCKETS 128` of `hash.h`. -/
def NBUCKETS : Nat := 128

/-- Modelled from the spec: the hash backend, of which only the declarations of `hash.h`
are among the sources (its implementation file is missing).  The fields are those of
`struct sptensor_hash`; `hashtable` is the bucket array, each bucket a sequence of
`hash_item`s (key, value) which the spec keeps in ascending key order. -/
structure sptensor_hash (V : Type) where
  modes : Nat
  dim : List Nat
  hashtable : List (List (Nat × V))
  nbuckets : Nat
  curr_size : Nat

/-- Modelled from the spec: `sptensor_hash_alloc` (implementation missing), an empty table
of `NBUCKETS` buckets. -/
def sptensor_hash_alloc {V : Type} (modes : List Nat) (nmodes : Nat) : sptensor_hash V :=
  { modes := nmodes, dim := modes.take nmodes, hashtable := List.replicate NBUCKETS [],
    nbuckets := NBUCKETS, curr_size := 0 }

/-- Modelled from the spec: the ordered search within a bucket (implementation missing),
"returns either the matching position or the insertion point that preserves bucket
ordering".  The result is the found flag and the position: the position of the first
entry whose key is not below `k`, found when that entry has key `k`. -/
def sptensor_hash_bucket_search {V : Type} (k : Nat) : List (Nat × V) → Bool × Nat
  | [] => (false, 0)
  | e :: es =>
    if e.1 = k then (true, 0)
    else if k < e.1 then (false, 0)
    else ((sptensor_hash_bucket_search k es).1, (sptensor_hash_bucket_search k es).2 + 1)

/-- Modelled from the spec: `sptensor_hash_search` (implementation missing): computes the
key, selects the bucket `key mod nbuckets`, and searches it.  The coordinate-to-key
encoding `enc` of `inzt.h` is not among the sources and is a parameter. -/
def sptensor_hash_search {V : Type} (enc : List Nat → Nat) (t : sptensor_hash V)
    (idx : List Nat) : Bool × Nat :=
  sptensor_hash_bucket_search (enc idx) (t.hashtable.getD (enc idx % t.nbuckets) [])

/-- Modelled from the spec: the `get` of the hash backend (implementation missing): the
value at the position found by the search, zero when the key is absent. -/
def sptensor_hash_get {V : Type} [Zero V] (enc : List Nat → Nat) (t : sptensor_hash V)
    (idx : List Nat) : V :=
  if (sptensor_hash_search enc t idx).1 then
    (((t.hashtable.getD (enc idx % t.nbuckets) []).get?
      (sptensor_hash_search enc t idx).2).map Prod.snd).getD 0
  else 0

/-- Modelled from the spec: the reinsertion step of `sptensor_hash_rehash`
(implementation missing): the entry goes to bucket `key mod nb` at the position the
ordered search returns, over an entry with the same key if there is one. -/
def sptensor_hash_reinsert {V : Type} (nb : Nat) (tbl : List (List (Nat × V)))
    (e : Nat × V) : List (List (Nat × V)) :=
  tbl.set (e.1 % nb)
    (if (sptensor_hash_bucket_search e.1 (tbl.getD (e.1 % nb) [])).1 then
      (tbl.getD (e.1 % nb) []).set
        (sptensor_hash_bucket_search e.1 (tbl.getD (e.1 % nb) [])).2 e
    else
      (tbl.getD (e.1 % nb) []).insertIdx
        (sptensor_hash_bucket_search e.1 (tbl.getD (e.1 % nb) [])).2 e)

/-- Modelled from the spec: `sptensor_hash_rehash` (implementation missing): "doubles
`nbuckets`, reallocates the bucket array, and reinserts every existing entry by
recomputing `key mod new_nbuckets`"; the entries are taken bucket by bucket. -/
def sptensor_hash_rehash {V : Type} (t : sptensor_hash V) : sptensor_hash V :=
  { t with
    nbuckets := 2 * t.nbuckets
    hashtable := t.hashtable.flatten.foldl (sptensor_hash_reinsert (2 * t.nbuckets))
      (List.replicate (2 * t.nbuckets) []) }

/-- Modelled from the spec: `sptensor_hash_set` (implementation missing): zero value and
existing key, remove from the bucket; zero value and absent key, nothing; non-zero and
absent, insert at the insertion point returned by the search; non-zero and existing,
overwrite in place.  After an insertion a rehash is triggered when `curr_size` reaches
the threshold; the spec leaves the threshold open, so the test `full` on `curr_size` and
`nbuckets` is a parameter. -/
def sptensor_hash_set {V : Type} [Zero V] [DecidableEq V] (enc : List Nat → Nat)
    (full : Nat → Nat → Bool) (t : sptensor_hash V) (idx : List Nat) (v : V) :
    sptensor_hash V :=
  if (sptensor_hash_search enc t idx).1 then
    if v = 0 then
      { t with
        hashtable := t.hashtable.set (enc idx % t.nbuckets)
          ((t.hashtable.getD (enc idx % t.nbuckets) []).eraseIdx
            (sptensor_hash_search enc t idx).2)
        curr_size := t.curr_size - 1 }
    else
      { t with
        hashtable := t.hashtable.set (enc idx % t.nbuckets)
          ((t.hashtable.getD (enc idx % t.nbuckets) []).set
            (sptensor_hash_search enc t idx).2 (enc idx, v)) }
  else
    if v = 0 then t
    else
      if full (t.curr_size + 1) t.nbuckets then
        sptensor_hash_rehash
          { t with
            hashtable := t.hashtable.set (enc idx % t.nbuckets)
              ((t.hashtable.getD (enc idx % t.nbuckets) []).insertIdx
                (sptensor_hash_search enc t idx).2 (enc idx, v))
            curr_size := t.curr_size + 1 }
      else
        { t with
          hashtable := t.hashtable.set (enc idx % t.nbuckets)
            ((t.hashtable.getD (enc idx % t.nbuckets) []).insertIdx
              (sptensor_hash_search enc t idx).2 (enc idx, v))
          curr_size := t.curr_size + 1 }

/-- A sequence of `sptensor_hash_set` calls, applied in order. -/
def sptensor_hash_set_all {V : Type} [Zero V] [DecidableEq V] (enc : List Nat → Nat)
    (full : Nat → Nat → Bool) (t : sptensor_hash V) (ops : List (List Nat × V)) :
    sptensor_hash V :=
  ops.foldl (fun s op => sptensor_hash_set enc full s op.1 op.2) t

/-- The bucket invariant of the data model: the bucket array has `nbuckets` buckets,
every bucket is in strictly ascending key order, and every entry of bucket `i` has
`key mod nbuckets = i`. -/
def hash_table_wf {V : Type} (nb : Nat) (tbl : List (List (Nat × V))) : Prop :=
  tbl.length = nb ∧ 0 < nb ∧
    ∀ i < nb, (tbl.getD i []).Pairwise (fun x y => x.1 < y.1) ∧
      ∀ e ∈ tbl.getD i [], e.1 % nb = i

/-- A mixed-radix coordinate-to-key encoding with the dimension vector as radices, the
example encoding the spec names. -/
def mixed_radix_key : List Nat → List Nat → Nat
  | d :: ds, x :: xs => (x - 1) + d * mixed_radix_key ds xs
  | _, _ => 0

/-- A spec for the view of `csftest_sptensor` that fixes mode `0` at `2` and gives that
mode the range `3..3`; `begin <= end <= dim` holds in every mode. -/
def csftest_slice_spec_outside : tensor_slice_spec :=
  { fixed := [2, 0, 0], «begin» := [3, 1, 1], «end» := [3, 4, 5] }

/-- The coordinate-list storage behind an `sptensor`, as a COO tensor. -/
def sptensor_storage {V : Type} (s : sptensor V) : sptensor_coo V :=
  { modes := s.nmodes, dim := s.dim, coo := s.idx, data := s.ar }

/-! ### Assignment of `mpf_t` values

`sptensor_coo_set` and `sptensor_coo_get` above copy values exactly.  GMP's assignment
functions deliver the source truncated to the precision of the destination; the
definitions of this section repeat the COO functions with the assignment as a parameter.
The exact definitions are the instance in which every value fits its destination. -/

/-- Number of bits of a GMP limb. -/
def mpf_limb_bits : Nat := 64

/-- Counts the limbs of `n` by dropping the lowest limb until nothing is left; the first
argument bounds the number of steps. -/
def mpf_limbs_loop : Nat → Nat → Nat
  | 0, _ => 0
  | fuel + 1, n => if n = 0 then 0 else mpf_limbs_loop fuel (n / 2 ^ mpf_limb_bits) + 1

/-- Number of limbs of the magnitude `n`: the least `s` with `n < 2 ^ (64 * s)`. -/
def mpf_limbs (n : Nat) : Nat :=
  mpf_limbs_loop n n

/-- What `mpf_set` and `mpf_init_set` leave in a destination of limb precision `prec` when
the source holds the integer `m`: the source itself when it has at most `prec + 1` limbs,
else its `prec + 1` most significant limbs (the lower limbs are dropped). -/
def mpf_set_limbs (prec : Nat) (m : Int) : Int :=
  let size := mpf_limbs m.natAbs
  if size ≤ prec + 1 then m
  else
    let low := 2 ^ (mpf_limb_bits * (size - (prec + 1)))
    if m < 0 then -((m.natAbs / low * low : Nat) : Int)
    else ((m.natAbs / low * low : Nat) : Int)

/-- Limb precision of a variable made by `mpf_init` or `mpf_init_set` under GMP's initial
default precision, as in `coo.c` and the test programs, which never change it. -/
def mpf_default_prec : Nat := 2

/-- Embeds `sptensor_coo_get` with its assignments spelled out: `mpf_set_d(v, 0.0)` when
the search fails, else `mpf_set(v, VVAL(mpf_t, t->data, index))`, where `load` is what
`mpf_set` makes of the stored value in the caller's variable `v`. -/
def sptensor_coo_get_mpf {V : Type} [Zero V] (load : V → V) (t : sptensor_coo V)
    (i : List Nat) : V :=
  let index := sptensor_coo_search t i
  if index = -1 then 0 else load (t.data.getD index.toNat 0)

/-- Embeds `sptensor_coo_set` with its assignments spelled out: the zero test
`mpf_cmp_d(v, 0.0) == 0` is on the value passed, and `store` is what `mpf_init_set(nv, v)`
and `mpf_set(VVAL(mpf_t, t->data, index), v)` make of it in the entry of the tensor. -/
def sptensor_coo_set_mpf {V : Type} [Zero V] [DecidableEq V] (store : V → V)
    (t : sptensor_coo V) (i : List Nat) (v : V) : sptensor_coo V :=
  let index := sptensor_coo_search t i
  if index = -1 then
    if v = 0 then t
    else
      { t with
        coo := sptensor_vector_push_back t.coo (i.take t.modes)
        data := sptensor_vector_push_back t.data (store v) }
  else
    if v = 0 then
      { t with
        coo := sptensor_vector_remove t.coo index.toNat
        data := sptensor_vector_remove t.data index.toNat }
    else
      { t with data := t.data.set index.toNat (store v) }

/-- A sequence of `sptensor_set` calls whose assignments are `store`, applied in order. -/
def sptensor_coo_set_all_mpf {V : Type} [Zero V] [DecidableEq V] (store : V → V)
    (t : sptensor_coo V) (ops : List (List Nat × V)) : sptensor_coo V :=
  ops.foldl (fun s op => sptensor_coo_set_mpf store s op.1 op.2) t

/-- Embeds the `get` slot of the nonzero iterator with its assignment spelled out:
`mpf_set(v, VVAL(mpf_t, t->data, itr->ci))`, where `load` is what `mpf_set` makes of the
stored value in the caller's variable. -/
def sptensor_coo_nz_iterator_get_mpf {V : Type} (load : V → V)
    (itr : struct_sptensor_coo_nz_iterator V) : Option V :=
  if 0 ≤ itr.ci then (itr.t.data.get? itr.ci.toNat).map load else none

/-- The walk `for(itr = nz_iterator(t); valid(itr); next(itr))`, collecting at every
visited position the carried coordinate and the value the iterator's `get` slot assigns to
the caller's variable.  The first argument bounds the number of loop tests. -/
def sptensor_coo_nz_walk_mpf {V : Type} (load : V → V) :
    Nat → struct_sptensor_coo_nz_iterator V → Option (List (List Nat × Option V))
  | 0, _ => none
  | fuel + 1, itr =>
    if sptensor_coo_nz_valid itr then
      (sptensor_coo_nz_walk_mpf load fuel (sptensor_coo_nz_next itr).2).map
        (fun rest => (itr.index, sptensor_coo_nz_iterator_get_mpf load itr) :: rest)
    else some []

/-- Embeds `itr_dump` of `test/csftest.c` with the assignment of `sptensor_get` spelled
out: the printed value is the one `mpf_set` leaves in the variable `v` of the test. -/
def itr_dump_mpf {V : Type} [Zero V] (load : V → V) :
    Nat → struct_sptensor_coo_nz_iterator V → Option (List (List Nat × V))
  | 0, _ => none
  | fuel + 1, itr =>
    if sptensor_coo_nz_valid itr then
      (itr_dump_mpf load fuel (sptensor_coo_nz_next itr).2).map
        (fun rest => (itr.index, sptensor_coo_get_mpf load itr.t itr.index) :: rest)
    else some []

/-! ### The text writer -/

/-- The loop `for(itr = nz_iterator(tns); valid(itr); next(itr))` of `sptensor_coo_write`:
at every visited position it prints the `modes` components of the carried coordinate with
`"%u\t"` and the value `sptensor_get(tns, itr->index, val)` with `"%Ff\n"`.  The output is
the sequence of fields printed; `fmt_u n` is the field `%u` prints for `n` and `fmt_Ff v`
the field `%Ff` prints for `v`.  The variable `val` and the stored entries have the default
precision, so `sptensor_get` hands the stored value over unchanged.  The first argument
bounds the number of loop tests. -/
def sptensor_coo_write_loop {V : Type} [Zero V] (fmt_u : Nat → coo_field V)
    (fmt_Ff : V → coo_field V) (tns : sptensor_coo V) :
    Nat → struct_sptensor_coo_nz_iterator V → Option (List (coo_field V))
  | 0, _ => none
  | fuel + 1, itr =>
    if sptensor_coo_nz_valid itr then
      (sptensor_coo_write_loop fmt_u fmt_Ff tns fuel (sptensor_coo_nz_next itr).2).map
        (fun rest => (List.range tns.modes).map (fun i => fmt_u (itr.index.getD i 0)) ++
          fmt_Ff (sptensor_coo_get tns itr.index) :: rest)
    else some []

/-- Embeds `sptensor_coo_write`: the preamble (`modes`, then `dim[i]` for `i < modes`),
then the loop over the nonzero iterator. -/
def sptensor_coo_write {V : Type} [Zero V] (fmt_u : Nat → coo_field V)
    (fmt_Ff : V → coo_field V) (fuel : Nat) (tns : sptensor_coo V) :
    Option (List (coo_field V)) :=
  (sptensor_coo_write_loop fmt_u fmt_Ff tns fuel (sptensor_coo_nz_iterator tns)).map
    (fun body => fmt_u tns.modes ::
      ((List.range tns.modes).map (fun i => fmt_u (tns.dim.getD i 0)) ++ body))

/-- Values counted in units of `10 ^ (-7)`: the integer `m` stands for `m / 10 ^ 7`. -/
def coo_unit_digits : Nat := 7

/-- The field `%u` prints for `n`, a string of digits: `%u` reads it back as `n`, and
`%Ff` reads it as the value `n`, which is `n * 10 ^ 7` units. -/
def coo_field_unsigned (n : Nat) : coo_field Int :=
  { as_index := some n, as_value := some ((n : Int) * 10 ^ coo_unit_digits) }

/-- What `%Ff` prints for a value of `m` units and reads back from it: the conversion
prints six decimals, so the text denotes `m` rounded to a multiple of ten units. -/
def coo_six_decimals (m : Int) : Int :=
  (m + 5) / 10 * 10

/-- The field `%Ff` prints for a non-negative value of `m` units, such as `0.000000` for
one unit: `%Ff` reads it back as `coo_six_decimals m`; `%u` would convert its integer
part. -/
def coo_field_Ff (m : Int) : coo_field Int :=
  { as_index := some (m / 10 ^ coo_unit_digits).toNat, as_value := some (coo_six_decimals m) }

/-! ## Auxiliary facts about the coordinate model and the search loop -/

theorem sptensor_index_cmp_eq_zero_iff (n : Nat) (a b : List Nat) :
    sptensor_index_cmp n a b = 0 ↔ a.take n = b.take n := by
  induction n generalizing a b with
  | zero => simp [sptensor_index_cmp]
  | succ n ih =>
    cases a with
    | nil =>
      cases b with
      | nil => simp [sptensor_index_cmp]
      | cons y b => simp [sptensor_index_cmp]
    | cons x a =>
      cases b with
      | nil => simp [sptensor_index_cmp]
      | cons y b =>
        simp only [sptensor_index_cmp, List.take_succ_cons, List.cons.injEq]
        by_cases h1 : x < y
        · simp only [h1, if_true]
          constructor
          · intro h; omega
          · intro h; omega
        · by_cases h2 : y < x
          · simp only [h1, h2, if_true, if_false]
            constructor
            · intro h; omega
            · intro h; omega
          · simp only [h1, h2, if_false]
            rw [ih]
            constructor
            · intro h; exact ⟨by omega, h⟩
            · intro h; exact h.2

theorem sptensor_index_cmp_self_arity (m : Nat) (idx c : List Nat)
    (hi : idx.length = m) (hc : c.length = m) :
    sptensor_index_cmp m idx c = 0 ↔ c = idx := by
  rw [sptensor_index_cmp_eq_zero_iff, List.take_of_length_le (le_of_eq hi),
    List.take_of_length_le (le_of_eq hc)]
  exact eq_comm

theorem search_loop_range (m : Nat) (idx : List Nat) (cs : List (List Nat)) (i : Nat) :
    sptensor_coo_search_loop m idx cs i = -1 ∨
      ((i : Int) ≤ sptensor_coo_search_loop m idx cs i ∧
        sptensor_coo_search_loop m idx cs i < (i : Int) + cs.length) := by
  induction cs generalizing i with
  | nil => simp [sptensor_coo_search_loop]
  | cons c cs ih =>
    simp only [sptensor_coo_search_loop]
    split
    · right
      simp only [List.length_cons]
      omega
    · rcases ih (i + 1) with h | h
      · left; exact h
      · right
        simp only [List.length_cons]
        push_cast at h ⊢
        omega

theorem search_loop_shift (m : Nat) (idx : List Nat) (cs : List (List Nat)) (i : Nat) :
    sptensor_coo_search_loop m idx cs (i + 1) =
      if sptensor_coo_search_loop m idx cs i = -1 then -1
      else sptensor_coo_search_loop m idx cs i + 1 := by
  induction cs generalizing i with
  | nil => simp [sptensor_coo_search_loop]
  | cons c cs ih =>
    simp only [sptensor_coo_search_loop]
    by_cases h : sptensor_index_cmp m idx c = 0
    · simp only [h, if_true]
      have : ¬ ((i : Int) = -1) := by omega
      simp only [this, if_false]
      push_cast
      rfl
    · simp only [h, if_false]
      exact ih (i + 1)

theorem search_loop_cons (m : Nat) (idx c : List Nat) (cs : List (List Nat)) :
    sptensor_coo_search_loop m idx (c :: cs) 0 =
      if sptensor_index_cmp m idx c = 0 then 0
      else if sptensor_coo_search_loop m idx cs 0 = -1 then -1
      else sptensor_coo_search_loop m idx cs 0 + 1 := by
  simp only [sptensor_coo_search_loop]
  by_cases h : sptensor_index_cmp m idx c = 0
  · simp [h]
  · simp only [h, if_false]
    exact search_loop_shift m idx cs 0

theorem search_loop_eq_neg_one_iff (m : Nat) (idx : List Nat) (cs : List (List Nat)) :
    sptensor_coo_search_loop m idx cs 0 = -1 ↔
      ∀ c ∈ cs, sptensor_index_cmp m idx c ≠ 0 := by
  induction cs with
  | nil => simp [sptensor_coo_search_loop]
  | cons c cs ih =>
    rw [search_loop_cons]
    by_cases h : sptensor_index_cmp m idx c = 0
    · simp [h]
    · simp only [h, if_false, List.mem_cons, forall_eq_or_imp, ne_eq, not_false_eq_true,
        true_and]
      rw [← ih]
      rcases search_loop_range m idx cs 0 with h1 | h1
      · simp [h1]
      · have h2 : ¬ (sptensor_coo_search_loop m idx cs 0 = -1) := by omega
        simp only [h2, if_false, iff_false]
        omega

/-! ## `get` and `set` on a non-empty store -/

theorem coo_get_nil {V : Type} [Zero V] (m : Nat) (d : List Nat) (xs : List V)
    (idx : List Nat) :
    sptensor_coo_get (⟨m, d, [], xs⟩ : sptensor_coo V) idx = 0 := by
  simp [sptensor_coo_get, sptensor_coo_search, sptensor_coo_search_loop]

theorem coo_get_cons {V : Type} [Zero V] (m : Nat) (d : List Nat) (c : List Nat)
    (cs : List (List Nat)) (x : V) (xs : List V) (idx : List Nat) :
    sptensor_coo_get (⟨m, d, c :: cs, x :: xs⟩ : sptensor_coo V) idx =
      if sptensor_index_cmp m idx c = 0 then x
      else sptensor_coo_get (⟨m, d, cs, xs⟩ : sptensor_coo V) idx := by
  simp only [sptensor_coo_get, sptensor_coo_search]
  rw [search_loop_cons]
  by_cases h : sptensor_index_cmp m idx c = 0
  · simp [h]
  · simp only [h, if_false]
    rcases search_loop_range m idx cs 0 with h1 | h1
    · simp [h1]
    · have h2 : ¬ (sptensor_coo_search_loop m idx cs 0 = -1) := by omega
      have h3 : ¬ (sptensor_coo_search_loop m idx cs 0 + 1 = -1) := by omega
      simp only [h2, h3, if_false]
      have h4 : (sptensor_coo_search_loop m idx cs 0 + 1).toNat =
          (sptensor_coo_search_loop m idx cs 0).toNat + 1 := by omega
      rw [h4, List.getD_cons_succ]

theorem coo_set_nil {V : Type} [Zero V] [DecidableEq V] (m : Nat) (d : List Nat)
    (idx : List Nat) (v : V) :
    sptensor_coo_set (⟨m, d, [], []⟩ : sptensor_coo V) idx v =
      if v = 0 then ⟨m, d, [], []⟩ else ⟨m, d, [idx.take m], [v]⟩ := by
  simp [sptensor_coo_set, sptensor_coo_search, sptensor_coo_search_loop,
    sptensor_vector_push_back]

theorem coo_set_cons {V : Type} [Zero V] [DecidableEq V] (m : Nat) (d : List Nat)
    (c : List Nat) (cs : List (List Nat)) (x : V) (xs : List V) (idx : List Nat) (v : V) :
    sptensor_coo_set (⟨m, d, c :: cs, x :: xs⟩ : sptensor_coo V) idx v =
      if sptensor_index_cmp m idx c = 0 then
        (if v = 0 then ⟨m, d, cs, xs⟩ else ⟨m, d, c :: cs, v :: xs⟩)
      else
        ⟨m, d, c :: (sptensor_coo_set (⟨m, d, cs, xs⟩ : sptensor_coo V) idx v).coo,
          x :: (sptensor_coo_set (⟨m, d, cs, xs⟩ : sptensor_coo V) idx v).data⟩ := by
  simp only [sptensor_coo_set, sptensor_coo_search]
  rw [search_loop_cons]
  by_cases h : sptensor_index_cmp m idx c = 0
  · by_cases hv : v = 0
    · simp [h, hv, sptensor_vector_remove]
    · simp [h, hv]
  · simp only [h, if_false]
    rcases search_loop_range m idx cs 0 with h1 | h1
    · by_cases hv : v = 0
      · simp [h1, hv]
      · simp [h1, hv, sptensor_vector_push_back]
    · have h2 : ¬ (sptensor_coo_search_loop m idx cs 0 = -1) := by omega
      have h3 : ¬ (sptensor_coo_search_loop m idx cs 0 + 1 = -1) := by omega
      have h4 : (sptensor_coo_search_loop m idx cs 0 + 1).toNat =
          (sptensor_coo_search_loop m idx cs 0).toNat + 1 := by omega
      simp only [h2, h3, if_false, h4]
      by_cases hv : v = 0
      · simp [hv, sptensor_vector_remove]
      · simp [hv]

theorem coo_set_modes {V : Type} [Zero V] [DecidableEq V] (t : sptensor_coo V)
    (idx : List Nat) (v : V) : (sptensor_coo_set t idx v).modes = t.modes := by
  unfold sptensor_coo_set
  simp only
  split <;> split <;> rfl

theorem coo_set_dim {V : Type} [Zero V] [DecidableEq V] (t : sptensor_coo V)
    (idx : List Nat) (v : V) : (sptensor_coo_set t idx v).dim = t.dim := by
  unfold sptensor_coo_set
  simp only
  split <;> split <;> rfl

theorem coo_set_eta {V : Type} [Zero V] [DecidableEq V] (m : Nat) (d : List Nat)
    (cs : List (List Nat)) (xs : List V) (idx : List Nat) (v : V) :
    (⟨m, d, (sptensor_coo_set (⟨m, d, cs, xs⟩ : sptensor_coo V) idx v).coo,
      (sptensor_coo_set (⟨m, d, cs, xs⟩ : sptensor_coo V) idx v).data⟩ : sptensor_coo V) =
      sptensor_coo_set (⟨m, d, cs, xs⟩ : sptensor_coo V) idx v := by
  have h1 := coo_set_modes (⟨m, d, cs, xs⟩ : sptensor_coo V) idx v
  have h2 := coo_set_dim (⟨m, d, cs, xs⟩ : sptensor_coo V) idx v
  generalize sptensor_coo_set (⟨m, d, cs, xs⟩ : sptensor_coo V) idx v = r at h1 h2
  cases r
  simp only at h1 h2
  subst h1 h2
  rfl

/-! ## Effect of `set` on the stored sequences -/

theorem coo_set_length {V : Type} [Zero V] [DecidableEq V] (m : Nat) (d : List Nat)
    (idx : List Nat) (v : V) (cs : List (List Nat)) (xs : List V)
    (hlen : cs.length = xs.length) :
    (sptensor_coo_set (⟨m, d, cs, xs⟩ : sptensor_coo V) idx v).coo.length =
      (sptensor_coo_set (⟨m, d, cs, xs⟩ : sptensor_coo V) idx v).data.length := by
  induction cs generalizing xs with
  | nil =>
    cases xs with
    | nil => rw [coo_set_nil]; split <;> simp
    | cons x xs => simp at hlen
  | cons c cs ih =>
    cases xs with
    | nil => simp at hlen
    | cons x xs =>
      have hlen1 : cs.length = xs.length := by simpa using hlen
      rw [coo_set_cons]
      split
      · split
        · exact hlen1
        · simpa using hlen1
      · simpa using ih xs hlen1

theorem coo_set_mem_imp {V : Type} [Zero V] [DecidableEq V] (m : Nat) (d : List Nat)
    (idx : List Nat) (v : V) (cs : List (List Nat)) (xs : List V)
    (hlen : cs.length = xs.length) (c1 : List Nat)
    (h : c1 ∈ (sptensor_coo_set (⟨m, d, cs, xs⟩ : sptensor_coo V) idx v).coo) :
    c1 = idx.take m ∨ c1 ∈ cs := by
  induction cs generalizing xs with
  | nil =>
    cases xs with
    | nil =>
      rw [coo_set_nil] at h
      split at h
      · simp at h
      · left
        simpa using h
    | cons x xs => simp at hlen
  | cons c cs ih =>
    cases xs with
    | nil => simp at hlen
    | cons x xs =>
      have hlen1 : cs.length = xs.length := by simpa using hlen
      rw [coo_set_cons] at h
      split at h
      · split at h
        · right; exact List.mem_cons_of_mem _ h
        · right; exact h
      · simp only [List.mem_cons] at h ⊢
        rcases h with h | h
        · right; left; exact h
        · rcases ih xs hlen1 h with h1 | h1
          · left; exact h1
          · right; right; exact h1

theorem coo_set_nodup {V : Type} [Zero V] [DecidableEq V] (m : Nat) (d : List Nat)
    (idx : List Nat) (v : V) (cs : List (List Nat)) (xs : List V)
    (hlen : cs.length = xs.length) (hnd : cs.Nodup) :
    (sptensor_coo_set (⟨m, d, cs, xs⟩ : sptensor_coo V) idx v).coo.Nodup := by
  induction cs generalizing xs with
  | nil =>
    cases xs with
    | nil => rw [coo_set_nil]; split <;> simp
    | cons x xs => simp at hlen
  | cons c cs ih =>
    cases xs with
    | nil => simp at hlen
    | cons x xs =>
      have hlen1 : cs.length = xs.length := by simpa using hlen
      rw [List.nodup_cons] at hnd
      rw [coo_set_cons]
      split
      · split
        · exact hnd.2
        · exact List.nodup_cons.mpr hnd
      · rename_i hne
        refine List.nodup_cons.mpr ⟨?_, ih xs hlen1 hnd.2⟩
        intro hmem
        rcases coo_set_mem_imp m d idx v cs xs hlen1 c hmem with h1 | h1
        · apply hne
          rw [sptensor_index_cmp_eq_zero_iff, h1, List.take_take, min_self]
        · exact hnd.1 h1

theorem coo_set_mem_iff {V : Type} [Zero V] [DecidableEq V] (m : Nat) (d : List Nat)
    (idx : List Nat) (v : V) (hidx : idx.length = m) (cs : List (List Nat)) (xs : List V)
    (hlen : cs.length = xs.length) (har : ∀ c ∈ cs, c.length = m) (hnd : cs.Nodup)
    (c1 : List Nat) :
    c1 ∈ (sptensor_coo_set (⟨m, d, cs, xs⟩ : sptensor_coo V) idx v).coo ↔
      (c1 = idx ∧ v ≠ 0) ∨ (c1 ≠ idx ∧ c1 ∈ cs) := by
  induction cs generalizing xs with
  | nil =>
    cases xs with
    | nil =>
      rw [coo_set_nil]
      split
      · rename_i hv; simp [hv]
      · rename_i hv; simp [hv, List.take_of_length_le (le_of_eq hidx)]
    | cons x xs => simp at hlen
  | cons c cs ih =>
    cases xs with
    | nil => simp at hlen
    | cons x xs =>
      have hlen1 : cs.length = xs.length := by simpa using hlen
      have hc : c.length = m := har c (List.mem_cons_self _ _)
      have har1 : ∀ c ∈ cs, c.length = m := fun c1 h1 => har c1 (List.mem_cons_of_mem _ h1)
      rw [List.nodup_cons] at hnd
      rw [coo_set_cons]
      split
      · rename_i heq
        rw [sptensor_index_cmp_self_arity m idx c hidx hc] at heq
        subst heq
        split
        · rename_i hv
          simp only [hv, ne_eq, not_true_eq_false, and_false, List.mem_cons, false_or]
          constructor
          · intro h
            refine ⟨?_, Or.inr h⟩
            intro h2; subst h2; exact hnd.1 h
          · rintro ⟨h1, h2 | h2⟩
            · exact absurd h2 h1
            · exact h2
        · rename_i hv
          simp only [List.mem_cons, ne_eq, hv, not_false_eq_true, and_true]
          constructor
          · rintro (h | h)
            · left; exact h
            · right
              refine ⟨?_, Or.inr h⟩
              intro h2; subst h2; exact hnd.1 h
          · rintro (h | ⟨_, h⟩)
            · left; exact h
            · exact h
      · rename_i hne
        rw [sptensor_index_cmp_self_arity m idx c hidx hc] at hne
        simp only [List.mem_cons]
        rw [ih xs hlen1 har1 hnd.2]
        constructor
        · rintro (h | h | h)
          · right; subst h; exact ⟨hne, Or.inl rfl⟩
          · left; exact h
          · right; exact ⟨h.1, Or.inr h.2⟩
        · rintro (h | ⟨h1, h2 | h2⟩)
          · right; left; exact h
          · left; exact h2
          · right; right; exact ⟨h1, h2⟩

theorem coo_set_data_ne_zero {V : Type} [Zero V] [DecidableEq V] (m : Nat) (d : List Nat)
    (idx : List Nat) (v : V) (cs : List (List Nat)) (xs : List V)
    (hlen : cs.length = xs.length) (hnz : ∀ x ∈ xs, x ≠ 0) :
    ∀ x ∈ (sptensor_coo_set (⟨m, d, cs, xs⟩ : sptensor_coo V) idx v).data, x ≠ 0 := by
  induction cs generalizing xs with
  | nil =>
    cases xs with
    | nil =>
      rw [coo_set_nil]
      split
      · simp
      · rename_i hv; simpa using hv
    | cons x xs => simp at hlen
  | cons c cs ih =>
    cases xs with
    | nil => simp at hlen
    | cons x xs =>
      have hlen1 : cs.length = xs.length := by simpa using hlen
      have hx : x ≠ 0 := hnz x (List.mem_cons_self _ _)
      have hnz1 : ∀ y ∈ xs, y ≠ 0 := fun y h1 => hnz y (List.mem_cons_of_mem _ h1)
      rw [coo_set_cons]
      split
      · split
        · exact hnz1
        · rename_i hv
          intro y hy
          simp only [List.mem_cons] at hy
          rcases hy with hy | hy
          · subst hy; exact hv
          · exact hnz1 y hy
      · intro y hy
        simp only [List.mem_cons] at hy
        rcases hy with hy | hy
        · subst hy; exact hx
        · exact ih xs hlen1 hnz1 y hy

/-! ## `get` after `set` -/

theorem coo_get_of_not_mem {V : Type} [Zero V] (m : Nat) (d : List Nat)
    (cs : List (List Nat)) (xs : List V) (idx : List Nat) (hidx : idx.length = m)
    (har : ∀ c ∈ cs, c.length = m) (h : idx ∉ cs) :
    sptensor_coo_get (⟨m, d, cs, xs⟩ : sptensor_coo V) idx = 0 := by
  have hs : sptensor_coo_search_loop m idx cs 0 = -1 := by
    rw [search_loop_eq_neg_one_iff]
    intro c hc hcmp
    rw [sptensor_index_cmp_self_arity m idx c hidx (har c hc)] at hcmp
    subst hcmp
    exact h hc
  simp [sptensor_coo_get, sptensor_coo_search, hs]

theorem coo_get_set_raw {V : Type} [Zero V] [DecidableEq V] (m : Nat) (d : List Nat)
    (idx : List Nat) (v : V) (hidx : idx.length = m) (c1 : List Nat) (hc1 : c1.length = m)
    (cs : List (List Nat)) (xs : List V)
    (hlen : cs.length = xs.length) (har : ∀ c ∈ cs, c.length = m) (hnd : cs.Nodup) :
    sptensor_coo_get (sptensor_coo_set (⟨m, d, cs, xs⟩ : sptensor_coo V) idx v) c1 =
      if c1 = idx then v else sptensor_coo_get (⟨m, d, cs, xs⟩ : sptensor_coo V) c1 := by
  induction cs generalizing xs with
  | nil =>
    cases xs with
    | nil =>
      rw [coo_set_nil]
      by_cases hv : v = 0
      · simp only [hv, if_true, coo_get_nil]
        split <;> rfl
      · simp only [hv, if_false, coo_get_cons, coo_get_nil]
        rw [List.take_of_length_le (le_of_eq hidx)]
        by_cases h : c1 = idx
        · subst h
          have := (sptensor_index_cmp_self_arity m c1 c1 hc1 hc1).mpr rfl
          simp [this]
        · have : ¬ (sptensor_index_cmp m c1 idx = 0) := by
            rw [sptensor_index_cmp_self_arity m c1 idx hc1 hidx]
            exact fun h2 => h h2.symm
          simp [this, h]
    | cons x xs => simp at hlen
  | cons c cs ih =>
    cases xs with
    | nil => simp at hlen
    | cons x xs =>
      have hlen1 : cs.length = xs.length := by simpa using hlen
      have hc : c.length = m := har c (List.mem_cons_self _ _)
      have har1 : ∀ c ∈ cs, c.length = m := fun c2 h1 => har c2 (List.mem_cons_of_mem _ h1)
      rw [List.nodup_cons] at hnd
      rw [coo_set_cons]
      by_cases hcmp : sptensor_index_cmp m idx c = 0
      · simp only [hcmp, if_true]
        rw [sptensor_index_cmp_self_arity m idx c hidx hc] at hcmp
        subst hcmp
        by_cases hv : v = 0
        · simp only [hv, if_true]
          by_cases h : c1 = c
          · subst h
            simp only [if_true]
            exact coo_get_of_not_mem m d cs xs c1 hidx har1 hnd.1
          · have h2 : ¬ (sptensor_index_cmp m c1 c = 0) := by
              rw [sptensor_index_cmp_self_arity m c1 c hc1 hc]
              exact fun h2 => h h2.symm
            simp only [h, if_false, coo_get_cons, h2]
        · simp only [hv, if_false, coo_get_cons]
          by_cases h : c1 = c
          · subst h
            have := (sptensor_index_cmp_self_arity m c1 c1 hc1 hc1).mpr rfl
            simp [this]
          · have h2 : ¬ (sptensor_index_cmp m c1 c = 0) := by
              rw [sptensor_index_cmp_self_arity m c1 c hc1 hc]
              exact fun h2 => h h2.symm
            simp [h2, h]
      · simp only [hcmp, if_false, coo_get_cons]
        rw [sptensor_index_cmp_self_arity m idx c hidx hc] at hcmp
        by_cases h : sptensor_index_cmp m c1 c = 0
        · simp only [h, if_true]
          rw [sptensor_index_cmp_self_arity m c1 c hc1 hc] at h
          have h3 : ¬ (c1 = idx) := by
            intro h4; apply hcmp; rw [h, h4]
          simp [h3]
        · simp only [h, if_false]
          rw [coo_set_eta]
          exact ih xs hlen1 har1 hnd.2

theorem coo_get_ne_zero_iff_raw {V : Type} [Zero V] (m : Nat) (d : List Nat)
    (c1 : List Nat) (hc1 : c1.length = m) (cs : List (List Nat)) (xs : List V)
    (hlen : cs.length = xs.length) (har : ∀ c ∈ cs, c.length = m)
    (hnz : ∀ x ∈ xs, x ≠ 0) :
    sptensor_coo_get (⟨m, d, cs, xs⟩ : sptensor_coo V) c1 ≠ 0 ↔ c1 ∈ cs := by
  induction cs generalizing xs with
  | nil => simp [coo_get_nil]
  | cons c cs ih =>
    cases xs with
    | nil => simp at hlen
    | cons x xs =>
      have hlen1 : cs.length = xs.length := by simpa using hlen
      have hc : c.length = m := har c (List.mem_cons_self _ _)
      have har1 : ∀ c ∈ cs, c.length = m := fun c2 h1 => har c2 (List.mem_cons_of_mem _ h1)
      have hx : x ≠ 0 := hnz x (List.mem_cons_self _ _)
      have hnz1 : ∀ y ∈ xs, y ≠ 0 := fun y h1 => hnz y (List.mem_cons_of_mem _ h1)
      rw [coo_get_cons]
      by_cases h : sptensor_index_cmp m c1 c = 0
      · simp only [h, if_true]
        rw [sptensor_index_cmp_self_arity m c1 c hc1 hc] at h
        simp [hx, h]
      · simp only [h, if_false]
        rw [sptensor_index_cmp_self_arity m c1 c hc1 hc] at h
        rw [ih xs hlen1 har1 hnz1]
        simp only [List.mem_cons]
        constructor
        · intro h2; exact Or.inr h2
        · rintro (h2 | h2)
          · exact absurd h2.symm h
          · exact h2

/-! ## The invariant along sequences of `set` calls -/

theorem coo_eta {V : Type} (t : sptensor_coo V) :
    (⟨t.modes, t.dim, t.coo, t.data⟩ : sptensor_coo V) = t := by
  cases t; rfl

theorem coo_set_invariant {V : Type} [Zero V] [DecidableEq V] (t : sptensor_coo V)
    (idx : List Nat) (v : V) (hidx : idx.length = t.modes) (har : coo_arity t)
    (hinv : coo_invariant t) :
    coo_invariant (sptensor_coo_set t idx v) ∧ coo_arity (sptensor_coo_set t idx v) := by
  obtain ⟨hlen, hnd, hnz⟩ := hinv
  rw [← coo_eta t]
  refine ⟨⟨coo_set_length _ _ idx v t.coo t.data hlen,
    coo_set_nodup _ _ idx v t.coo t.data hlen hnd,
    coo_set_data_ne_zero _ _ idx v t.coo t.data hlen hnz⟩, ?_⟩
  intro c hc
  rw [coo_set_modes]
  rcases coo_set_mem_imp _ _ idx v t.coo t.data hlen c hc with h | h
  · rw [h, List.take_of_length_le (le_of_eq hidx)]; exact hidx
  · exact har c h

theorem coo_alloc_invariant {V : Type} [Zero V] (dims : List Nat) (n : Nat) :
    coo_invariant (sptensor_coo_alloc dims n : sptensor_coo V) ∧
      coo_arity (sptensor_coo_alloc dims n : sptensor_coo V) := by
  simp [coo_invariant, coo_arity, sptensor_coo_alloc]

theorem coo_set_all_modes {V : Type} [Zero V] [DecidableEq V] (ops : List (List Nat × V))
    (t : sptensor_coo V) : (sptensor_coo_set_all t ops).modes = t.modes := by
  induction ops generalizing t with
  | nil => rfl
  | cons op ops ih =>
    simp only [sptensor_coo_set_all, List.foldl_cons] at ih ⊢
    rw [ih, coo_set_modes]

theorem coo_set_all_invariant {V : Type} [Zero V] [DecidableEq V]
    (ops : List (List Nat × V)) (t : sptensor_coo V)
    (hops : ∀ op ∈ ops, op.1.length = t.modes) (har : coo_arity t)
    (hinv : coo_invariant t) :
    coo_invariant (sptensor_coo_set_all t ops) ∧ coo_arity (sptensor_coo_set_all t ops) := by
  induction ops generalizing t with
  | nil => exact ⟨hinv, har⟩
  | cons op ops ih =>
    simp only [sptensor_coo_set_all, List.foldl_cons] at ih ⊢
    have h1 := coo_set_invariant t op.1 op.2 (hops op (List.mem_cons_self _ _)) har hinv
    apply ih _ _ h1.2 h1.1
    intro op2 h2
    rw [coo_set_modes]
    exact hops op2 (List.mem_cons_of_mem _ h2)

theorem coo_set_all_append {V : Type} [Zero V] [DecidableEq V]
    (ops : List (List Nat × V)) (op : List Nat × V) (t : sptensor_coo V) :
    sptensor_coo_set_all t (ops ++ [op]) =
      sptensor_coo_set (sptensor_coo_set_all t ops) op.1 op.2 := by
  simp [sptensor_coo_set_all, List.foldl_append]

theorem coo_get_set {V : Type} [Zero V] [DecidableEq V] (t : sptensor_coo V)
    (idx : List Nat) (v : V) (c1 : List Nat) (hidx : idx.length = t.modes)
    (hc1 : c1.length = t.modes) (har : coo_arity t) (hinv : coo_invariant t) :
    sptensor_coo_get (sptensor_coo_set t idx v) c1 =
      if c1 = idx then v else sptensor_coo_get t c1 := by
  have h := coo_get_set_raw t.modes t.dim idx v hidx c1 hc1 t.coo t.data hinv.1 har hinv.2.1
  rw [coo_eta] at h
  exact h

/-! ## The nonzero iterator -/

theorem nz_valid_iff {V : Type} (itr : struct_sptensor_coo_nz_iterator V) :
    sptensor_coo_nz_valid itr = true ↔ 0 ≤ itr.ci ∧ itr.ci < (itr.t.coo.length : Int) := by
  simp [sptensor_coo_nz_valid]

theorem nz_valid_eq_false_iff {V : Type} (itr : struct_sptensor_coo_nz_iterator V) :
    sptensor_coo_nz_valid itr = false ↔ itr.ci < 0 ∨ (itr.t.coo.length : Int) ≤ itr.ci := by
  rw [← Bool.not_eq_true, nz_valid_iff]
  omega

theorem nz_load_index_t {V : Type} (itr : struct_sptensor_coo_nz_iterator V) :
    (sptensor_coo_nz_load_index itr).t = itr.t := by
  unfold sptensor_coo_nz_load_index; split <;> rfl

theorem nz_load_index_ci {V : Type} (itr : struct_sptensor_coo_nz_iterator V) :
    (sptensor_coo_nz_load_index itr).ci = itr.ci := by
  unfold sptensor_coo_nz_load_index; split <;> rfl

theorem nz_load_index_valid {V : Type} (itr : struct_sptensor_coo_nz_iterator V) :
    sptensor_coo_nz_valid (sptensor_coo_nz_load_index itr) = sptensor_coo_nz_valid itr := by
  simp only [sptensor_coo_nz_valid, nz_load_index_t, nz_load_index_ci]

theorem nz_load_index_index {V : Type} (itr : struct_sptensor_coo_nz_iterator V)
    (har : coo_arity itr.t) (hv : sptensor_coo_nz_valid itr = true) :
    itr.t.coo.get? itr.ci.toNat = some (sptensor_coo_nz_load_index itr).index := by
  have h := (nz_valid_iff itr).mp hv
  have hlt : itr.ci.toNat < itr.t.coo.length := by omega
  unfold sptensor_coo_nz_load_index
  simp only [hv, if_true, sptensor_index_cpy]
  rw [List.get?_eq_getElem?, List.getElem?_eq_getElem hlt, List.getD_eq_getElem _ _ hlt]
  rw [List.take_of_length_le (le_of_eq (har _ (List.getElem_mem _)))]

theorem nz_next_t {V : Type} (itr : struct_sptensor_coo_nz_iterator V) :
    (sptensor_coo_nz_next itr).2.t = itr.t := by
  simp only [sptensor_coo_nz_next, nz_load_index_t]
  split <;> rfl

theorem nz_prev_t {V : Type} (itr : struct_sptensor_coo_nz_iterator V) :
    (sptensor_coo_nz_prev itr).2.t = itr.t := by
  simp only [sptensor_coo_nz_prev, nz_load_index_t]
  split <;> rfl

theorem nz_next_ci {V : Type} (itr : struct_sptensor_coo_nz_iterator V) :
    (sptensor_coo_nz_next itr).2.ci =
      if sptensor_coo_nz_valid itr = true then itr.ci + 1 else itr.ci := by
  simp only [sptensor_coo_nz_next, nz_load_index_ci]
  split <;> rfl

theorem nz_prev_ci {V : Type} (itr : struct_sptensor_coo_nz_iterator V) :
    (sptensor_coo_nz_prev itr).2.ci =
      if sptensor_coo_nz_valid itr = true then itr.ci - 1 else itr.ci := by
  simp only [sptensor_coo_nz_prev, nz_load_index_ci]
  split <;> rfl

theorem nz_next_flag {V : Type} (itr : struct_sptensor_coo_nz_iterator V) :
    (sptensor_coo_nz_next itr).1 = sptensor_coo_nz_valid (sptensor_coo_nz_next itr).2 := rfl

theorem nz_prev_flag {V : Type} (itr : struct_sptensor_coo_nz_iterator V) :
    (sptensor_coo_nz_prev itr).1 = sptensor_coo_nz_valid (sptensor_coo_nz_prev itr).2 := rfl

theorem nz_next_index {V : Type} (itr : struct_sptensor_coo_nz_iterator V)
    (har : coo_arity itr.t) (hv : sptensor_coo_nz_valid (sptensor_coo_nz_next itr).2 = true) :
    (sptensor_coo_nz_next itr).2.t.coo.get? (sptensor_coo_nz_next itr).2.ci.toNat =
      some (sptensor_coo_nz_next itr).2.index := by
  simp only [sptensor_coo_nz_next] at hv ⊢
  rw [nz_load_index_valid] at hv
  rw [nz_load_index_t, nz_load_index_ci]
  refine nz_load_index_index _ ?_ hv
  split <;> exact har

theorem nz_prev_index {V : Type} (itr : struct_sptensor_coo_nz_iterator V)
    (har : coo_arity itr.t) (hv : sptensor_coo_nz_valid (sptensor_coo_nz_prev itr).2 = true) :
    (sptensor_coo_nz_prev itr).2.t.coo.get? (sptensor_coo_nz_prev itr).2.ci.toNat =
      some (sptensor_coo_nz_prev itr).2.index := by
  simp only [sptensor_coo_nz_prev] at hv ⊢
  rw [nz_load_index_valid] at hv
  rw [nz_load_index_t, nz_load_index_ci]
  refine nz_load_index_index _ ?_ hv
  split <;> exact har

theorem nz_step_invalid {V : Type} (mv : nz_move) (itr : struct_sptensor_coo_nz_iterator V)
    (h : sptensor_coo_nz_valid itr = false) :
    (sptensor_coo_nz_step mv itr).1 = false ∧
      sptensor_coo_nz_valid (sptensor_coo_nz_step mv itr).2 = false := by
  cases mv with
  | next =>
    simp only [sptensor_coo_nz_step, sptensor_coo_nz_next, h, nz_load_index_valid]
    simp [h]
  | prev =>
    simp only [sptensor_coo_nz_step, sptensor_coo_nz_prev, h, nz_load_index_valid]
    simp [h]

theorem nz_run_invalid {V : Type} (moves : List nz_move)
    (itr : struct_sptensor_coo_nz_iterator V) (h : sptensor_coo_nz_valid itr = false) :
    (sptensor_coo_nz_run moves itr).1 = List.replicate moves.length false ∧
      sptensor_coo_nz_valid (sptensor_coo_nz_run moves itr).2 = false := by
  induction moves generalizing itr with
  | nil => exact ⟨rfl, h⟩
  | cons mv rest ih =>
    have h1 := nz_step_invalid mv itr h
    have h2 := ih (sptensor_coo_nz_step mv itr).2 h1.2
    simp only [sptensor_coo_nz_run, List.length_cons, List.replicate_succ]
    exact ⟨by rw [h1.1, h2.1], h2.2⟩

/-! ## Walking the nonzero iterator to the end -/

theorem itr_dump_from {V : Type} [Zero V] (t : sptensor_coo V) (har : coo_arity t)
    (fuel k : Nat) (itr : struct_sptensor_coo_nz_iterator V) (ht : itr.t = t)
    (hci : itr.ci = (k : Int)) (hidx : k < t.coo.length → itr.index = t.coo.getD k [])
    (hfuel : t.coo.length - k < fuel) :
    itr_dump fuel itr = some ((t.coo.drop k).map (fun c => (c, sptensor_coo_get t c))) := by
  induction fuel generalizing k itr with
  | zero => omega
  | succ fuel ih =>
    unfold itr_dump
    by_cases hk : k < t.coo.length
    · have hv : sptensor_coo_nz_valid itr = true := by
        rw [nz_valid_iff, ht, hci]
        omega
      simp only [hv, if_true]
      have hn_t : (sptensor_coo_nz_next itr).2.t = t := by rw [nz_next_t, ht]
      have hn_ci : (sptensor_coo_nz_next itr).2.ci = ((k + 1 : Nat) : Int) := by
        rw [nz_next_ci, hci]
        simp [hv]
      have hn_idx : k + 1 < t.coo.length →
          (sptensor_coo_nz_next itr).2.index = t.coo.getD (k + 1) [] := by
        intro hk1
        have hv2 : sptensor_coo_nz_valid (sptensor_coo_nz_next itr).2 = true := by
          rw [nz_valid_iff, hn_t, hn_ci]
          omega
        have h3 := nz_next_index itr (by rw [ht]; exact har) hv2
        rw [hn_t, hn_ci, Int.toNat_natCast, List.get?_eq_getElem?,
          List.getElem?_eq_getElem hk1] at h3
        rw [List.getD_eq_getElem _ _ hk1]
        exact (Option.some.inj h3).symm
      rw [ih (k + 1) _ hn_t hn_ci hn_idx (by omega)]
      rw [List.drop_eq_getElem_cons hk, hidx hk, List.getD_eq_getElem _ _ hk, ht]
      rfl
    · have hv : sptensor_coo_nz_valid itr = false := by
        rw [nz_valid_eq_false_iff, ht, hci]
        omega
      simp only [hv]
      rw [List.drop_eq_nil_of_le (by omega)]
      rfl

theorem nz_walk_from {V : Type} (t : sptensor_coo V) (har : coo_arity t)
    (hlen : t.coo.length = t.data.length)
    (fuel k : Nat) (itr : struct_sptensor_coo_nz_iterator V) (ht : itr.t = t)
    (hci : itr.ci = (k : Int)) (hidx : k < t.coo.length → itr.index = t.coo.getD k [])
    (hfuel : t.coo.length - k < fuel) :
    sptensor_coo_nz_walk fuel itr =
      some (((t.coo.zip t.data).drop k).map (fun p => (p.1, some p.2))) := by
  induction fuel generalizing k itr with
  | zero => omega
  | succ fuel ih =>
    unfold sptensor_coo_nz_walk
    by_cases hk : k < t.coo.length
    · have hv : sptensor_coo_nz_valid itr = true := by
        rw [nz_valid_iff, ht, hci]
        omega
      simp only [hv, if_true]
      have hn_t : (sptensor_coo_nz_next itr).2.t = t := by rw [nz_next_t, ht]
      have hn_ci : (sptensor_coo_nz_next itr).2.ci = ((k + 1 : Nat) : Int) := by
        rw [nz_next_ci, hci]
        simp [hv]
      have hn_idx : k + 1 < t.coo.length →
          (sptensor_coo_nz_next itr).2.index = t.coo.getD (k + 1) [] := by
        intro hk1
        have hv2 : sptensor_coo_nz_valid (sptensor_coo_nz_next itr).2 = true := by
          rw [nz_valid_iff, hn_t, hn_ci]
          omega
        have h3 := nz_next_index itr (by rw [ht]; exact har) hv2
        rw [hn_t, hn_ci, Int.toNat_natCast, List.get?_eq_getElem?,
          List.getElem?_eq_getElem hk1] at h3
        rw [List.getD_eq_getElem _ _ hk1]
        exact (Option.some.inj h3).symm
      rw [ih (k + 1) _ hn_t hn_ci hn_idx (by omega)]
      have hkz : k < (t.coo.zip t.data).length := by
        rw [List.length_zip, ← hlen, min_self]; exact hk
      have hkd : k < t.data.length := by omega
      rw [List.drop_eq_getElem_cons hkz, hidx hk, List.getD_eq_getElem _ _ hk]
      have hg : sptensor_coo_nz_iterator_get itr = some t.data[k] := by
        unfold sptensor_coo_nz_iterator_get
        rw [hci, ht]
        simp [List.getElem?_eq_getElem hkd]
      rw [hg]
      simp [List.getElem_zip]
    · have hv : sptensor_coo_nz_valid itr = false := by
        rw [nz_valid_eq_false_iff, ht, hci]
        omega
      simp only [hv]
      rw [List.drop_eq_nil_of_le (by rw [List.length_zip, ← hlen, min_self]; omega)]
      rfl

theorem nz_iterator_start {V : Type} (t : sptensor_coo V) (har : coo_arity t) :
    (sptensor_coo_nz_iterator t).t = t ∧ (sptensor_coo_nz_iterator t).ci = ((0 : Nat) : Int) ∧
      (0 < t.coo.length → (sptensor_coo_nz_iterator t).index = t.coo.getD 0 []) := by
  refine ⟨by simp [sptensor_coo_nz_iterator, nz_load_index_t],
    by simp [sptensor_coo_nz_iterator, nz_load_index_ci], ?_⟩
  intro h0
  have hv : sptensor_coo_nz_valid
      ({ t := t, index := List.replicate t.modes 0, ci := 0 } :
        struct_sptensor_coo_nz_iterator V) = true := by
    rw [nz_valid_iff]
    simp only [le_refl, true_and]
    omega
  have h3 := nz_load_index_index _ har hv
  simp only [Int.toNat_zero, List.get?_eq_getElem?, List.getElem?_eq_getElem h0] at h3
  rw [List.getD_eq_getElem _ _ h0]
  exact (Option.some.inj h3).symm

theorem itr_dump_all {V : Type} [Zero V] (t : sptensor_coo V) (har : coo_arity t)
    (fuel : Nat) (hfuel : t.coo.length < fuel) :
    itr_dump fuel (sptensor_coo_nz_iterator t) =
      some (t.coo.map (fun c => (c, sptensor_coo_get t c))) := by
  obtain ⟨h1, h2, h3⟩ := nz_iterator_start t har
  have h := itr_dump_from t har fuel 0 _ h1 h2 h3 (by omega)
  simpa using h

theorem nz_walk_all {V : Type} (t : sptensor_coo V) (har : coo_arity t)
    (hlen : t.coo.length = t.data.length) (fuel : Nat) (hfuel : t.coo.length < fuel) :
    sptensor_coo_nz_walk fuel (sptensor_coo_nz_iterator t) =
      some ((t.coo.zip t.data).map (fun p => (p.1, some p.2))) := by
  obtain ⟨h1, h2, h3⟩ := nz_iterator_start t har
  have h := nz_walk_from t har hlen fuel 0 _ h1 h2 h3 (by omega)
  simpa using h

theorem coo_count_eq_one (c : List Nat) (l : List (List Nat)) (hnd : l.Nodup) (h : c ∈ l) :
    List.count c l = 1 := by
  have hb : (List.instBEq : BEq (List Nat)) = instBEqOfDecidableEq := by
    apply congrArg BEq.mk
    funext a b
    show (a == b) = decide (a = b)
    rw [Bool.eq_iff_iff]
    simp
  rw [hb]
  exact List.count_eq_one_of_mem hnd h

/-! ## Appending fresh coordinates -/

theorem coo_set_fresh {V : Type} [Zero V] [DecidableEq V] (t : sptensor_coo V)
    (idx : List Nat) (v : V) (hidx : idx.length = t.modes) (har : coo_arity t)
    (hnew : idx ∉ t.coo) (hv : v ≠ 0) :
    sptensor_coo_set t idx v = { t with coo := t.coo ++ [idx], data := t.data ++ [v] } := by
  have hs : sptensor_coo_search_loop t.modes idx t.coo 0 = -1 := by
    rw [search_loop_eq_neg_one_iff]
    intro c hc hcmp
    rw [sptensor_index_cmp_self_arity t.modes idx c hidx (har c hc)] at hcmp
    subst hcmp
    exact hnew hc
  simp [sptensor_coo_set, sptensor_coo_search, hs, hv, sptensor_vector_push_back,
    List.take_of_length_le (le_of_eq hidx)]

theorem coo_set_all_fresh {V : Type} [Zero V] [DecidableEq V] (ops : List (List Nat × V))
    (t : sptensor_coo V) (hops : ∀ op ∈ ops, op.1.length = t.modes) (har : coo_arity t)
    (hnd : (ops.map Prod.fst).Nodup) (hnew : ∀ op ∈ ops, op.1 ∉ t.coo)
    (hnz : ∀ op ∈ ops, op.2 ≠ 0) :
    (sptensor_coo_set_all t ops).coo = t.coo ++ ops.map Prod.fst ∧
      (sptensor_coo_set_all t ops).data = t.data ++ ops.map Prod.snd := by
  induction ops generalizing t with
  | nil => simp [sptensor_coo_set_all]
  | cons op ops ih =>
    have h1 := coo_set_fresh t op.1 op.2 (hops op (List.mem_cons_self _ _)) har
      (hnew op (List.mem_cons_self _ _)) (hnz op (List.mem_cons_self _ _))
    simp only [List.map_cons, List.nodup_cons] at hnd
    simp only [sptensor_coo_set_all, List.foldl_cons] at ih ⊢
    rw [h1]
    have h2 := ih { t with coo := t.coo ++ [op.1], data := t.data ++ [op.2] }
      (fun o ho => hops o (List.mem_cons_of_mem _ ho))
      (by
        intro c hc
        simp only [List.mem_append, List.mem_singleton] at hc
        rcases hc with hc | hc
        · exact har c hc
        · rw [hc]; exact hops op (List.mem_cons_self _ _))
      hnd.2
      (by
        intro o ho hmem
        simp only [List.mem_append, List.mem_singleton] at hmem
        rcases hmem with hmem | hmem
        · exact hnew o (List.mem_cons_of_mem _ ho) hmem
        · exact hnd.1 (hmem ▸ List.mem_map_of_mem Prod.fst ho))
      (fun o ho => hnz o (List.mem_cons_of_mem _ ho))
    simpa using h2

/-! ## Claims about the COO backend -/

/-- C2: on a COO tensor reached from a fresh one by `sptensor_coo_set` calls, after
`sptensor_coo_set(c, 0)` the coordinate `c` reads as zero, is no longer in the stored
coordinate sequence, and the walk of the nonzero iterator ends without visiting it. -/
theorem coo_set_zero_removes {V : Type} [Zero V] [DecidableEq V] (dims : List Nat) (n : Nat)
    (ops : List (List Nat × V)) (c : List Nat)
    (hops : ∀ op ∈ ops, op.1.length = n) (hc : c.length = n) :
    sptensor_coo_get
        (sptensor_coo_set (sptensor_coo_set_all (sptensor_coo_alloc dims n) ops) c 0) c = 0 ∧
      c ∉ (sptensor_coo_set (sptensor_coo_set_all (sptensor_coo_alloc dims n) ops) c 0).coo ∧
      ∀ fuel,
        (sptensor_coo_set (sptensor_coo_set_all (sptensor_coo_alloc dims n) ops)
          c 0).coo.length < fuel →
        ∃ l, itr_dump fuel (sptensor_coo_nz_iterator
            (sptensor_coo_set (sptensor_coo_set_all (sptensor_coo_alloc dims n) ops) c 0))
              = some l ∧
          c ∉ l.map Prod.fst := by
  have hinv := coo_set_all_invariant ops (sptensor_coo_alloc dims n : sptensor_coo V)
    hops (coo_alloc_invariant dims n).2 (coo_alloc_invariant dims n).1
  have hm : (sptensor_coo_set_all (sptensor_coo_alloc dims n : sptensor_coo V) ops).modes
      = n := by rw [coo_set_all_modes]; rfl
  generalize sptensor_coo_set_all (sptensor_coo_alloc dims n : sptensor_coo V) ops = t
    at hinv hm
  have hcm : c.length = t.modes := by rw [hm]; exact hc
  have hinv2 := coo_set_invariant t c 0 hcm hinv.2 hinv.1
  have hnot : c ∉ (sptensor_coo_set t c 0).coo := by
    have h := coo_set_mem_iff t.modes t.dim c (0 : V) hcm t.coo t.data hinv.1.1 hinv.2
      hinv.1.2.1 c
    rw [coo_eta] at h
    rw [h]
    simp
  refine ⟨?_, hnot, ?_⟩
  · rw [coo_get_set t c 0 c hcm hcm hinv.2 hinv.1]
    simp
  · intro fuel hfuel
    refine ⟨_, itr_dump_all _ hinv2.2 fuel hfuel, ?_⟩
    simpa [List.map_map, Function.comp_def] using hnot

/-- Witness for C2: `(2,3,1)` is stored, then zeroed. -/
theorem coo_set_zero_removes_witness :
    sptensor_coo_get
        (sptensor_coo_set (sptensor_coo_set_all (sptensor_coo_alloc [3, 4, 5] 3)
          [([1, 1, 1], (99 : Int)), ([2, 3, 1], 44)]) [2, 3, 1] 0) [2, 3, 1] = 0 ∧
      [2, 3, 1] ∉ (sptensor_coo_set (sptensor_coo_set_all (sptensor_coo_alloc [3, 4, 5] 3)
          [([1, 1, 1], (99 : Int)), ([2, 3, 1], 44)]) [2, 3, 1] 0).coo :=
  ⟨(coo_set_zero_removes [3, 4, 5] 3 [([1, 1, 1], (99 : Int)), ([2, 3, 1], 44)] [2, 3, 1]
      (by decide) (by decide)).1,
    (coo_set_zero_removes [3, 4, 5] 3 [([1, 1, 1], (99 : Int)), ([2, 3, 1], 44)] [2, 3, 1]
      (by decide) (by decide)).2.1⟩

/-- C3: after any finite sequence of `sptensor_coo_set` calls on a freshly allocated COO
tensor, the walk of the nonzero iterator (from its initial position, with `next`, until it
is invalid) ends, visits every coordinate whose `get` is non-zero exactly once, and visits
no coordinate whose `get` is zero. -/
theorem coo_nz_iterator_visits_nonzeros {V : Type} [Zero V] [DecidableEq V]
    (dims : List Nat) (n : Nat) (ops : List (List Nat × V))
    (hops : ∀ op ∈ ops, op.1.length = n) :
    ∀ fuel, (sptensor_coo_set_all (sptensor_coo_alloc dims n) ops).coo.length < fuel →
      ∃ l, itr_dump fuel (sptensor_coo_nz_iterator
          (sptensor_coo_set_all (sptensor_coo_alloc dims n) ops)) = some l ∧
        (∀ c : List Nat, c.length = n →
          sptensor_coo_get (sptensor_coo_set_all (sptensor_coo_alloc dims n) ops) c ≠ 0 →
            (l.map Prod.fst).count c = 1) ∧
        (∀ c ∈ l.map Prod.fst,
          sptensor_coo_get (sptensor_coo_set_all (sptensor_coo_alloc dims n) ops) c ≠ 0) := by
  have hinv := coo_set_all_invariant ops (sptensor_coo_alloc dims n : sptensor_coo V)
    hops (coo_alloc_invariant dims n).2 (coo_alloc_invariant dims n).1
  have hm : (sptensor_coo_set_all (sptensor_coo_alloc dims n : sptensor_coo V) ops).modes
      = n := by rw [coo_set_all_modes]; rfl
  generalize sptensor_coo_set_all (sptensor_coo_alloc dims n : sptensor_coo V) ops = t
    at hinv hm
  intro fuel hfuel
  have hmap : (t.coo.map (fun c => (c, sptensor_coo_get t c))).map Prod.fst = t.coo := by
    simp [List.map_map, Function.comp_def]
  have hiff : ∀ c : List Nat, c.length = n → (sptensor_coo_get t c ≠ 0 ↔ c ∈ t.coo) := by
    intro c hc
    have h := coo_get_ne_zero_iff_raw t.modes t.dim c (by rw [hm]; exact hc) t.coo t.data
      hinv.1.1 hinv.2 hinv.1.2.2
    rw [coo_eta] at h
    exact h
  refine ⟨_, itr_dump_all t hinv.2 fuel hfuel, ?_, ?_⟩
  · intro c hc hne
    rw [hmap]
    exact coo_count_eq_one c t.coo hinv.1.2.1 ((hiff c hc).mp hne)
  · intro c hmem
    rw [hmap] at hmem
    exact (hiff c (by rw [← hm]; exact hinv.2 c hmem)).mpr hmem

/-- Witness for C3: after storing two entries, overwriting one and zeroing the other, the
walk with five loop tests visits exactly the one remaining coordinate. -/
theorem coo_nz_iterator_visits_nonzeros_witness :
    ∃ l, itr_dump 5 (sptensor_coo_nz_iterator
        (sptensor_coo_set_all (sptensor_coo_alloc [3, 4, 5] 3)
          [([1, 1, 1], (99 : Int)), ([2, 3, 1], 44), ([1, 1, 1], 0), ([2, 3, 1], 8)]))
          = some l ∧
      (∀ c : List Nat, c.length = 3 →
        sptensor_coo_get (sptensor_coo_set_all (sptensor_coo_alloc [3, 4, 5] 3)
          [([1, 1, 1], (99 : Int)), ([2, 3, 1], 44), ([1, 1, 1], 0), ([2, 3, 1], 8)]) c ≠ 0 →
          (l.map Prod.fst).count c = 1) ∧
      (∀ c ∈ l.map Prod.fst,
        sptensor_coo_get (sptensor_coo_set_all (sptensor_coo_alloc [3, 4, 5] 3)
          [([1, 1, 1], (99 : Int)), ([2, 3, 1], 44), ([1, 1, 1], 0), ([2, 3, 1], 8)]) c ≠ 0) :=
  coo_nz_iterator_visits_nonzeros [3, 4, 5] 3
    [([1, 1, 1], (99 : Int)), ([2, 3, 1], 44), ([1, 1, 1], 0), ([2, 3, 1], 8)]
    (by decide) 5 (by decide)

/-- C4: `sptensor_coo_set` preserves the COO storage invariant (parallel vectors, no two
stored coordinates equal, no stored value zero) for any coordinate and any value, and the
freshly allocated tensor satisfies the invariant. -/
theorem coo_set_preserves_invariant {V : Type} [Zero V] [DecidableEq V]
    (t : sptensor_coo V) (idx : List Nat) (v : V) (dims : List Nat) (n : Nat)
    (hinv : coo_invariant t) :
    coo_invariant (sptensor_coo_set t idx v) ∧
      coo_invariant (sptensor_coo_alloc dims n : sptensor_coo V) := by
  obtain ⟨hlen, hnd, hnz⟩ := hinv
  refine ⟨?_, (coo_alloc_invariant dims n).1⟩
  rw [← coo_eta t]
  exact ⟨coo_set_length _ _ idx v t.coo t.data hlen,
    coo_set_nodup _ _ idx v t.coo t.data hlen hnd,
    coo_set_data_ne_zero _ _ idx v t.coo t.data hlen hnz⟩

/-- Witness for C4: zeroing the first of two stored entries. -/
theorem coo_set_preserves_invariant_witness :
    coo_invariant (sptensor_coo_set
        (⟨3, [3, 4, 5], [[1, 1, 1], [2, 3, 1]], [(99 : Int), 44]⟩ : sptensor_coo Int)
        [1, 1, 1] 0) ∧
      coo_invariant (sptensor_coo_alloc [3, 4, 5] 3 : sptensor_coo Int) :=
  coo_set_preserves_invariant
    (⟨3, [3, 4, 5], [[1, 1, 1], [2, 3, 1]], [(99 : Int), 44]⟩ : sptensor_coo Int)
    [1, 1, 1] 0 [3, 4, 5] 3 (by decide)

/-- C6: on an unchanged tensor, once the nonzero iterator is invalid every further
sequence of `next` and `prev` calls returns false at each call and leaves it invalid; and
`next` from the last entry, like `prev` from the first entry, makes the iterator
invalid. -/
theorem coo_nz_iterator_invalid_is_absorbing {V : Type}
    (itr : struct_sptensor_coo_nz_iterator V) (moves : List nz_move)
    (hinvalid : sptensor_coo_nz_valid itr = false) :
    (sptensor_coo_nz_run moves itr).1 = List.replicate moves.length false ∧
      sptensor_coo_nz_valid (sptensor_coo_nz_run moves itr).2 = false ∧
      (sptensor_coo_nz_run moves itr).2.t = itr.t ∧
      (∀ (t : sptensor_coo V) (buf : List Nat),
        sptensor_coo_nz_valid
          (sptensor_coo_nz_next ⟨t, buf, (t.coo.length : Int) - 1⟩).2 = false ∧
        sptensor_coo_nz_valid (sptensor_coo_nz_prev ⟨t, buf, 0⟩).2 = false) := by
  refine ⟨(nz_run_invalid moves itr hinvalid).1, (nz_run_invalid moves itr hinvalid).2,
    ?_, ?_⟩
  · clear hinvalid
    induction moves generalizing itr with
    | nil => rfl
    | cons mv rest ih =>
      simp only [sptensor_coo_nz_run]
      rw [ih]
      cases mv with
      | next => exact nz_next_t itr
      | prev => exact nz_prev_t itr
  · intro t buf
    constructor
    · rw [nz_valid_eq_false_iff, nz_next_ci, nz_next_t]
      split
      · right; simp
      · rename_i h
        rw [Bool.not_eq_true, nz_valid_eq_false_iff] at h
        simp only at h ⊢
        omega
    · rw [nz_valid_eq_false_iff, nz_prev_ci, nz_prev_t]
      split
      · left; simp
      · rename_i h
        rw [Bool.not_eq_true, nz_valid_eq_false_iff] at h
        simp only at h ⊢
        omega

/-- Witness for C6: an iterator standing after the last of two entries. -/
theorem coo_nz_iterator_invalid_is_absorbing_witness :
    (sptensor_coo_nz_run [nz_move.next, nz_move.prev, nz_move.prev]
        (⟨⟨3, [3, 4, 5], [[1, 1, 1], [2, 3, 1]], [(99 : Int), 44]⟩, [2, 3, 1], 2⟩ :
          struct_sptensor_coo_nz_iterator Int)).1 = [false, false, false] :=
  (coo_nz_iterator_invalid_is_absorbing
    (⟨⟨3, [3, 4, 5], [[1, 1, 1], [2, 3, 1]], [(99 : Int), 44]⟩, [2, 3, 1], 2⟩ :
      struct_sptensor_coo_nz_iterator Int)
    [nz_move.next, nz_move.prev, nz_move.prev] (by decide)).1

/-- C7: for the COO nonzero iterator, validity is exactly `0 <= position < count`; the
flag returned by `next` and by `prev` is `valid()` evaluated right after the call; and
after construction and after every `next`/`prev`, when the iterator is valid the
coordinate it carries is the stored coordinate at its position.  The stored coordinates
are taken to have the tensor's arity, which is the element size of the coordinate
vector. -/
theorem coo_nz_iterator_position_invariant {V : Type}
    (itr : struct_sptensor_coo_nz_iterator V) (t : sptensor_coo V)
    (har : coo_arity itr.t) (hart : coo_arity t) :
    (sptensor_coo_nz_valid itr = true ↔ 0 ≤ itr.ci ∧ itr.ci < (itr.t.coo.length : Int)) ∧
      (sptensor_coo_nz_next itr).1 = sptensor_coo_nz_valid (sptensor_coo_nz_next itr).2 ∧
      (sptensor_coo_nz_prev itr).1 = sptensor_coo_nz_valid (sptensor_coo_nz_prev itr).2 ∧
      (sptensor_coo_nz_valid (sptensor_coo_nz_iterator t) = true →
        (sptensor_coo_nz_iterator t).t.coo.get? (sptensor_coo_nz_iterator t).ci.toNat =
          some (sptensor_coo_nz_iterator t).index) ∧
      (sptensor_coo_nz_valid (sptensor_coo_nz_next itr).2 = true →
        (sptensor_coo_nz_next itr).2.t.coo.get? (sptensor_coo_nz_next itr).2.ci.toNat =
          some (sptensor_coo_nz_next itr).2.index) ∧
      (sptensor_coo_nz_valid (sptensor_coo_nz_prev itr).2 = true →
        (sptensor_coo_nz_prev itr).2.t.coo.get? (sptensor_coo_nz_prev itr).2.ci.toNat =
          some (sptensor_coo_nz_prev itr).2.index) := by
  refine ⟨nz_valid_iff itr, rfl, rfl, ?_, nz_next_index itr har, nz_prev_index itr har⟩
  intro hv
  obtain ⟨h1, h2, h3⟩ := nz_iterator_start t hart
  have hlt : 0 < t.coo.length := by
    have := (nz_valid_iff _).mp hv
    rw [h1, h2] at this
    omega
  rw [h1, h2, h3 hlt, Int.toNat_natCast, List.get?_eq_getElem?,
    List.getElem?_eq_getElem hlt, List.getD_eq_getElem _ _ hlt]

/-- Witness for C7: stepping from the first to the second of two entries. -/
theorem coo_nz_iterator_position_invariant_witness :
    (sptensor_coo_nz_next
        (⟨⟨3, [3, 4, 5], [[1, 1, 1], [2, 3, 1]], [(99 : Int), 44]⟩, [1, 1, 1], 0⟩ :
          struct_sptensor_coo_nz_iterator Int)).2.t.coo.get?
        (sptensor_coo_nz_next
          (⟨⟨3, [3, 4, 5], [[1, 1, 1], [2, 3, 1]], [(99 : Int), 44]⟩, [1, 1, 1], 0⟩ :
            struct_sptensor_coo_nz_iterator Int)).2.ci.toNat =
      some (sptensor_coo_nz_next
        (⟨⟨3, [3, 4, 5], [[1, 1, 1], [2, 3, 1]], [(99 : Int), 44]⟩, [1, 1, 1], 0⟩ :
          struct_sptensor_coo_nz_iterator Int)).2.index :=
  (coo_nz_iterator_position_invariant
    (⟨⟨3, [3, 4, 5], [[1, 1, 1], [2, 3, 1]], [(99 : Int), 44]⟩, [1, 1, 1], 0⟩ :
      struct_sptensor_coo_nz_iterator Int)
    (⟨3, [3, 4, 5], [[1, 1, 1], [2, 3, 1]], [(99 : Int), 44]⟩ : sptensor_coo Int)
    (by decide) (by decide)).2.2.2.2.1 (by decide)

/-- C8: the COO nonzero iterator is bidirectional: from a valid position `p` with
`p + 1 < count`, `next` then `prev` returns to position `p` carrying the coordinate stored
at `p`; from a valid position `p >= 1`, `prev` then `next` does the same. -/
theorem coo_nz_iterator_bidirectional {V : Type}
    (itr : struct_sptensor_coo_nz_iterator V) (har : coo_arity itr.t)
    (hvalid : sptensor_coo_nz_valid itr = true) :
    (itr.ci + 1 < (itr.t.coo.length : Int) →
      (sptensor_coo_nz_prev (sptensor_coo_nz_next itr).2).2.ci = itr.ci ∧
      (sptensor_coo_nz_prev (sptensor_coo_nz_next itr).2).2.t = itr.t ∧
      itr.t.coo.get? itr.ci.toNat =
        some (sptensor_coo_nz_prev (sptensor_coo_nz_next itr).2).2.index) ∧
    (1 ≤ itr.ci →
      (sptensor_coo_nz_next (sptensor_coo_nz_prev itr).2).2.ci = itr.ci ∧
      (sptensor_coo_nz_next (sptensor_coo_nz_prev itr).2).2.t = itr.t ∧
      itr.t.coo.get? itr.ci.toNat =
        some (sptensor_coo_nz_next (sptensor_coo_nz_prev itr).2).2.index) := by
  have hv := (nz_valid_iff itr).mp hvalid
  constructor
  · intro hp
    have h1 : sptensor_coo_nz_valid (sptensor_coo_nz_next itr).2 = true := by
      rw [nz_valid_iff, nz_next_t, nz_next_ci]
      simp only [hvalid, if_true]
      omega
    have hci : (sptensor_coo_nz_prev (sptensor_coo_nz_next itr).2).2.ci = itr.ci := by
      rw [nz_prev_ci]
      simp only [h1, if_true]
      rw [nz_next_ci]
      simp only [hvalid, if_true]
      omega
    have ht : (sptensor_coo_nz_prev (sptensor_coo_nz_next itr).2).2.t = itr.t := by
      rw [nz_prev_t, nz_next_t]
    have h2 : sptensor_coo_nz_valid (sptensor_coo_nz_prev (sptensor_coo_nz_next itr).2).2
        = true := by
      rw [nz_valid_iff, ht, hci]; exact hv
    have h3 := nz_prev_index (sptensor_coo_nz_next itr).2 (by rw [nz_next_t]; exact har) h2
    rw [ht, hci] at h3
    exact ⟨hci, ht, h3⟩
  · intro hp
    have h1 : sptensor_coo_nz_valid (sptensor_coo_nz_prev itr).2 = true := by
      rw [nz_valid_iff, nz_prev_t, nz_prev_ci]
      simp only [hvalid, if_true]
      omega
    have hci : (sptensor_coo_nz_next (sptensor_coo_nz_prev itr).2).2.ci = itr.ci := by
      rw [nz_next_ci]
      simp only [h1, if_true]
      rw [nz_prev_ci]
      simp only [hvalid, if_true]
      omega
    have ht : (sptensor_coo_nz_next (sptensor_coo_nz_prev itr).2).2.t = itr.t := by
      rw [nz_next_t, nz_prev_t]
    have h2 : sptensor_coo_nz_valid (sptensor_coo_nz_next (sptensor_coo_nz_prev itr).2).2
        = true := by
      rw [nz_valid_iff, ht, hci]; exact hv
    have h3 := nz_next_index (sptensor_coo_nz_prev itr).2 (by rw [nz_prev_t]; exact har) h2
    rw [ht, hci] at h3
    exact ⟨hci, ht, h3⟩

/-- Witness for C8: from the middle of three entries, both round trips come back to
position `1`. -/
theorem coo_nz_iterator_bidirectional_witness :
    (sptensor_coo_nz_prev (sptensor_coo_nz_next
        (⟨⟨3, [3, 4, 5], [[1, 1, 1], [2, 3, 1], [2, 4, 4]], [(99 : Int), 44, 100]⟩,
          [2, 3, 1], 1⟩ : struct_sptensor_coo_nz_iterator Int)).2).2.ci = 1 ∧
      (sptensor_coo_nz_next (sptensor_coo_nz_prev
        (⟨⟨3, [3, 4, 5], [[1, 1, 1], [2, 3, 1], [2, 4, 4]], [(99 : Int), 44, 100]⟩,
          [2, 3, 1], 1⟩ : struct_sptensor_coo_nz_iterator Int)).2).2.ci = 1 :=
  ⟨((coo_nz_iterator_bidirectional
      (⟨⟨3, [3, 4, 5], [[1, 1, 1], [2, 3, 1], [2, 4, 4]], [(99 : Int), 44, 100]⟩,
        [2, 3, 1], 1⟩ : struct_sptensor_coo_nz_iterator Int)
      (by decide) (by decide)).1 (by decide)).1,
    ((coo_nz_iterator_bidirectional
      (⟨⟨3, [3, 4, 5], [[1, 1, 1], [2, 3, 1], [2, 4, 4]], [(99 : Int), 44, 100]⟩,
        [2, 3, 1], 1⟩ : struct_sptensor_coo_nz_iterator Int)
      (by decide) (by decide)).2 (by decide)).1⟩

/-! ## Transpose views -/

theorem tensor_transpose_index_length (t0 t1 nm : Nat) (c : List Nat) (hc : c.length = nm) :
    (tensor_transpose_index t0 t1 nm c).length = nm := by
  simp [tensor_transpose_index, hc]

theorem tensor_transpose_index_getD (t0 t1 nm : Nat) (c : List Nat) (hc : c.length = nm)
    (k : Nat) (hk : k < nm) :
    (tensor_transpose_index t0 t1 nm c).getD k 0 =
      if t1 = k then c.getD t0 0 else if t0 = k then c.getD t1 0 else c.getD k 0 := by
  unfold tensor_transpose_index
  simp only [List.take_of_length_le (le_of_eq hc)]
  rw [List.getD_eq_getElem _ _ (by simp [hc, hk]), List.getElem_set, List.getElem_set]
  rw [List.getD_eq_getElem _ _ (by omega : k < c.length)]

theorem tensor_transpose_index_involutive (t0 t1 nm : Nat) (c : List Nat)
    (hc : c.length = nm) (h0 : t0 < nm) (h1 : t1 < nm) :
    tensor_transpose_index t0 t1 nm (tensor_transpose_index t0 t1 nm c) = c := by
  have hl := tensor_transpose_index_length t0 t1 nm c hc
  have hl2 := tensor_transpose_index_length t0 t1 nm _ hl
  apply List.ext_getElem (by rw [hl2, hc])
  intro k hk1 hk2
  have hk : k < nm := by omega
  have e1 := tensor_transpose_index_getD t0 t1 nm _ hl k hk
  rw [tensor_transpose_index_getD t0 t1 nm c hc t0 h0,
    tensor_transpose_index_getD t0 t1 nm c hc t1 h1,
    tensor_transpose_index_getD t0 t1 nm c hc k hk] at e1
  rw [List.getD_eq_getElem _ _ hk1] at e1
  rw [e1, ← List.getD_eq_getElem c 0 hk2]
  split_ifs
  all_goals first
    | rfl
    | (subst_vars; rfl)
    | omega

/-! ## Unfold views -/

theorem unfold_tensor_loop_jk (n : Nat) (ds : List Nat) (i : Nat) (st : Nat × List Nat)
    (hne : st.2 ≠ []) (hst : ∀ x ∈ st.2, 0 < x) (hds : ∀ d ∈ ds, 0 < d) :
    (unfold_tensor_loop_exact n ds i st).2.get? 0 = st.2.get? 0 ∧
      (∀ x ∈ (unfold_tensor_loop_exact n ds i st).2, 0 < x) ∧
      (unfold_tensor_loop_exact n ds i st).2.length =
        st.2.length + ds.length - (if i ≤ n ∧ n < i + ds.length then 1 else 0) := by
  induction ds generalizing i st with
  | nil =>
    have e : ¬ (i ≤ n ∧ n < i + ([] : List Nat).length) := by
      simp only [List.length_nil]; omega
    unfold unfold_tensor_loop_exact
    rw [if_neg e]
    exact ⟨rfl, hst, by simp⟩
  | cons d ds ih =>
    have hd : 0 < d := hds d (List.mem_cons_self _ _)
    have hds1 : ∀ e ∈ ds, 0 < e := fun e he => hds e (List.mem_cons_of_mem _ he)
    unfold unfold_tensor_loop_exact
    by_cases hin : i = n
    · simp only [hin, if_true]
      obtain ⟨h1, h2, h3⟩ := ih (n + 1) st hne hst hds1
      refine ⟨h1, h2, ?_⟩
      rw [h3]
      simp only [List.length_cons]
      have e1 : ¬ (n + 1 ≤ n ∧ n < n + 1 + ds.length) := by omega
      have e2 : n ≤ n ∧ n < n + (ds.length + 1) := by omega
      rw [if_neg e1, if_pos e2]
      clear h3
      omega
    · simp only [hin, if_false]
      have hlen : 0 < st.2.length := List.length_pos.mpr hne
      have hlast : 0 < st.2.getD (st.2.length - 1) 0 := by
        rw [List.getD_eq_getElem _ _ (by omega)]
        exact hst _ (List.getElem_mem _)
      obtain ⟨h1, h2, h3⟩ := ih (i + 1)
        (st.1 * d, st.2 ++ [st.2.getD (st.2.length - 1) 0 * d])
        (by simp)
        (by
          intro x hx
          simp only [List.mem_append, List.mem_singleton] at hx
          rcases hx with hx | hx
          · exact hst x hx
          · rw [hx]; exact Nat.mul_pos hlast hd)
        hds1
      refine ⟨?_, h2, ?_⟩
      · rw [h1]
        simp only [List.get?_eq_getElem?]
        rw [List.getElem?_append_left hlen]
      · rw [h3]
        simp only [List.length_append, List.length_cons, List.length_nil]
        by_cases hc : i + 1 ≤ n ∧ n < i + 1 + ds.length
        · have e2 : i ≤ n ∧ n < i + (ds.length + 1) := by omega
          rw [if_pos hc, if_pos e2]
          clear h3
          omega
        · have e2 : ¬ (i ≤ n ∧ n < i + (ds.length + 1)) := by omega
          rw [if_neg hc, if_neg e2]
          clear h3
          omega

theorem unfold_tensor_data_jk (nmodes : Nat) (dim : List Nat) (n : Nat)
    (hn : n < nmodes) (hdim : dim.length = nmodes) (hpos : ∀ d ∈ dim, 0 < d) :
    (unfold_tensor_data_exact nmodes dim n).jk.get? 0 = some 1 ∧
      ∀ k, k < nmodes - 1 →
        ∃ c, (unfold_tensor_data_exact nmodes dim n).jk.get? k = some c ∧ 0 < c := by
  have h := unfold_tensor_loop_jk n (dim.take nmodes) 0 (1, [1]) (by simp) (by simp)
    (by rw [List.take_of_length_le (le_of_eq hdim)]; exact hpos)
  obtain ⟨h1, h2, h3⟩ := h
  simp only [unfold_tensor_data_exact]
  refine ⟨by rw [h1]; rfl, ?_⟩
  intro k hk
  have hlen : (unfold_tensor_loop_exact n (dim.take nmodes) 0 (1, [1])).2.length = nmodes := by
    rw [h3, List.take_of_length_le (le_of_eq hdim), hdim]
    have e : 0 ≤ n ∧ n < 0 + nmodes := by omega
    simp only [e, and_self, if_true, List.length_singleton]
    omega
  have hk2 : k < (unfold_tensor_loop_exact n (dim.take nmodes) 0 (1, [1])).2.length := by omega
  refine ⟨_, by rw [List.get?_eq_getElem?, List.getElem?_eq_getElem hk2], ?_⟩
  exact h2 _ (List.getElem_mem _)

theorem unfold_k_at_succ_self (n : Nat) : unfold_k_at n (n + 1) = unfold_k_at n n := by
  simp [unfold_k_at]

theorem unfold_k_at_succ_ne (n i : Nat) (h : i ≠ n) :
    unfold_k_at n (i + 1) = unfold_k_at n i + 1 := by
  unfold unfold_k_at
  split <;> split <;> omega

theorem unfold_to_from_loop (uv : unfold_view) (in0 K : Nat)
    (hjk : ∀ k, k < K → ∃ c, uv.jk.get? k = some c ∧ 0 < c)
    (i j : Nat) (k : Int) (out : List Nat)
    (hK : unfold_k_at uv.n i ≤ K) (hk : k = (unfold_k_at uv.n i : Int) - 1) :
    ∃ pre r, unfold_to_loop_exact uv in0 i j k out = some (pre ++ out) ∧ pre.length = i ∧
      (uv.n < i → pre.getD uv.n 0 = in0) ∧ r ≤ j ∧
      (0 < unfold_k_at uv.n i → ∀ c0, uv.jk.get? 0 = some c0 → r < c0) ∧
      ∀ rest acc, unfold_from_loop_exact uv (pre ++ rest) 0 0 acc =
        unfold_from_loop_exact uv rest i (unfold_k_at uv.n i) (acc + (j - r)) := by
  induction i generalizing j k out with
  | zero =>
    refine ⟨[], j, by simp [unfold_to_loop_exact], rfl, by omega, le_refl _, ?_, ?_⟩
    · intro h; simp [unfold_k_at] at h
    · intro rest acc
      simp [unfold_k_at]
  | succ i ih =>
    unfold unfold_to_loop_exact
    by_cases hin : i = uv.n
    · rw [if_pos hin]
      have hkk : unfold_k_at uv.n (i + 1) = unfold_k_at uv.n i := by
        rw [hin]; exact unfold_k_at_succ_self uv.n
      obtain ⟨pre, r, h1, h2, _, h4, h5, h6⟩ := ih j k (in0 :: out)
        (by rw [← hkk]; exact hK) (by rw [hk, hkk])
      have h2n : pre.length = uv.n := by rw [h2, hin]
      refine ⟨pre ++ [in0], r, ?_, ?_, ?_, h4, ?_, ?_⟩
      · rw [h1]; simp
      · simp [h2]
      · intro _
        rw [List.getD_eq_getElem?_getD, List.getElem?_append_right (by omega)]
        simp [h2n]
      · rw [hkk]; exact h5
      · intro rest acc
        rw [List.append_assoc, List.singleton_append, h6, hkk]
        rw [unfold_from_loop_exact, if_pos hin]
    · rw [if_neg hin]
      have hkk : unfold_k_at uv.n (i + 1) = unfold_k_at uv.n i + 1 :=
        unfold_k_at_succ_ne uv.n i hin
      have hkval : k = (unfold_k_at uv.n i : Int) := by rw [hk, hkk]; push_cast; omega
      obtain ⟨c, hc, hcpos⟩ := hjk (unfold_k_at uv.n i) (by omega)
      have hread : unfold_jk_read uv k = some c := by
        unfold unfold_jk_read
        rw [hkval, if_pos (Int.natCast_nonneg _), Int.toNat_natCast]
        exact hc
      rw [hread]
      have hc0 : ¬ (c = 0) := by omega
      simp only [hc0, if_false]
      obtain ⟨pre, r, h1, h2, h3, h4, h5, h6⟩ := ih (j % c) (k - 1) ((j / c + 1) :: out)
        (by omega) (by rw [hkval])
      have hmod : j % c ≤ j := Nat.mod_le j c
      refine ⟨pre ++ [j / c + 1], r, ?_, ?_, ?_, by omega, ?_, ?_⟩
      · rw [h1]; simp
      · simp [h2]
      · intro hlt
        have hlt2 : uv.n < i := by omega
        rw [List.getD_eq_getElem?_getD, List.getElem?_append_left (by omega),
          ← List.getD_eq_getElem?_getD]
        exact h3 hlt2
      · intro _ c0 hc0'
        by_cases hz : 0 < unfold_k_at uv.n i
        · exact h5 hz c0 hc0'
        · have hzero : unfold_k_at uv.n i = 0 := by omega
          rw [hzero] at hc
          rw [hc] at hc0'
          have : c = c0 := Option.some.inj hc0'
          have hlt : j % c < c := Nat.mod_lt j hcpos
          omega
      · intro rest acc
        rw [List.append_assoc, List.singleton_append, h6, hkk]
        rw [unfold_from_loop_exact, if_neg hin, hc]
        have hsum : acc + (j % c - r) + (j / c + 1 - 1) * c = acc + (j - r) := by
          have hdm : j / c * c + j % c = j := Nat.div_add_mod' j c
          rw [Nat.add_sub_cancel]
          generalize j / c * c = q at hdm
          omega
        simp only
        rw [hsum]

/-! ## Claims about views -/

/-- C9: for a view `v` and modes `i, j < nmodes(v)`, transposing twice gives a view with
the mode count and dimension vector of `v` whose `get` agrees with that of `v` at every
coordinate; the index translation (the view's `to` and `from`) is self-inverse. -/
theorem tensor_transpose_twice {V : Type} (v : tensor_view V) (i j : Nat)
    (hi : i < v.nmodes) (hj : j < v.nmodes) (hdim : v.dim.length = v.nmodes) :
    (tensor_transpose (tensor_transpose v i j) i j).nmodes = v.nmodes ∧
      (tensor_transpose (tensor_transpose v i j) i j).dim = v.dim ∧
      (∀ c : List Nat, c.length = v.nmodes →
        (tensor_transpose (tensor_transpose v i j) i j).get c = v.get c) ∧
      (∀ c : List Nat, c.length = v.nmodes →
        tensor_transpose_index i j v.nmodes (tensor_transpose_index i j v.nmodes c) = c) ∧
      (∀ c : List Nat, c.length = v.nmodes →
        ((tensor_transpose v i j).«to» c).bind (tensor_transpose v i j).«from» = some c) := by
  refine ⟨rfl, ?_, ?_, ?_, ?_⟩
  · exact tensor_transpose_index_involutive i j v.nmodes v.dim hdim hi hj
  · intro c hc
    simp only [tensor_transpose, base_view_get, Option.some_bind]
    rw [tensor_transpose_index_involutive i j v.nmodes c hc hi hj]
  · intro c hc
    exact tensor_transpose_index_involutive i j v.nmodes c hc hi hj
  · intro c hc
    simp only [tensor_transpose, Option.some_bind]
    rw [tensor_transpose_index_involutive i j v.nmodes c hc hi hj]

/-- With exact arithmetic: for `n < nmodes(v)`, `nmodes(v) >= 2` and positive dimensions,
and every view coordinate `(c0, c1)` with `1 <= c0 <= dim(v)[n]` and `1 <= c1 <=` product
of the other dimensions, the translation to the wrapped view is defined and translating
back returns `(c0, c1)`. -/
theorem exact_unfold_from_to {V : Type} (v : tensor_view V) (n c0 c1 : Nat)
    (hn : n < v.nmodes) (hnm : 2 ≤ v.nmodes) (hdim : v.dim.length = v.nmodes)
    (hpos : ∀ d ∈ v.dim, 0 < d)
    (_hc0 : 1 ≤ c0 ∧ c0 ≤ v.dim.getD n 0)
    (hc1 : 1 ≤ c1 ∧ c1 ≤ (v.dim.eraseIdx n).prod) :
    (∃ w, (unfold_tensor_exact v n).«to» [c0, c1] = some w ∧ w.length = v.nmodes ∧
        (unfold_tensor_exact v n).«from» w = some [c0, c1]) ∧
      ((unfold_tensor_exact v n).«to» [c0, c1]).bind (unfold_tensor_exact v n).«from» = some [c0, c1] := by
  obtain ⟨hjk0, hjk⟩ := unfold_tensor_data_jk v.nmodes v.dim n hn hdim hpos
  have hkat : unfold_k_at n v.nmodes = v.nmodes - 1 := by
    unfold unfold_k_at
    simp [hn]
  have hun : (unfold_tensor_data_exact v.nmodes v.dim n).n = n := rfl
  obtain ⟨pre, r, h1, h2, h3, h4, h5, h6⟩ :=
    unfold_to_from_loop (unfold_tensor_data_exact v.nmodes v.dim n) c0 (v.nmodes - 1) hjk
      v.nmodes (c1 - 1) ((v.nmodes : Int) - 2) []
      (by rw [hun, hkat]) (by rw [hun, hkat]; omega)
  rw [hun] at h3 h5 h6
  have hr : r = 0 := by
    have := h5 (by rw [hkat]; omega) 1 hjk0
    omega
  have hto : (unfold_tensor_exact v n).«to» [c0, c1] = some pre := by
    simp only [unfold_tensor_exact, unfold_to_exact, List.getD_cons_zero, List.getD_cons_succ]
    rw [h1, List.append_nil]
  have hfrom : (unfold_tensor_exact v n).«from» pre = some [c0, c1] := by
    simp only [unfold_tensor_exact, unfold_from_exact]
    rw [List.take_of_length_le (le_of_eq h2)]
    have h7 := h6 [] 1
    rw [List.append_nil] at h7
    rw [h7, hun, h3 hn]
    simp only [unfold_from_loop_exact, Option.map_some']
    rw [hr]
    have : 1 + (c1 - 1 - 0) = c1 := by omega
    rw [this]
  refine ⟨⟨pre, hto, h2, hfrom⟩, ?_⟩
  rw [hto, Option.some_bind, hfrom]

/-- Witness for C9: swapping modes `0` and `2` of a three-mode view twice. -/
theorem tensor_transpose_twice_witness :
    (tensor_transpose (tensor_transpose (⟨3, [3, 4, 5], some 0, fun _ => none,
        fun _ => none, fun _ => some 0, fun c => some c, fun c => some c⟩ : tensor_view Int)
        0 2) 0 2).dim = [3, 4, 5] :=
  (tensor_transpose_twice (⟨3, [3, 4, 5], some 0, fun _ => none, fun _ => none,
      fun _ => some 0, fun c => some c, fun c => some c⟩ : tensor_view Int) 0 2
    (by decide) (by decide) (by decide)).2.1

/-! ## Coefficients of the unfold view -/

theorem unfold_stride_zero (dim : List Nat) (n : Nat) : unfold_stride dim n 0 = 1 := by
  simp [unfold_stride]

theorem unfold_stride_succ (dim : List Nat) (n i : Nat) (hi : i < dim.length) :
    unfold_stride dim n (i + 1) =
      if i = n then unfold_stride dim n i else unfold_stride dim n i * dim.getD i 0 := by
  unfold unfold_stride
  have hlen : (dim.take i).length = i := by simp; omega
  rw [List.take_succ, List.getElem?_eq_getElem hi, List.getD_eq_getElem _ _ hi]
  simp only [Option.toList_some]
  by_cases h : i = n
  · rw [if_pos h]
    rw [List.eraseIdx_append_of_length_le (by omega), List.eraseIdx_of_length_le (l := dim.take i) (by omega)]
    have : n - (dim.take i).length = 0 := by omega
    rw [this]
    simp
  · rw [if_neg h]
    by_cases h2 : n < i
    · rw [List.eraseIdx_append_of_lt_length (by omega), List.prod_append]
      simp
    · rw [List.eraseIdx_append_of_length_le (by omega),
        List.eraseIdx_of_length_le (l := dim.take i) (by omega)]
      have : n - (dim.take i).length = (n - i - 1) + 1 := by omega
      rw [this]
      simp [List.prod_take_succ _ _ hi]

theorem take_eraseIdx_eq (l : List Nat) (n i : Nat) :
    (l.take i).eraseIdx n = (l.eraseIdx n).take (unfold_k_at n i) := by
  induction l generalizing n i with
  | nil => simp
  | cons a l ih =>
    cases i with
    | zero => simp [unfold_k_at]
    | succ i =>
      cases n with
      | zero => simp [unfold_k_at]
      | succ n =>
        have hk : unfold_k_at (n + 1) (i + 1) = unfold_k_at n i + 1 := by
          unfold unfold_k_at
          split <;> split <;> omega
        rw [hk]
        simp only [List.take_succ_cons, List.eraseIdx_cons_succ]
        rw [ih]

theorem unfold_tensor_loop_inv (n : Nat) (dim : List Nat) (ds pre : List Nat)
    (st : Nat × List Nat) (hsplit : pre ++ ds = dim)
    (h1 : st.1 = unfold_stride dim n pre.length)
    (h2 : st.2.length = unfold_k_at n pre.length + 1)
    (h3 : ∀ i, i ≤ pre.length → st.2.get? (unfold_k_at n i) = some (unfold_stride dim n i)) :
    (unfold_tensor_loop_exact n ds pre.length st).1 = unfold_stride dim n dim.length ∧
      (unfold_tensor_loop_exact n ds pre.length st).2.length = unfold_k_at n dim.length + 1 ∧
      ∀ i, i ≤ dim.length →
        (unfold_tensor_loop_exact n ds pre.length st).2.get? (unfold_k_at n i) =
          some (unfold_stride dim n i) := by
  induction ds generalizing pre st with
  | nil =>
    have : pre = dim := by simpa using hsplit
    subst this
    exact ⟨h1, h2, h3⟩
  | cons d ds ih =>
    have hlt : pre.length < dim.length := by rw [← hsplit]; simp
    have hd : dim.getD pre.length 0 = d := by
      rw [← hsplit, List.getD_eq_getElem?_getD, List.getElem?_append_right (le_refl _)]
      simp
    have hrec := unfold_stride_succ dim n pre.length hlt
    have hpre : (pre ++ [d]).length = pre.length + 1 := by simp
    unfold unfold_tensor_loop_exact
    by_cases hin : pre.length = n
    · rw [if_pos hin]
      rw [if_pos hin] at hrec
      have hk : unfold_k_at n (pre.length + 1) = unfold_k_at n pre.length := by
        rw [hin]; exact unfold_k_at_succ_self n
      have := ih (pre ++ [d]) st (by simp [hsplit])
        (by rw [hpre, hrec]; exact h1) (by rw [hpre, hk]; exact h2)
        (by
          intro i hi
          rw [hpre] at hi
          by_cases hi2 : i ≤ pre.length
          · exact h3 i hi2
          · have : i = pre.length + 1 := by omega
            rw [this, hk, hrec]
            exact h3 pre.length (le_refl _))
      rw [hpre] at this
      exact this
    · rw [if_neg hin]
      rw [if_neg hin, hd] at hrec
      have hk : unfold_k_at n (pre.length + 1) = unfold_k_at n pre.length + 1 :=
        unfold_k_at_succ_ne n pre.length hin
      have hlast : st.2.getD (st.2.length - 1) 0 = unfold_stride dim n pre.length := by
        have h4 := h3 pre.length (le_refl _)
        rw [h2, Nat.add_sub_cancel, List.getD_eq_getElem?_getD, ← List.get?_eq_getElem?, h4]
        rfl
      have := ih (pre ++ [d])
        (st.1 * d, st.2 ++ [st.2.getD (st.2.length - 1) 0 * d]) (by simp [hsplit])
        (by rw [hpre, hrec, h1])
        (by rw [hpre, hk]; simp [h2])
        (by
          intro i hi
          rw [hpre] at hi
          by_cases hi2 : i ≤ pre.length
          · have h5 := h3 i hi2
            have hlt2 : unfold_k_at n i < st.2.length := by
              rw [List.get?_eq_getElem?] at h5
              exact (List.getElem?_eq_some_iff.mp h5).1
            rw [List.get?_eq_getElem?, List.getElem?_append_left hlt2,
              ← List.get?_eq_getElem?]
            exact h5
          · have hi3 : i = pre.length + 1 := by omega
            rw [hi3, hk, hrec, List.get?_eq_getElem?,
              List.getElem?_append_right (by omega), hlast]
            simp [h2])
      rw [hpre] at this
      exact this

theorem unfold_tensor_data_closed (nmodes : Nat) (dim : List Nat) (n : Nat)
    (hdim : dim.length = nmodes) :
    (unfold_tensor_data_exact nmodes dim n).dim = [dim.getD n 0, unfold_stride dim n nmodes] ∧
      (unfold_tensor_data_exact nmodes dim n).jk.length = unfold_k_at n nmodes + 1 ∧
      ∀ i, i ≤ nmodes →
        (unfold_tensor_data_exact nmodes dim n).jk.get? (unfold_k_at n i) =
          some (unfold_stride dim n i) := by
  have h := unfold_tensor_loop_inv n dim dim [] (1, [1]) (by simp)
    (by simp [unfold_stride_zero]) (by simp [unfold_k_at])
    (by
      intro i hi
      have : i = 0 := by simpa using hi
      subst this
      simp [unfold_k_at, unfold_stride_zero])
  simp only [List.length_nil] at h
  rw [hdim] at h
  simp only [unfold_tensor_data_exact, List.take_of_length_le (le_of_eq hdim)]
  exact ⟨by rw [h.1], h.2.1, h.2.2⟩

theorem matricize_below_succ (dim c : List Nat) (n i : Nat) :
    matricize_below dim c n (i + 1) =
      matricize_below dim c n i +
        (if i = n then 0 else (c.getD i 0 - 1) * unfold_stride dim n i) := by
  simp [matricize_below, List.range_succ]

theorem matricize_below_lt (dim c : List Nat) (n : Nat)
    (hin : ∀ i < dim.length, 1 ≤ c.getD i 0 ∧ c.getD i 0 ≤ dim.getD i 0)
    (i : Nat) (hi : i ≤ dim.length) :
    matricize_below dim c n i < unfold_stride dim n i := by
  induction i with
  | zero => simp [matricize_below, unfold_stride_zero]
  | succ i ih =>
    have h1 := ih (by omega)
    rw [matricize_below_succ, unfold_stride_succ dim n i (by omega)]
    by_cases h : i = n
    · simp only [h, if_true, Nat.add_zero]
      rw [h] at h1
      exact h1
    · simp only [h, if_false]
      obtain ⟨hlo, hhi⟩ := hin i (by omega)
      obtain ⟨e, he⟩ : ∃ e, c.getD i 0 = e + 1 := ⟨c.getD i 0 - 1, by omega⟩
      obtain ⟨f, hf⟩ : ∃ f, dim.getD i 0 = e + 1 + f := ⟨dim.getD i 0 - (e + 1), by omega⟩
      rw [he, hf, Nat.add_sub_cancel]
      generalize unfold_stride dim n i = S at h1 ⊢
      generalize matricize_below dim c n i = P at h1 ⊢
      have e1 : S * (e + 1 + f) = e * S + S + f * S := by ring
      rw [e1]
      have : 0 ≤ f * S := Nat.zero_le _
      omega

theorem unfold_from_loop_closed (uv : unfold_view) (dim c : List Nat) (nm : Nat)
    (hc : c.length = nm)
    (hjk : ∀ i, i ≤ nm →
      uv.jk.get? (unfold_k_at uv.n i) = some (unfold_stride dim uv.n i))
    (rest pre : List Nat) (acc : Nat) (hsplit : pre ++ rest = c) :
    unfold_from_loop_exact uv rest pre.length (unfold_k_at uv.n pre.length)
        (acc + matricize_below dim c uv.n pre.length) =
      some (acc + matricize_below dim c uv.n nm) := by
  induction rest generalizing pre with
  | nil =>
    have : pre = c := by simpa using hsplit
    subst this
    rw [hc]
    rfl
  | cons x rest ih =>
    have hlt : pre.length < nm := by rw [← hc, ← hsplit]; simp
    have hx : c.getD pre.length 0 = x := by
      rw [← hsplit, List.getD_eq_getElem?_getD, List.getElem?_append_right (le_refl _)]
      simp
    have hpre : (pre ++ [x]).length = pre.length + 1 := by simp
    have h := ih (pre ++ [x]) (by simp [hsplit])
    rw [hpre, matricize_below_succ, hx] at h
    rw [unfold_from_loop_exact]
    by_cases hin : pre.length = uv.n
    · rw [if_pos hin]
      rw [if_pos hin, Nat.add_zero] at h
      have hk : unfold_k_at uv.n (pre.length + 1) = unfold_k_at uv.n pre.length := by
        rw [hin]; exact unfold_k_at_succ_self uv.n
      rw [hk] at h
      exact h
    · rw [if_neg hin, hjk pre.length (by omega)]
      rw [if_neg hin, unfold_k_at_succ_ne uv.n pre.length hin, ← Nat.add_assoc] at h
      exact h

theorem unfold_to_loop_closed (uv : unfold_view) (dim c : List Nat) (nm : Nat)
    (hc : c.length = nm) (hdimlen : dim.length = nm)
    (hjk : ∀ i, i ≤ nm →
      uv.jk.get? (unfold_k_at uv.n i) = some (unfold_stride dim uv.n i))
    (hin : ∀ i < dim.length, 1 ≤ c.getD i 0 ∧ c.getD i 0 ≤ dim.getD i 0)
    (i : Nat) (hi : i ≤ nm) (out : List Nat) :
    unfold_to_loop_exact uv (c.getD uv.n 0) i (matricize_below dim c uv.n i)
        ((unfold_k_at uv.n i : Int) - 1) out = some (c.take i ++ out) := by
  induction i generalizing out with
  | zero => simp [unfold_to_loop_exact]
  | succ i ih =>
    have hlt : i < c.length := by omega
    have htake : c.take (i + 1) ++ out = c.take i ++ c.getD i 0 :: out := by
      rw [List.take_succ, List.getElem?_eq_getElem hlt, List.getD_eq_getElem _ _ hlt]
      simp only [Option.toList_some, List.append_assoc, List.singleton_append]
    rw [htake, unfold_to_loop_exact, matricize_below_succ]
    by_cases hn : i = uv.n
    · rw [if_pos hn, if_pos hn, Nat.add_zero]
      have hk : unfold_k_at uv.n (i + 1) = unfold_k_at uv.n i := by
        rw [hn]; exact unfold_k_at_succ_self uv.n
      rw [hk, ih (by omega), hn]
    · rw [if_neg hn, if_neg hn]
      have hk : unfold_k_at uv.n (i + 1) = unfold_k_at uv.n i + 1 :=
        unfold_k_at_succ_ne uv.n i hn
      have hread : unfold_jk_read uv ((unfold_k_at uv.n (i + 1) : Int) - 1) =
          some (unfold_stride dim uv.n i) := by
        unfold unfold_jk_read
        have e : ((unfold_k_at uv.n (i + 1) : Nat) : Int) - 1 =
            ((unfold_k_at uv.n i : Nat) : Int) := by rw [hk]; push_cast; omega
        rw [e, if_pos (Int.natCast_nonneg _), Int.toNat_natCast]
        exact hjk i (by omega)
      rw [hread]
      have hP := matricize_below_lt dim c uv.n hin i (by omega)
      have hS0 : ¬ (unfold_stride dim uv.n i = 0) := by omega
      simp only [hS0, if_false]
      have hmod : (matricize_below dim c uv.n i +
          (c.getD i 0 - 1) * unfold_stride dim uv.n i) % unfold_stride dim uv.n i =
          matricize_below dim c uv.n i := by
        rw [Nat.add_mul_mod_self_right, Nat.mod_eq_of_lt hP]
      have hdiv : (matricize_below dim c uv.n i +
          (c.getD i 0 - 1) * unfold_stride dim uv.n i) / unfold_stride dim uv.n i + 1 =
          c.getD i 0 := by
        rw [Nat.add_mul_div_right _ _ (by omega), Nat.div_eq_of_lt hP]
        have := (hin i (by omega)).1
        omega
      have e2 : ((unfold_k_at uv.n (i + 1) : Nat) : Int) - 1 - 1 =
          ((unfold_k_at uv.n i : Nat) : Int) - 1 := by rw [hk]; push_cast; omega
      rw [hmod, hdiv, e2, ih (by omega)]

/-- With exact arithmetic: for `n < nmodes(v)` and every in-range coordinate `c` of `v`,
the translation to the view is defined and translating back returns `c`. -/
theorem exact_unfold_to_after_from {V : Type} (v : tensor_view V) (n : Nat) (c : List Nat)
    (hn : n < v.nmodes) (_hnm : 2 ≤ v.nmodes) (hdim : v.dim.length = v.nmodes)
    (_hpos : ∀ d ∈ v.dim, 0 < d) (hc : coord_in_range v.dim c) :
    (∃ u, (unfold_tensor_exact v n).«from» c = some u ∧ u.length = 2 ∧
        (unfold_tensor_exact v n).«to» u = some c) ∧
      ((unfold_tensor_exact v n).«from» c).bind (unfold_tensor_exact v n).«to» = some c := by
  obtain ⟨hclen, hcin⟩ := hc
  have hcl : c.length = v.nmodes := by rw [hclen, hdim]
  obtain ⟨_, _, hjk⟩ := unfold_tensor_data_closed v.nmodes v.dim n hdim
  have hun : (unfold_tensor_data_exact v.nmodes v.dim n).n = n := rfl
  have hfrom : (unfold_tensor_exact v n).«from» c =
      some [c.getD n 0, 1 + matricize_below v.dim c n v.nmodes] := by
    simp only [unfold_tensor_exact, unfold_from_exact]
    rw [List.take_of_length_le (le_of_eq hcl)]
    have h := unfold_from_loop_closed (unfold_tensor_data_exact v.nmodes v.dim n) v.dim c
      v.nmodes hcl hjk c [] 1 (by simp)
    simp only [List.length_nil, hun] at h
    have h0 : unfold_k_at n 0 = 0 := by simp [unfold_k_at]
    have hp0 : matricize_below v.dim c n 0 = 0 := by simp [matricize_below]
    rw [h0, hp0, Nat.add_zero] at h
    rw [h, hun]
    rfl
  have hto : (unfold_tensor_exact v n).«to» [c.getD n 0, 1 + matricize_below v.dim c n v.nmodes]
      = some c := by
    simp only [unfold_tensor_exact, unfold_to_exact, List.getD_cons_zero, List.getD_cons_succ]
    have h := unfold_to_loop_closed (unfold_tensor_data_exact v.nmodes v.dim n) v.dim c
      v.nmodes hcl hdim hjk hcin v.nmodes (le_refl _) []
    rw [hun] at h
    have hk : ((unfold_k_at n v.nmodes : Nat) : Int) - 1 = (v.nmodes : Int) - 2 := by
      unfold unfold_k_at
      rw [if_pos hn]
      omega
    rw [hk, List.append_nil, List.take_of_length_le (le_of_eq hcl)] at h
    rw [Nat.add_sub_cancel_left]
    exact h
  refine ⟨⟨_, hfrom, rfl, hto⟩, ?_⟩
  rw [hfrom, Option.some_bind, hto]

/-- With exact arithmetic: the view has two modes with dimensions `(dim(v)[n], product of
the other dimensions)`, the coefficients are `jk[0] = 1` and `jk[k] =` the product of the
first `k` dimensions of `v` with mode `n` skipped, and the translation to the view is the
mode-`n` matricisation. -/
theorem exact_unfold_tensor_matricisation {V : Type} (v : tensor_view V) (n : Nat)
    (hn : n < v.nmodes) (hdim : v.dim.length = v.nmodes) :
    (unfold_tensor_exact v n).nmodes = 2 ∧
      (unfold_tensor_exact v n).dim = [v.dim.getD n 0, (v.dim.eraseIdx n).prod] ∧
      (unfold_tensor_data_exact v.nmodes v.dim n).jk.get? 0 = some 1 ∧
      (∀ k, k < v.nmodes →
        (unfold_tensor_data_exact v.nmodes v.dim n).jk.get? k =
          some ((v.dim.eraseIdx n).take k).prod) ∧
      (∀ c : List Nat, c.length = v.nmodes →
        (unfold_tensor_exact v n).«from» c =
          some [c.getD n 0, matricize_column v.dim c n v.nmodes]) := by
  obtain ⟨hd, _, hjk⟩ := unfold_tensor_data_closed v.nmodes v.dim n hdim
  have hun : (unfold_tensor_data_exact v.nmodes v.dim n).n = n := rfl
  have hjkk : ∀ k, k < v.nmodes →
      (unfold_tensor_data_exact v.nmodes v.dim n).jk.get? k =
        some ((v.dim.eraseIdx n).take k).prod := by
    intro k hk
    by_cases hkn : k ≤ n
    · have h := hjk k (by omega)
      have e : unfold_k_at n k = k := by unfold unfold_k_at; rw [if_neg (by omega)]
      rw [e] at h
      rw [h, unfold_stride, take_eraseIdx_eq, e]
    · have h := hjk (k + 1) (by omega)
      have e : unfold_k_at n (k + 1) = k := by
        unfold unfold_k_at; rw [if_pos (by omega)]; omega
      rw [e] at h
      rw [h, unfold_stride, take_eraseIdx_eq, e]
  refine ⟨rfl, ?_, ?_, hjkk, ?_⟩
  · show (unfold_tensor_data_exact v.nmodes v.dim n).dim = _
    rw [hd, unfold_stride, ← hdim, List.take_length]
  · have h := hjkk 0 (by omega)
    simpa using h
  · intro c hcl
    simp only [unfold_tensor_exact, unfold_from_exact]
    rw [List.take_of_length_le (le_of_eq hcl)]
    have h := unfold_from_loop_closed (unfold_tensor_data_exact v.nmodes v.dim n) v.dim c
      v.nmodes hcl hjk c [] 1 (by simp)
    simp only [List.length_nil, hun] at h
    have h0 : unfold_k_at n 0 = 0 := by simp [unfold_k_at]
    have hp0 : matricize_below v.dim c n 0 = 0 := by simp [matricize_below]
    rw [h0, hp0, Nat.add_zero] at h
    rw [h, hun]
    rfl

/-! ## Dense views -/

/-- C13 (code deviates): for `dense_tensor_alloc(2, (2,3))` the code computes the
multipliers `mul = (2, 1)`, whereas the product of the dimensions after mode `0` is `3`;
with them `dense_tensor_compute_index` sends both `(1,3)` and `(2,1)` to offset `2`,
while their row-major offsets are `2` and `3`. -/
theorem dense_tensor_alloc_mul_not_row_major :
    (dense_tensor_alloc 2 [2, 3] : dense_tensor Int).mul = [2, 1] ∧
      (([2, 3] : List Nat).drop 1).prod = 3 ∧
      (dense_tensor_alloc 2 [2, 3] : dense_tensor Int).totalCount = 6 ∧
      dense_tensor_compute_index (dense_tensor_alloc 2 [2, 3] : dense_tensor Int) [1, 3] = 2 ∧
      dense_tensor_compute_index (dense_tensor_alloc 2 [2, 3] : dense_tensor Int) [2, 1] = 2 ∧
      row_major_offset [1, 3] [2, 3] = 2 ∧
      row_major_offset [2, 1] [2, 3] = 3 := by
  decide

/-- C14 (code deviates): in the dense view `dense_tensor_alloc(2, (2,3))` the in-range
coordinates `(1,3)` and `(2,1)` share one cell: `get((2,1))` is `0` before and `7` after
`set((1,3), 7)`. -/
theorem dense_tensor_set_changes_other_cell :
    coord_in_range (dense_tensor_alloc 2 [2, 3] : dense_tensor Int).dim [1, 3] ∧
      coord_in_range (dense_tensor_alloc 2 [2, 3] : dense_tensor Int).dim [2, 1] ∧
      dense_tensor_get (dense_tensor_alloc 2 [2, 3] : dense_tensor Int) [2, 1] = some 0 ∧
      ((dense_tensor_set (dense_tensor_alloc 2 [2, 3] : dense_tensor Int) [1, 3] 7).bind
        (fun d => dense_tensor_get d [2, 1])) = some 7 ∧
      ((dense_tensor_set (dense_tensor_alloc 2 [2, 3] : dense_tensor Int) [1, 3] 7).bind
        (fun d => dense_tensor_get d [1, 3])) = some 7 := by
  decide

/-! ## Identity views -/

theorem identity_get_loop_eq {V : Type} [Zero V] [One V] (x0 : Nat) (l : List Nat) :
    (identity_get_loop x0 l : V) = if ∀ x ∈ l, x = x0 then 1 else 0 := by
  induction l with
  | nil => simp [identity_get_loop]
  | cons a l ih =>
    simp only [identity_get_loop, List.mem_cons, forall_eq_or_imp]
    by_cases h : a = x0
    · simp only [h, ne_eq, not_true_eq_false, if_false, true_and]
      exact ih
    · simp [h]

theorem identity_get_eq {V : Type} [Zero V] [One V] (nmodes : Nat) (c : List Nat)
    (hnm : 1 ≤ nmodes) (hc : c.length = nmodes) :
    (identity_get nmodes c : V) = if ∀ x ∈ c, x = c.getD 0 0 then 1 else 0 := by
  cases c with
  | nil => simp at hc; omega
  | cons a t =>
    simp only [identity_get, identity_get_loop_eq, List.getD_cons_zero,
      List.take_of_length_le (le_of_eq hc), List.drop_succ_cons, List.drop_zero,
      List.mem_cons, forall_eq_or_imp, true_and]

theorem identity_nnz_loop_spec (ds : List Nat) (m : Nat) :
    (identity_nnz_loop ds m = m ∨ identity_nnz_loop ds m ∈ ds) ∧
      identity_nnz_loop ds m ≤ m ∧ ∀ d ∈ ds, identity_nnz_loop ds m ≤ d := by
  induction ds generalizing m with
  | nil => simp [identity_nnz_loop]
  | cons a ds ih =>
    simp only [identity_nnz_loop, List.mem_cons, forall_eq_or_imp]
    obtain ⟨h1, h2, h3⟩ := ih (if a < m then a else m)
    by_cases h : a < m
    · simp only [h, if_true] at h1 h2 h3 ⊢
      refine ⟨?_, by omega, h2, h3⟩
      rcases h1 with h1 | h1
      · right; left; exact h1
      · right; right; exact h1
    · simp only [h, if_false] at h1 h2 h3 ⊢
      refine ⟨?_, h2, by omega, h3⟩
      rcases h1 with h1 | h1
      · left; exact h1
      · right; right; exact h1

theorem identity_nnz_min (nmodes : Nat) (dim : List Nat) (hnm : 1 ≤ nmodes)
    (hdim : dim.length = nmodes) :
    identity_nnz nmodes dim ∈ dim ∧ ∀ d ∈ dim, identity_nnz nmodes dim ≤ d := by
  unfold identity_nnz
  rw [List.take_of_length_le (le_of_eq hdim)]
  obtain ⟨h1, _, h3⟩ := identity_nnz_loop_spec dim (dim.getD 0 0)
  refine ⟨?_, h3⟩
  rcases h1 with h1 | h1
  · rw [h1, List.getD_eq_getElem _ _ (by omega : 0 < dim.length)]
    exact List.getElem_mem _
  · exact h1

theorem identity_get_idx_getD (nmodes i k : Nat) (hk : k < nmodes) :
    (identity_get_idx nmodes i).getD k 0 = i + 1 := by
  unfold identity_get_idx
  rw [List.getD_eq_getElem _ _ (by simpa using hk), List.getElem_replicate]

/-- C15: for an identity view with `nmodes >= 1` and a coordinate of that arity,
`identity_get` returns one when all components of the coordinate are equal and zero
otherwise. -/
theorem identity_get_all_equal {V : Type} [Zero V] [One V] (nmodes : Nat) (dim c : List Nat)
    (hnm : 1 ≤ nmodes) (hc : c.length = nmodes) :
    ((∀ x ∈ c, ∀ y ∈ c, x = y) → (identity_get nmodes c : V) = 1) ∧
      (¬ (∀ x ∈ c, ∀ y ∈ c, x = y) → (identity_get nmodes c : V) = 0) ∧
      (identity_tensor nmodes dim : tensor_view V).get c = some (identity_get nmodes c) := by
  have h0 : c.getD 0 0 ∈ c := by
    rw [List.getD_eq_getElem _ _ (by omega : 0 < c.length)]
    exact List.getElem_mem _
  have he : (identity_get nmodes c : V) = if ∀ x ∈ c, x = c.getD 0 0 then 1 else 0 :=
    identity_get_eq nmodes c hnm hc
  refine ⟨?_, ?_, rfl⟩
  · intro h
    rw [he, if_pos (fun x hx => h x hx _ h0)]
  · intro h
    rw [he, if_neg]
    intro h2
    apply h
    intro x hx y hy
    rw [h2 x hx, h2 y hy]

/-- Witness for C15: a diagonal coordinate of a three-mode identity view. -/
theorem identity_get_all_equal_witness :
    (identity_get 3 [2, 2, 2] : Int) = 1 :=
  (identity_get_all_equal 3 [3, 4, 5] [2, 2, 2] (by decide) (by decide)).1 (by decide)

/-- C16: for an identity view with `nmodes >= 1` and positive dimensions, `identity_nnz`
is the minimum dimension, it is the number of in-range coordinates at which
`identity_get` is non-zero, and for every `i < nnz` the coordinate `identity_get_idx(i)`
is in range with `identity_get` there equal to one, as is `geti(i)`. -/
theorem identity_nnz_counts_diagonal {V : Type} [Zero V] [One V] (nmodes : Nat)
    (dim : List Nat) (hnm : 1 ≤ nmodes) (hdim : dim.length = nmodes)
    (_hpos : ∀ d ∈ dim, 0 < d) (h10 : (1 : V) ≠ 0) :
    (identity_tensor nmodes dim : tensor_view V).nnz = some (identity_nnz nmodes dim) ∧
      identity_nnz nmodes dim ∈ dim ∧
      (∀ d ∈ dim, identity_nnz nmodes dim ≤ d) ∧
      Set.ncard {c : List Nat | coord_in_range dim c ∧ (identity_get nmodes c : V) ≠ 0} =
        identity_nnz nmodes dim ∧
      ∀ i, i < identity_nnz nmodes dim →
        coord_in_range dim (identity_get_idx nmodes i) ∧
        (identity_get nmodes (identity_get_idx nmodes i) : V) = 1 ∧
        (identity_tensor_geti i : V) = 1 := by
  obtain ⟨hmem, hmin⟩ := identity_nnz_min nmodes dim hnm hdim
  have hget_diag : ∀ i, (identity_get nmodes (identity_get_idx nmodes i) : V) = 1 := by
    intro i
    rw [identity_get_eq nmodes _ hnm (by simp [identity_get_idx]), if_pos]
    intro x hx
    have hx' : x = i + 1 := by
      unfold identity_get_idx at hx
      exact (List.mem_replicate.mp hx).2
    rw [hx']
    exact (identity_get_idx_getD nmodes i 0 (by omega)).symm
  have hrange_diag : ∀ i, i < identity_nnz nmodes dim →
      coord_in_range dim (identity_get_idx nmodes i) := by
    intro i hi
    refine ⟨by simp [identity_get_idx, hdim], ?_⟩
    intro k hk
    have hk2 : k < nmodes := by omega
    have e : (identity_get_idx nmodes i).getD k 0 = i + 1 :=
      identity_get_idx_getD nmodes i k hk2
    rw [e]
    refine ⟨by omega, ?_⟩
    have := hmin (dim.getD k 0) (by
      rw [List.getD_eq_getElem _ _ hk]; exact List.getElem_mem _)
    omega
  refine ⟨?_, hmem, hmin, ?_, fun i hi => ⟨hrange_diag i hi, hget_diag i, rfl⟩⟩
  · simp [identity_tensor, List.take_of_length_le (le_of_eq hdim)]
  · have hset : {c : List Nat | coord_in_range dim c ∧ (identity_get nmodes c : V) ≠ 0} =
        (fun i => identity_get_idx nmodes i) '' (Set.Iio (identity_nnz nmodes dim)) := by
      ext c
      simp only [Set.mem_setOf_eq, Set.mem_image, Set.mem_Iio]
      constructor
      · rintro ⟨hr, hne⟩
        have hcl : c.length = nmodes := by rw [hr.1, hdim]
        rw [identity_get_eq nmodes c hnm hcl] at hne
        have hall : ∀ x ∈ c, x = c.getD 0 0 := by
          by_contra hcon
          rw [if_neg hcon] at hne
          exact hne rfl
        have h0 := hr.2 0 (by omega)
        obtain ⟨k, hk, hkeq⟩ := List.getElem_of_mem hmem
        have hck := hr.2 k hk
        have hcke : c.getD k 0 = c.getD 0 0 := by
          apply hall
          rw [List.getD_eq_getElem _ _ (by omega : k < c.length)]
          exact List.getElem_mem _
        rw [List.getD_eq_getElem _ _ hk, hkeq, hcke] at hck
        refine ⟨c.getD 0 0 - 1, by omega, ?_⟩
        unfold identity_get_idx
        symm
        rw [List.eq_replicate_iff]
        refine ⟨hcl, ?_⟩
        intro b hb
        rw [hall b hb]
        omega
      · rintro ⟨i, hi, rfl⟩
        refine ⟨hrange_diag i hi, ?_⟩
        rw [hget_diag i]
        exact h10
    rw [hset, Set.ncard_image_of_injective, ← Finset.coe_range, Set.ncard_coe_Finset,
      Finset.card_range]
    intro i j hij
    have := congrArg (fun l => l.getD 0 0) hij
    simp only [identity_get_idx_getD nmodes _ 0 (by omega)] at this
    omega

/-- Witness for C16: the identity view of shape `(3,2,5)` has two diagonal entries. -/
theorem identity_nnz_counts_diagonal_witness :
    (identity_tensor 3 [3, 2, 5] : tensor_view Int).nnz = some 2 :=
  ((identity_nnz_counts_diagonal 3 [3, 2, 5] (by decide) (by decide) (by decide)
    (by decide : (1 : Int) ≠ 0)).1).trans (by decide)

/-- C17: mutating an identity view through `TVSET` completes and changes nothing: the
store comes back unchanged and `get` returns the same value as before at every
coordinate. -/
theorem identity_set_is_noop {V : Type} [Zero V] [One V] (nmodes : Nat) (dim c : List Nat)
    (x : V) (s : Unit) :
    (identity_tensor_handle nmodes dim : tensor_view_handle Unit V).set = none ∧
      TVSET (identity_tensor_handle nmodes dim) s c x = some s ∧
      ∀ s1, TVSET (identity_tensor_handle nmodes dim) s c x = some s1 →
        ∀ c1 : List Nat,
          ((identity_tensor_handle nmodes dim : tensor_view_handle Unit V).read s1).get c1 =
            ((identity_tensor_handle nmodes dim : tensor_view_handle Unit V).read s).get c1 := by
  refine ⟨rfl, rfl, ?_⟩
  intro s1 _ c1
  rfl

/-! ## Index arithmetic of the slice translations -/

theorem sp_index_sub_lt (w a b : Nat) : sp_index_sub w a b < 2 ^ w :=
  Nat.mod_lt _ (Nat.two_pow_pos w)

theorem sp_index_add_lt (w a b : Nat) : sp_index_add w a b < 2 ^ w :=
  Nat.mod_lt _ (Nat.two_pow_pos w)

theorem sp_index_sub_add_mod (w a b : Nat) :
    (sp_index_sub w a b + b) % 2 ^ w = a % 2 ^ w := by
  have hM : 0 < 2 ^ w := Nat.two_pow_pos w
  unfold sp_index_sub
  generalize 2 ^ w = M at hM
  rw [Nat.mod_add_mod]
  have hr : b % M < M := Nat.mod_lt b hM
  have hdm : M * (b / M) + b % M = b := Nat.div_add_mod b M
  have e : a + (M - b % M) + b = a + M * (1 + b / M) := by
    rw [Nat.mul_add, Nat.mul_one]
    generalize M * (b / M) = q at hdm
    omega
  rw [e, Nat.add_mul_mod_self_left]

theorem sp_index_add_right_cancel (w s u b : Nat) (hs : s < 2 ^ w) (hu : u < 2 ^ w)
    (h : (s + b) % 2 ^ w = (u + b) % 2 ^ w) : s = u := by
  have h1 : s ≡ u [MOD 2 ^ w] := Nat.ModEq.add_right_cancel' b h
  have h2 : s % 2 ^ w = u % 2 ^ w := h1
  rw [Nat.mod_eq_of_lt hs, Nat.mod_eq_of_lt hu] at h2
  exact h2

theorem sp_index_from_to (w x b : Nat) (hx : x < 2 ^ w) :
    sp_index_add w (sp_index_sub w (sp_index_add w (sp_index_sub w x 1) b) b) 1 = x := by
  have hsu : sp_index_sub w (sp_index_add w (sp_index_sub w x 1) b) b = sp_index_sub w x 1 := by
    apply sp_index_add_right_cancel w _ _ b (sp_index_sub_lt _ _ _) (sp_index_sub_lt _ _ _)
    rw [sp_index_sub_add_mod]
    unfold sp_index_add
    rw [Nat.mod_mod]
  rw [hsu]
  unfold sp_index_add
  rw [sp_index_sub_add_mod, Nat.mod_eq_of_lt hx]

theorem sp_index_to_from (w y b : Nat) (hy : y < 2 ^ w) :
    sp_index_add w (sp_index_sub w (sp_index_add w (sp_index_sub w y b) 1) 1) b = y := by
  have hsu : sp_index_sub w (sp_index_add w (sp_index_sub w y b) 1) 1 = sp_index_sub w y b := by
    apply sp_index_add_right_cancel w _ _ 1 (sp_index_sub_lt _ _ _) (sp_index_sub_lt _ _ _)
    rw [sp_index_sub_add_mod]
    unfold sp_index_add
    rw [Nat.mod_mod]
  rw [hsu]
  unfold sp_index_add
  rw [sp_index_sub_add_mod, Nat.mod_eq_of_lt hy]

theorem sp_index_sub_of_le (w a b : Nat) (ha : a < 2 ^ w) (hb : b ≤ a) :
    sp_index_sub w a b = a - b := by
  have h := sp_index_sub_add_mod w a b
  have h1 := sp_index_sub_lt w a b
  have h2 : (a - b + b) % 2 ^ w = a % 2 ^ w := by rw [Nat.sub_add_cancel hb]
  exact sp_index_add_right_cancel w _ _ b h1 (by omega) (h.trans h2.symm)

theorem sp_index_dim_plain (w e b : Nat) (he : e < 2 ^ w) (hb : b ≤ e)
    (hlt : e - b + 1 < 2 ^ w) :
    sp_index_add w (sp_index_sub w e b) 1 = e - b + 1 := by
  rw [sp_index_sub_of_le w e b he hb]
  unfold sp_index_add
  exact Nat.mod_eq_of_lt hlt

theorem sp_index_to_plain (w x b : Nat) (hx : 1 ≤ x) (hx2 : x < 2 ^ w)
    (hlt : x + b - 1 < 2 ^ w) :
    sp_index_add w (sp_index_sub w x 1) b = x + b - 1 := by
  rw [sp_index_sub_of_le w x 1 hx2 hx]
  unfold sp_index_add
  have : x - 1 + b = x + b - 1 := by omega
  rw [this]
  exact Nat.mod_eq_of_lt hlt


/-! ## Slice views -/

theorem tensor_slice_free_modes_zero (spec : tensor_slice_spec) (i : Nat) :
    tensor_slice_free_modes spec i 0 = [] := by
  simp [tensor_slice_free_modes]

theorem tensor_slice_free_modes_succ (spec : tensor_slice_spec) (i m : Nat) :
    tensor_slice_free_modes spec i (m + 1) =
      if spec.fixed.getD i 0 ≠ 0 then tensor_slice_free_modes spec (i + 1) m
      else i :: tensor_slice_free_modes spec (i + 1) m := by
  unfold tensor_slice_free_modes
  rw [List.range'_succ, List.filter_cons]
  by_cases h : spec.fixed.getD i 0 = 0
  · simp [h]
  · simp [h]

theorem tensor_slice_nmodes_loop_eq (fs : List Nat) (k : Nat) :
    tensor_slice_nmodes_loop fs k = k - (fs.filter (fun f => decide (f ≠ 0))).length := by
  induction fs generalizing k with
  | nil => simp [tensor_slice_nmodes_loop]
  | cons f fs ih =>
    simp only [tensor_slice_nmodes_loop, List.filter_cons]
    rw [ih]
    by_cases h : f = 0
    · simp [h]
    · simp only [ne_eq, h, not_false_eq_true, if_true, decide_True, List.length_cons]
      omega

theorem tensor_slice_dim_loop_eq (w : Nat) (spec sp : tensor_slice_spec) (m i : Nat)
    (hf : ∀ j, i ≤ j → j < i + m → spec.fixed.getD j 0 = sp.fixed.getD j 0)
    (hb : ∀ j, i ≤ j → j < i + m → spec.«begin».getD j 0 = sp.«begin».getD j 0)
    (he : ∀ j, i ≤ j → j < i + m → spec.«end».getD j 0 = sp.«end».getD j 0) :
    tensor_slice_dim_loop w spec m i =
      (tensor_slice_free_modes sp i m).map
        (fun j => sp_index_add w
          (sp_index_sub w (sp.«end».getD j 0) (sp.«begin».getD j 0)) 1) := by
  induction m generalizing i with
  | zero => simp [tensor_slice_dim_loop, tensor_slice_free_modes_zero]
  | succ m ih =>
    have h1 := ih (i + 1) (fun j h1 h2 => hf j (by omega) (by omega))
      (fun j h1 h2 => hb j (by omega) (by omega))
      (fun j h1 h2 => he j (by omega) (by omega))
    rw [tensor_slice_dim_loop, tensor_slice_free_modes_succ, h1,
      hf i (le_refl _) (by omega), hb i (le_refl _) (by omega), he i (le_refl _) (by omega)]
    by_cases h : sp.fixed.getD i 0 ≠ 0
    · rw [if_pos h, if_pos h]
    · rw [if_neg h, if_neg h, List.map_cons]

theorem take_getD_of_lt (l : List Nat) (n j : Nat) (h : j < n) :
    (l.take n).getD j 0 = l.getD j 0 := by
  rw [List.getD_eq_getElem?_getD, List.getD_eq_getElem?_getD, List.getElem?_take_of_lt h]

theorem tensor_slice_to_loop_length (w : Nat) (spec : tensor_slice_spec) (m i : Nat)
    (inn : List Nat) : (tensor_slice_to_loop w spec m i inn).length = m := by
  induction m generalizing i inn with
  | zero => simp [tensor_slice_to_loop]
  | succ m ih =>
    rw [tensor_slice_to_loop]
    split <;> simp [ih]

theorem tensor_slice_to_loop_getD (w : Nat) (spec : tensor_slice_spec) (m i : Nat)
    (inn : List Nat) (p : Nat) (hp : p < m) :
    (tensor_slice_to_loop w spec m i inn).getD p 0 =
      if spec.fixed.getD (i + p) 0 ≠ 0 then spec.fixed.getD (i + p) 0
      else sp_index_add w
        (sp_index_sub w (inn.getD (tensor_slice_free_modes spec i p).length 0) 1)
        (spec.«begin».getD (i + p) 0) := by
  induction m generalizing i inn p with
  | zero => omega
  | succ m ih =>
    have hhead : inn.headD 0 = inn.getD 0 0 := by cases inn <;> rfl
    have htail : ∀ k, inn.tail.getD k 0 = inn.getD (k + 1) 0 := by
      intro k; cases inn <;> simp
    rw [tensor_slice_to_loop]
    cases p with
    | zero =>
      simp only [Nat.add_zero, tensor_slice_free_modes_zero, List.length_nil]
      by_cases h : spec.fixed.getD i 0 ≠ 0
      · rw [if_pos h, if_pos h, List.getD_cons_zero]
      · rw [if_neg h, if_neg h, List.getD_cons_zero, hhead]
    | succ p =>
      have e : i + (p + 1) = i + 1 + p := by omega
      rw [tensor_slice_free_modes_succ, e]
      by_cases h : spec.fixed.getD i 0 ≠ 0
      · rw [if_pos h, if_pos h, List.getD_cons_succ, ih (i + 1) inn p (by omega)]
      · rw [if_neg h, if_neg h, List.getD_cons_succ, ih (i + 1) inn.tail p (by omega),
          htail, List.length_cons]

theorem tensor_slice_from_to_loop (w : Nat) (spec : tensor_slice_spec) (m i : Nat)
    (c : List Nat) (hc : c.length = (tensor_slice_free_modes spec i m).length)
    (hw : ∀ x ∈ c, x < 2 ^ w) :
    tensor_slice_from_loop w spec (tensor_slice_to_loop w spec m i c) i = c := by
  induction m generalizing i c with
  | zero =>
    rw [tensor_slice_free_modes_zero, List.length_nil, List.length_eq_zero] at hc
    simp [tensor_slice_to_loop, tensor_slice_from_loop, hc]
  | succ m ih =>
    rw [tensor_slice_free_modes_succ] at hc
    rw [tensor_slice_to_loop]
    by_cases h : spec.fixed.getD i 0 ≠ 0
    · rw [if_pos h] at hc
      rw [if_pos h, tensor_slice_from_loop, if_pos h]
      exact ih (i + 1) c hc hw
    · rw [if_neg h, List.length_cons] at hc
      rw [if_neg h, tensor_slice_from_loop, if_neg h]
      cases c with
      | nil => simp at hc
      | cons x c =>
        simp only [List.headD_cons, List.tail_cons]
        rw [sp_index_from_to w x _ (hw x (List.mem_cons_self _ _)),
          ih (i + 1) c (by simpa using hc) (fun y hy => hw y (List.mem_cons_of_mem _ hy))]

theorem tensor_slice_to_from_loop (w : Nat) (spec : tensor_slice_spec) (rest : List Nat)
    (i : Nat) (hw : ∀ x ∈ rest, x < 2 ^ w)
    (hfix : ∀ p, p < rest.length → spec.fixed.getD (i + p) 0 ≠ 0 →
      rest.getD p 0 = spec.fixed.getD (i + p) 0) :
    tensor_slice_to_loop w spec rest.length i (tensor_slice_from_loop w spec rest i) =
      rest := by
  induction rest generalizing i with
  | nil => simp [tensor_slice_to_loop]
  | cons x rest ih =>
    have hw1 : ∀ y ∈ rest, y < 2 ^ w := fun y hy => hw y (List.mem_cons_of_mem _ hy)
    have hfix1 : ∀ p, p < rest.length → spec.fixed.getD (i + 1 + p) 0 ≠ 0 →
        rest.getD p 0 = spec.fixed.getD (i + 1 + p) 0 := by
      intro p hp hne
      have e : i + 1 + p = i + (p + 1) := by omega
      rw [e] at hne ⊢
      have := hfix (p + 1) (by simp; omega) hne
      rw [List.getD_cons_succ] at this
      exact this
    rw [List.length_cons, tensor_slice_to_loop, tensor_slice_from_loop]
    by_cases h : spec.fixed.getD i 0 ≠ 0
    · rw [if_pos h, if_pos h, ih (i + 1) hw1 hfix1]
      have := hfix 0 (by simp) (by simpa using h)
      rw [List.getD_cons_zero, Nat.add_zero] at this
      rw [this]
    · rw [if_neg h, if_neg h]
      simp only [List.headD_cons, List.tail_cons]
      rw [sp_index_to_from w x _ (hw x (List.mem_cons_self _ _)), ih (i + 1) hw1 hfix1]

/-- C18: `tensor_slice(v, spec)` has mode count `nmodes(v)` minus the number of modes of
`v` with a non-zero fixed value, and its dimension vector lists, for the modes that are
not fixed, in increasing mode order, `end[i] - begin[i] + 1` (computed in the index type;
it is the natural-number value whenever `begin[i] <= end[i]` and both that value and
`end[i]` fit the type). -/
theorem tensor_slice_shape {V : Type} (w : Nat) (v : tensor_view V)
    (spec : tensor_slice_spec) :
    (tensor_slice w v spec).nmodes =
        v.nmodes - ((spec.fixed.take v.nmodes).filter (fun f => decide (f ≠ 0))).length ∧
      (tensor_slice w v spec).dim =
        ((List.range v.nmodes).filter (fun i => decide (spec.fixed.getD i 0 = 0))).map
          (fun i => sp_index_add w
            (sp_index_sub w (spec.«end».getD i 0) (spec.«begin».getD i 0)) 1) ∧
      ((∀ i, i < v.nmodes → spec.«begin».getD i 0 ≤ spec.«end».getD i 0 ∧
          spec.«end».getD i 0 < 2 ^ w ∧
          spec.«end».getD i 0 - spec.«begin».getD i 0 + 1 < 2 ^ w) →
        (tensor_slice w v spec).dim =
          ((List.range v.nmodes).filter (fun i => decide (spec.fixed.getD i 0 = 0))).map
            (fun i => spec.«end».getD i 0 - spec.«begin».getD i 0 + 1)) := by
  have hdim : (tensor_slice w v spec).dim =
      ((List.range v.nmodes).filter (fun i => decide (spec.fixed.getD i 0 = 0))).map
        (fun i => sp_index_add w
          (sp_index_sub w (spec.«end».getD i 0) (spec.«begin».getD i 0)) 1) := by
    have h := tensor_slice_dim_loop_eq w (tensor_slice_copy_spec spec v.nmodes) spec
      v.nmodes 0
      (fun j _ h2 => take_getD_of_lt _ _ _ (by omega))
      (fun j _ h2 => take_getD_of_lt _ _ _ (by omega))
      (fun j _ h2 => take_getD_of_lt _ _ _ (by omega))
    rw [List.range_eq_range']
    exact h
  refine ⟨?_, hdim, ?_⟩
  · exact tensor_slice_nmodes_loop_eq _ _
  · intro hplain
    rw [hdim]
    apply List.map_congr_left
    intro i hi
    have hi2 : i < v.nmodes := by
      have := (List.mem_filter.mp hi).1
      exact List.mem_range.mp this
    obtain ⟨h1, h2, h3⟩ := hplain i hi2
    exact sp_index_dim_plain w _ _ h2 h1 h3

/-- Witness for C18: the default spec of a `(3,4,5)` view with mode `0` fixed at `2`
gives a two-mode slice of dimensions `(4,5)`. -/
theorem tensor_slice_shape_witness :
    (tensor_slice 32 (sptensor_view csftest_sptensor) csftest_slice_spec).dim =
      ((List.range 3).filter
        (fun i => decide (csftest_slice_spec.fixed.getD i 0 = 0))).map
        (fun i => csftest_slice_spec.«end».getD i 0 -
          csftest_slice_spec.«begin».getD i 0 + 1) :=
  (tensor_slice_shape 32 (sptensor_view csftest_sptensor) csftest_slice_spec).2.2
    (by decide)

/-- C19: for a slice view, `tensor_slice_to` sends a view coordinate `c` to the wrapped
coordinate that holds `fixed[i]` in every fixed mode `i` and `c_k + begin[i] - 1` in the
`k`-th free mode `i`; `tensor_slice_from(tensor_slice_to(c)) = c` for every view
coordinate; and `tensor_slice_to(tensor_slice_from(c1)) = c1` for every wrapped coordinate
`c1` whose fixed modes hold the fixed values.  Coordinates are values of the index type
(`< 2 ^ w`). -/
theorem tensor_slice_to_from_roundtrip {V : Type} (w : Nat) (spec : tensor_slice_spec)
    (n : Nat) (v : tensor_view V) (sp : tensor_slice_spec) :
    (∀ c : List Nat, (tensor_slice_to w spec n c).length = n ∧
      ∀ i, i < n →
        (spec.fixed.getD i 0 ≠ 0 →
          (tensor_slice_to w spec n c).getD i 0 = spec.fixed.getD i 0) ∧
        (spec.fixed.getD i 0 = 0 →
          (tensor_slice_to w spec n c).getD i 0 =
            sp_index_add w
              (sp_index_sub w (c.getD (tensor_slice_free_modes spec 0 i).length 0) 1)
              (spec.«begin».getD i 0)) ∧
        (spec.fixed.getD i 0 = 0 →
          1 ≤ c.getD (tensor_slice_free_modes spec 0 i).length 0 →
          c.getD (tensor_slice_free_modes spec 0 i).length 0 < 2 ^ w →
          c.getD (tensor_slice_free_modes spec 0 i).length 0 +
            spec.«begin».getD i 0 - 1 < 2 ^ w →
          (tensor_slice_to w spec n c).getD i 0 =
            c.getD (tensor_slice_free_modes spec 0 i).length 0 +
              spec.«begin».getD i 0 - 1)) ∧
      (∀ c : List Nat, c.length = (tensor_slice_free_modes spec 0 n).length →
        (∀ x ∈ c, x < 2 ^ w) →
        tensor_slice_from w spec n (tensor_slice_to w spec n c) = c) ∧
      (∀ c1 : List Nat, c1.length = n → (∀ x ∈ c1, x < 2 ^ w) →
        (∀ i, i < n → spec.fixed.getD i 0 ≠ 0 → c1.getD i 0 = spec.fixed.getD i 0) →
        tensor_slice_to w spec n (tensor_slice_from w spec n c1) = c1) ∧
      (∀ c : List Nat,
        (tensor_slice w v sp).«to» c =
          some (tensor_slice_to w (tensor_slice_copy_spec sp v.nmodes) v.nmodes c) ∧
        (tensor_slice w v sp).«from» c =
          some (tensor_slice_from w (tensor_slice_copy_spec sp v.nmodes) v.nmodes c)) := by
  refine ⟨?_, ?_, ?_, fun c => ⟨rfl, rfl⟩⟩
  · intro c
    refine ⟨tensor_slice_to_loop_length w spec n 0 c, ?_⟩
    intro i hi
    have h := tensor_slice_to_loop_getD w spec n 0 c i hi
    rw [Nat.zero_add] at h
    refine ⟨?_, ?_, ?_⟩
    · intro hne
      rw [if_pos hne] at h
      exact h
    · intro hz
      rw [if_neg (by simpa using hz)] at h
      exact h
    · intro hz h1 h2 h3
      rw [if_neg (by simpa using hz)] at h
      unfold tensor_slice_to
      rw [h]
      exact sp_index_to_plain w _ _ h1 h2 h3
  · intro c hc hw
    unfold tensor_slice_from tensor_slice_to
    rw [List.take_of_length_le (le_of_eq (tensor_slice_to_loop_length w spec n 0 c))]
    exact tensor_slice_from_to_loop w spec n 0 c hc hw
  · intro c1 hc1 hw hfix
    unfold tensor_slice_from tensor_slice_to
    rw [List.take_of_length_le (le_of_eq hc1)]
    have h := tensor_slice_to_from_loop w spec c1 0 hw
      (by
        intro p hp hne
        rw [Nat.zero_add] at hne ⊢
        exact hfix p (by omega) hne)
    rw [hc1] at h
    exact h

/-- Witness for C19: with mode `0` of a three-mode view fixed at `2`, the view coordinate
`(3,1)` goes to `(2,3,1)` and back. -/
theorem tensor_slice_to_from_roundtrip_witness :
    tensor_slice_from 32 csftest_slice_spec 3
        (tensor_slice_to 32 csftest_slice_spec 3 [3, 1]) = [3, 1] ∧
      tensor_slice_to 32 csftest_slice_spec 3
        (tensor_slice_from 32 csftest_slice_spec 3 [2, 3, 1]) = [2, 3, 1] :=
  ⟨(tensor_slice_to_from_roundtrip 32 csftest_slice_spec 3
      (sptensor_view csftest_sptensor) csftest_slice_spec).2.1 [3, 1]
      (by decide) (by decide),
    (tensor_slice_to_from_roundtrip 32 csftest_slice_spec 3
      (sptensor_view csftest_sptensor) csftest_slice_spec).2.2.1 [2, 3, 1]
      (by decide) (by decide) (by decide)⟩

/-- C20: for the tensor of dimensions `(3,4,5)` holding `(1,1,1):99`, `(2,3,1):44`,
`(2,4,4):100`, `(3,2,2):1` (set in that order) wrapped in an sptensor view, the slice built
from the default spec with mode `0` fixed at `2` is a two-mode view of dimensions `(4,5)`
with `nnz = 2`, `get_idx(0) = (3,1)`, `get_idx(1) = (4,4)`, `get((3,1)) = 44` and
`get((4,4)) = 100`; index widths `32` and `64` give the same. -/
theorem tensor_slice_csftest_scenario :
    csftest_sptensor.idx = [[1, 1, 1], [2, 3, 1], [2, 4, 4], [3, 2, 2]] ∧
      csftest_sptensor.ar = [99, 44, 100, 1] ∧
      csftest_slice_spec.fixed = [2, 0, 0] ∧
      csftest_slice_spec.«begin» = [1, 1, 1] ∧
      csftest_slice_spec.«end» = [3, 4, 5] ∧
      ∀ w, w = 32 ∨ w = 64 →
        (tensor_slice w (sptensor_view csftest_sptensor) csftest_slice_spec).nmodes = 2 ∧
        (tensor_slice w (sptensor_view csftest_sptensor) csftest_slice_spec).dim = [4, 5] ∧
        (tensor_slice w (sptensor_view csftest_sptensor) csftest_slice_spec).nnz = some 2 ∧
        (tensor_slice w (sptensor_view csftest_sptensor) csftest_slice_spec).get_idx 0 =
          some [3, 1] ∧
        (tensor_slice w (sptensor_view csftest_sptensor) csftest_slice_spec).get_idx 1 =
          some [4, 4] ∧
        (tensor_slice w (sptensor_view csftest_sptensor) csftest_slice_spec).get [3, 1] =
          some 44 ∧
        (tensor_slice w (sptensor_view csftest_sptensor) csftest_slice_spec).get [4, 4] =
          some 100 := by
  refine ⟨by decide, by decide, by decide, by decide, by decide, ?_⟩
  intro w hw
  rcases hw with hw | hw
  · subst hw; decide
  · subst hw; decide

/-- Witness for C20: the scenario at index width `32`. -/
theorem tensor_slice_csftest_scenario_witness :
    (tensor_slice 32 (sptensor_view csftest_sptensor) csftest_slice_spec).nnz = some 2 :=
  (tensor_slice_csftest_scenario.2.2.2.2.2 32 (Or.inl rfl)).2.2.1

/-! ## Writing through the nonzero iterator -/

theorem nz_iterator_set_coo {V : Type} (itr itr2 : struct_sptensor_coo_nz_iterator V) (v : V)
    (h : sptensor_coo_nz_iterator_set itr v = some itr2) :
    itr2.t.coo = itr.t.coo ∧ itr2.t.data = itr.t.data.set itr.ci.toNat v := by
  unfold sptensor_coo_nz_iterator_set at h
  split at h
  · cases h; exact ⟨rfl, rfl⟩
  · cases h

theorem nz_iterator_set_nonzero_invariant {V : Type} [Zero V]
    (itr itr2 : struct_sptensor_coo_nz_iterator V) (v : V) (hv : v ≠ 0)
    (hinv : coo_invariant itr.t) (h : sptensor_coo_nz_iterator_set itr v = some itr2) :
    coo_invariant itr2.t := by
  obtain ⟨h1, h2⟩ := nz_iterator_set_coo itr itr2 v h
  obtain ⟨i1, i2, i3⟩ := hinv
  refine ⟨by rw [h1, h2, List.length_set]; exact i1, by rw [h1]; exact i2, ?_⟩
  intro x hx
  rw [h2] at hx
  rcases List.mem_or_eq_of_mem_set hx with h3 | h3
  · exact i3 x h3
  · rw [h3]; exact hv

/-- C26 (code deviates): `sptensor_coo_nz_iterator_set` overwrites the value at the
iterator's position with whatever it is given.  On the tensor with the single entry
`(1,1,1) = 9`, which satisfies the storage invariant, the iterator starts at a valid
position; writing `0` there leaves the coordinate `(1,1,1)` stored with the value `0`, so
the invariant (no stored value is zero) no longer holds. -/
theorem coo_nz_iterator_set_stores_zero :
    coo_invariant coo_single_entry ∧
    sptensor_coo_nz_valid (sptensor_coo_nz_iterator coo_single_entry) = true ∧
    (sptensor_coo_nz_iterator_set (sptensor_coo_nz_iterator coo_single_entry) 0).map
      (fun i => (i.t.coo, i.t.data)) = some ([[1, 1, 1]], [0]) ∧
    (sptensor_coo_nz_iterator_set (sptensor_coo_nz_iterator coo_single_entry) 0).map
      (fun i => decide (coo_invariant i.t)) = some false := by
  decide

/-! ## The coefficient array of an unfold view -/

theorem unfold_tensor_data_jk_length (nmodes n : Nat) (dim : List Nat) (hn : n < nmodes)
    (hd : dim.length = nmodes) :
    (unfold_tensor_data_exact nmodes dim n).jk.length =
      (unfold_tensor_data_exact nmodes dim n).jk_alloc + 1 := by
  have h := (unfold_tensor_data_closed nmodes dim n hd).2.1
  rw [h]
  have : (unfold_tensor_data_exact nmodes dim n).jk_alloc = nmodes - 1 := rfl
  rw [this]
  unfold unfold_k_at
  rw [if_pos hn]

/-- C28 (code deviates): `unfold_tensor` allocates `nmodes - 1` coefficients but its
loop writes one per mode other than `n` after `jk[0]`, that is `nmodes` of them.  For
dimensions `(3,4,5)` and `n = 1` the values written are `jk[0] = 1`, `jk[1] = 3`,
`jk[2] = 15` while the allocation holds `2` entries, so the write at index `2` is outside
the array (evaluated for an index type of `32` and of `64` bits). -/
theorem unfold_tensor_jk_write_out_of_bounds :
    (unfold_tensor_data 32 3 [3, 4, 5] 1).jk = [1, 3, 15] ∧
    (unfold_tensor_data 32 3 [3, 4, 5] 1).jk_alloc = 2 ∧
    ¬ (unfold_tensor_data 32 3 [3, 4, 5] 1).jk.length ≤
      (unfold_tensor_data 32 3 [3, 4, 5] 1).jk_alloc ∧
    (unfold_tensor_data 64 3 [3, 4, 5] 1).jk = [1, 3, 15] ∧
    (unfold_tensor_data 64 3 [3, 4, 5] 1).jk_alloc = 2 ∧
    ¬ (unfold_tensor_data 64 3 [3, 4, 5] 1).jk.length ≤
      (unfold_tensor_data 64 3 [3, 4, 5] 1).jk_alloc := by
  decide

/-! ## Bounds and enumeration of a dense view -/

/-- C29 (code deviates): for dimensions `(3,2)` the total count is the product `6`,
but the in-range coordinate `(3,2)` has linear position `7`, so `dense_tensor_get` and
`dense_tensor_set` index outside the element array there. -/
theorem dense_tensor_compute_index_out_of_bounds :
    (dense_tensor_alloc 2 [3, 2] : dense_tensor Int).totalCount = 6 ∧
    (dense_tensor_alloc 2 [3, 2] : dense_tensor Int).elem.length = 6 ∧
    coord_in_range (dense_tensor_alloc 2 [3, 2] : dense_tensor Int).dim [3, 2] ∧
    dense_tensor_compute_index (dense_tensor_alloc 2 [3, 2] : dense_tensor Int) [3, 2] = 7 ∧
    dense_tensor_get (dense_tensor_alloc 2 [3, 2] : dense_tensor Int) [3, 2] = none ∧
    (dense_tensor_set (dense_tensor_alloc 2 [3, 2] : dense_tensor Int) [3, 2] 1).isNone
      = true := by
  decide

/-- C30 (code deviates): on the one-mode dense view with cells `5, 7, 0`
(`dense_tensor_nnz = 2`, the non-zero cells in storage order are position `0` with value
`5` and position `1` with value `7`), `dense_tensor_geti(1)` leaves the search loop at
`j = totalCount` and reads outside the element array instead of returning `7`, and
`dense_tensor_idx(1)` returns `(4)`, which is not a coordinate of the view, instead of
`(2)`. -/
theorem dense_tensor_geti_second_cell :
    ((dense_tensor_set (dense_tensor_alloc 1 [3] : dense_tensor Int) [1] 5).bind
      (fun d => dense_tensor_set d [2] 7)).map (fun d => (d.elem, d.mul, d.totalCount))
      = some (dense_two_cells.elem, dense_two_cells.mul, dense_two_cells.totalCount) ∧
    dense_tensor_nnz dense_two_cells = some 2 ∧
    dense_nonzero_cells dense_two_cells = [(0, 5), (1, 7)] ∧
    dense_tensor_geti dense_two_cells 0 = some 5 ∧
    dense_tensor_idx dense_two_cells 0 = some [1] ∧
    dense_tensor_get dense_two_cells [2] = some 7 ∧
    dense_tensor_find_loop dense_two_cells dense_two_cells.totalCount 0 1 true = some 3 ∧
    dense_tensor_geti dense_two_cells 1 = none ∧
    dense_tensor_idx dense_two_cells 1 = some [4] ∧
    ¬ coord_in_range dense_two_cells.dim [4] := by
  decide

/-! ## Deep copy -/

theorem coo_get_set_all_last {V : Type} [Zero V] [DecidableEq V] (dims : List Nat) (n : Nat)
    (ops : List (List Nat × V)) (c : List Nat)
    (hops : ∀ op ∈ ops, op.1.length = n) (hc : c.length = n) :
    sptensor_coo_get (sptensor_coo_set_all (sptensor_coo_alloc dims n) ops) c =
      last_set_value ops c := by
  induction ops using List.reverseRecOn with
  | nil => simp [sptensor_coo_set_all, sptensor_coo_alloc, coo_get_nil, last_set_value]
  | append_singleton ops op ih =>
    have hops1 : ∀ o ∈ ops, o.1.length = n := fun o h => hops o (List.mem_append_left _ h)
    have hop : op.1.length = n := hops op (by simp)
    have hinv := coo_set_all_invariant ops (sptensor_coo_alloc dims n : sptensor_coo V)
      hops1 (coo_alloc_invariant dims n).2 (coo_alloc_invariant dims n).1
    have hm : (sptensor_coo_set_all (sptensor_coo_alloc dims n : sptensor_coo V) ops).modes
        = n := by rw [coo_set_all_modes]; rfl
    rw [coo_set_all_append, coo_get_set _ _ _ _ (by rw [hm]; exact hop)
      (by rw [hm]; exact hc) hinv.2 hinv.1, ih hops1]
    simp only [last_set_value, List.reverse_append, List.reverse_cons, List.reverse_nil,
      List.nil_append, List.singleton_append, List.find?_cons]
    by_cases h : c = op.1
    · simp [h]
    · have h2 : ¬ (op.1 = c) := fun h3 => h h3.symm
      simp [h, h2]

theorem sptensor_storage_set {V : Type} [Zero V] [DecidableEq V] (s : sptensor V)
    (i : List Nat) (v : V) :
    sptensor_storage (sptensor_set s i v) = sptensor_coo_set (sptensor_storage s) i v := by
  unfold sptensor_storage sptensor_set
  exact coo_set_eta s.nmodes s.dim s.idx s.ar i v

theorem sptensor_storage_set_all {V : Type} [Zero V] [DecidableEq V]
    (ops : List (List Nat × V)) (s : sptensor V) :
    sptensor_storage (ops.foldl (fun r op => sptensor_set r op.1 op.2) s) =
      sptensor_coo_set_all (sptensor_storage s) ops := by
  induction ops generalizing s with
  | nil => rfl
  | cons op ops ih =>
    rw [List.foldl_cons, ih, sptensor_storage_set]
    rfl

theorem deep_copy_drop_take_succ {V : Type} (ops : List (List Nat × V)) (i m : Nat)
    (hi : i < ops.length) :
    (ops.drop i).take (m + 1) = ops.get ⟨i, hi⟩ :: (ops.drop (i + 1)).take m := by
  rw [List.drop_eq_getElem_cons hi, List.take_succ_cons]
  rfl

theorem tensor_view_deep_copy_loop_eq {V : Type} [Zero V] [DecidableEq V] (t : tensor_view V)
    (xs : List (List Nat)) (vs : List V) (hlen : xs.length = vs.length)
    (hidx : ∀ i, i < xs.length → t.get_idx i = xs.get? i)
    (hgeti : ∀ i, i < xs.length → t.geti i = vs.get? i)
    (m i : Nat) (hm : i + m ≤ xs.length) (r : sptensor V) :
    tensor_view_deep_copy_loop t sptensor_view_handle m i r =
      some ((((xs.zip vs).drop i).take m).foldl (fun s op => sptensor_set s op.1 op.2) r) := by
  induction m generalizing i r with
  | zero => simp [tensor_view_deep_copy_loop]
  | succ m ih =>
    have hi : i < xs.length := by omega
    have hi2 : i < vs.length := by omega
    have hz : i < (xs.zip vs).length := by simp; omega
    rw [tensor_view_deep_copy_loop, hidx i hi, hgeti i hi, List.get?_eq_get hi,
      List.get?_eq_get hi2]
    have hset : TVSET (sptensor_view_handle : tensor_view_handle (sptensor V) V) r
        (xs.get ⟨i, hi⟩) (vs.get ⟨i, hi2⟩) =
        some (sptensor_set r (xs.get ⟨i, hi⟩) (vs.get ⟨i, hi2⟩)) := rfl
    simp only []
    rw [hset]
    simp only []
    rw [ih (i + 1) (by omega), deep_copy_drop_take_succ (xs.zip vs) i m hz, List.foldl_cons]
    simp

/-- The deep copy of a view whose `geti(i)` goes with `get_idx(i)`: when `get_idx`
enumerates the coordinates `xs` (of the view's arity) and `geti` the values `vs`, the
copy exists, has the mode count and dimensions of the source, and reads at every
coordinate the value paired with it (the last such pair, zero when there is none). -/
theorem tensor_view_deep_copy_of_paired {V : Type} [Zero V] [DecidableEq V]
    (t : tensor_view V) (xs : List (List Nat)) (vs : List V) (hlen : xs.length = vs.length)
    (hnnz : t.nnz = some xs.length)
    (hidx : ∀ i, i < xs.length → t.get_idx i = xs.get? i)
    (hgeti : ∀ i, i < xs.length → t.geti i = vs.get? i)
    (har : ∀ x ∈ xs, x.length = t.nmodes) :
    ∃ r, tensor_view_deep_copy t = some r ∧ r.nmodes = t.nmodes ∧
      r.dim = t.dim.take t.nmodes ∧
      ∀ c, c.length = t.nmodes → r.get c = some (last_set_value (xs.zip vs) c) := by
  have hloop := tensor_view_deep_copy_loop_eq t xs vs hlen hidx hgeti xs.length 0 (by omega)
    (sptensor_alloc t.nmodes t.dim)
  have hall : ((xs.zip vs).drop 0).take xs.length = xs.zip vs := by
    rw [List.drop_zero, List.take_of_length_le (by simp)]
  rw [hall] at hloop
  have hst := sptensor_storage_set_all (xs.zip vs) (sptensor_alloc t.nmodes t.dim : sptensor V)
  have halloc : sptensor_storage (sptensor_alloc t.nmodes t.dim : sptensor V) =
      sptensor_coo_alloc t.dim t.nmodes := rfl
  rw [halloc] at hst
  refine ⟨sptensor_view ((xs.zip vs).foldl (fun s op => sptensor_set s op.1 op.2)
    (sptensor_alloc t.nmodes t.dim)), ?_, ?_, ?_, ?_⟩
  · simp only [tensor_view_deep_copy, hnnz, tensor_alloc]
    rw [hloop]
    rfl
  · have := congrArg sptensor_coo.modes hst
    rw [coo_set_all_modes] at this
    exact this
  · have h1 := congrArg sptensor_coo.dim hst
    have h2 : ∀ (ops : List (List Nat × V)) (s : sptensor_coo V),
        (sptensor_coo_set_all s ops).dim = s.dim := by
      intro ops
      induction ops with
      | nil => intro s; rfl
      | cons op ops ih =>
        intro s
        simp only [sptensor_coo_set_all, List.foldl_cons] at ih ⊢
        rw [ih, coo_set_dim]
    rw [h2] at h1
    exact h1
  · intro c hc
    have hg : (sptensor_view ((xs.zip vs).foldl (fun s op => sptensor_set s op.1 op.2)
        (sptensor_alloc t.nmodes t.dim))).get c =
        some (sptensor_coo_get (sptensor_storage ((xs.zip vs).foldl
          (fun s op => sptensor_set s op.1 op.2) (sptensor_alloc t.nmodes t.dim))) c) := rfl
    rw [hg, hst, coo_get_set_all_last t.dim t.nmodes (xs.zip vs) c _ hc]
    intro op hop
    exact har op.1 (List.of_mem_zip hop).1

/-- C22 (code deviates): the deep copy of the slice of `test/csftest.c` (mode `0`
fixed at `2`) has the mode count and dimensions of the slice, but at the in-range
coordinate `(3,1)` the slice reads `44` and the copy reads `99`: the loop of
`tensor_view_deep_copy` pairs `TVIDX(t, 0)`, which is `(3,1)`, with `TVGETI(t, 0)`, and
the slice's `geti` slot is `base_view_geti`, which returns the value at position `0` of
the wrapped tensor's own nonzero list. -/
theorem tensor_view_deep_copy_slice_differs :
    (tensor_view_deep_copy
      (tensor_slice 32 (sptensor_view csftest_sptensor) csftest_slice_spec)).map
      (fun r => (r.nmodes, r.dim)) = some (2, [4, 5]) ∧
    coord_in_range (tensor_slice 32 (sptensor_view csftest_sptensor) csftest_slice_spec).dim
      [3, 1] ∧
    (tensor_slice 32 (sptensor_view csftest_sptensor) csftest_slice_spec).get_idx 0
      = some [3, 1] ∧
    (tensor_slice 32 (sptensor_view csftest_sptensor) csftest_slice_spec).geti 0
      = some 99 ∧
    (tensor_slice 32 (sptensor_view csftest_sptensor) csftest_slice_spec).get [3, 1]
      = some 44 ∧
    (tensor_view_deep_copy
      (tensor_slice 32 (sptensor_view csftest_sptensor) csftest_slice_spec)).bind
      (fun r => r.get [3, 1]) = some 99 := by
  decide

/-! ## Range of `unfold_to` -/

theorem unfold_stride_pos (dim : List Nat) (n i : Nat) (hpos : ∀ d ∈ dim, 0 < d) :
    0 < unfold_stride dim n i := by
  unfold unfold_stride
  apply List.prod_pos
  intro a ha
  exact hpos a (List.mem_of_mem_take (List.mem_of_mem_eraseIdx ha))

theorem unfold_to_loop_range (uv : unfold_view) (dim : List Nat) (nm in0 : Nat)
    (hdimlen : dim.length = nm)
    (hjk : ∀ i, i ≤ nm →
      uv.jk.get? (unfold_k_at uv.n i) = some (unfold_stride dim uv.n i))
    (hpos : ∀ d ∈ dim, 0 < d)
    (hin0 : 1 ≤ in0 ∧ in0 ≤ dim.getD uv.n 0)
    (i : Nat) (hi : i ≤ nm) (j : Nat) (hj : j < unfold_stride dim uv.n i) (out : List Nat) :
    ∃ pre, unfold_to_loop_exact uv in0 i j ((unfold_k_at uv.n i : Int) - 1) out = some (pre ++ out) ∧
      pre.length = i ∧ ∀ p < i, 1 ≤ pre.getD p 0 ∧ pre.getD p 0 ≤ dim.getD p 0 := by
  induction i generalizing j out with
  | zero => exact ⟨[], by simp [unfold_to_loop_exact], rfl, by intro p hp; omega⟩
  | succ i ih =>
    have hlt : i < dim.length := by omega
    rw [unfold_to_loop_exact]
    rw [unfold_stride_succ dim uv.n i hlt] at hj
    by_cases hn : i = uv.n
    · rw [if_pos hn] at hj ⊢
      have hk : unfold_k_at uv.n (i + 1) = unfold_k_at uv.n i := by
        rw [hn]; exact unfold_k_at_succ_self uv.n
      obtain ⟨pre, h1, h2, h3⟩ := ih (by omega) j hj (in0 :: out)
      refine ⟨pre ++ [in0], ?_, by simp [h2], ?_⟩
      · rw [hk, h1]; simp
      · intro p hp
        by_cases hpi : p < i
        · rw [List.getD_append _ _ _ _ (by omega)]
          exact h3 p hpi
        · have hpe : p = i := by omega
          rw [List.getD_append_right _ _ _ _ (by omega), hpe, h2, Nat.sub_self,
            List.getD_cons_zero, hn]
          exact hin0
    · rw [if_neg hn] at hj ⊢
      have hk : unfold_k_at uv.n (i + 1) = unfold_k_at uv.n i + 1 :=
        unfold_k_at_succ_ne uv.n i hn
      have e : ((unfold_k_at uv.n (i + 1) : Nat) : Int) - 1 =
          ((unfold_k_at uv.n i : Nat) : Int) := by rw [hk]; push_cast; omega
      have hread : unfold_jk_read uv ((unfold_k_at uv.n (i + 1) : Int) - 1) =
          some (unfold_stride dim uv.n i) := by
        unfold unfold_jk_read
        rw [e, if_pos (Int.natCast_nonneg _), Int.toNat_natCast]
        exact hjk i (by omega)
      have hcpos : 0 < unfold_stride dim uv.n i := unfold_stride_pos dim uv.n i hpos
      rw [hread]
      simp only []
      rw [if_neg (by omega), e]
      obtain ⟨pre, h1, h2, h3⟩ := ih (by omega) (j % unfold_stride dim uv.n i)
        (Nat.mod_lt _ hcpos) ((j / unfold_stride dim uv.n i + 1) :: out)
      refine ⟨pre ++ [j / unfold_stride dim uv.n i + 1], ?_, by simp [h2], ?_⟩
      · rw [h1]; simp
      · intro p hp
        by_cases hpi : p < i
        · rw [List.getD_append _ _ _ _ (by omega)]
          exact h3 p hpi
        · have hpe : p = i := by omega
          rw [List.getD_append_right _ _ _ _ (by omega), hpe, h2, Nat.sub_self,
            List.getD_cons_zero]
          have hdiv : j / unfold_stride dim uv.n i < dim.getD i 0 := by
            rw [Nat.div_lt_iff_lt_mul hcpos, Nat.mul_comm]
            exact hj
          exact ⟨Nat.succ_le_succ (Nat.zero_le _), Nat.succ_le_of_lt hdiv⟩

/-- With exact arithmetic: for `n < nmodes(v)` and positive dimensions the translation to
the wrapped view is defined at every view coordinate `c` with `1 <= c[0] <= dim(v)[n]`
and `1 <= c[1] <=` the product of the other dimensions, and its result is an in-range
coordinate of `v`. -/
theorem exact_unfold_to_in_range {V : Type} (v : tensor_view V) (n : Nat) (c : List Nat)
    (hn : n < v.nmodes) (hdim : v.dim.length = v.nmodes) (hpos : ∀ d ∈ v.dim, 0 < d)
    (_hclen : c.length = 2)
    (hc0 : 1 ≤ c.getD 0 0 ∧ c.getD 0 0 ≤ v.dim.getD n 0)
    (hc1 : 1 ≤ c.getD 1 0 ∧ c.getD 1 0 ≤ (v.dim.eraseIdx n).prod) :
    ∃ out, (unfold_tensor_exact v n).«to» c = some out ∧ coord_in_range v.dim out := by
  obtain ⟨_, _, hjk⟩ := unfold_tensor_data_closed v.nmodes v.dim n hdim
  have hun : (unfold_tensor_data_exact v.nmodes v.dim n).n = n := rfl
  have hstr : unfold_stride v.dim n v.nmodes = (v.dim.eraseIdx n).prod := by
    unfold unfold_stride
    rw [List.take_of_length_le (le_of_eq hdim)]
  have h := unfold_to_loop_range (unfold_tensor_data_exact v.nmodes v.dim n) v.dim v.nmodes
    (c.getD 0 0) hdim hjk hpos (by rw [hun]; exact hc0) v.nmodes (le_refl _)
    (c.getD 1 0 - 1) (by rw [hun, hstr]; omega) []
  obtain ⟨pre, h1, h2, h3⟩ := h
  rw [hun] at h1
  have hk : ((unfold_k_at n v.nmodes : Nat) : Int) - 1 = (v.nmodes : Int) - 2 := by
    unfold unfold_k_at
    rw [if_pos hn]
    omega
  rw [hk, List.append_nil] at h1
  refine ⟨pre, ?_, ?_⟩
  · simp only [unfold_tensor_exact, unfold_to_exact]
    exact h1
  · refine ⟨by rw [h2, hdim], ?_⟩
    intro p hp
    exact h3 p (by omega)

/-! ## The text reader -/

theorem read_index_loop_append {V : Type} (n : Nat) (line tail : List (coo_field V))
    (idx : List Nat) (r : List (coo_field V))
    (h : sptensor_coo_read_index_loop n line = some (idx, r)) :
    sptensor_coo_read_index_loop n (line ++ tail) = some (idx, r ++ tail) := by
  induction n generalizing line idx r with
  | zero =>
    simp only [sptensor_coo_read_index_loop, Option.some.injEq, Prod.mk.injEq] at h ⊢
    obtain ⟨h1, h2⟩ := h
    subst h1; subst h2
    exact ⟨rfl, rfl⟩
  | succ n ih =>
    cases line with
    | nil => simp [sptensor_coo_read_index_loop] at h
    | cons f rest =>
      rw [List.cons_append, sptensor_coo_read_index_loop]
      rw [sptensor_coo_read_index_loop] at h
      cases hf : f.as_index with
      | none => rw [hf] at h; simp at h
      | some x =>
        rw [hf] at h
        simp only [] at h ⊢
        cases hr : sptensor_coo_read_index_loop n rest with
        | none => rw [hr] at h; simp at h
        | some p =>
          obtain ⟨i2, r2⟩ := p
          rw [hr] at h
          simp only [Option.map_some', Option.some.injEq, Prod.mk.injEq] at h
          rw [ih rest i2 r2 hr]
          simp only [Option.map_some', Option.some.injEq, Prod.mk.injEq]
          exact ⟨h.1, by rw [← h.2]⟩

theorem read_loop_entry_line {V : Type} [Zero V] [DecidableEq V] (nmodes fuel : Nat)
    (tns : sptensor_coo V) (line tail : List (coo_field V)) (e : List Nat × V)
    (h : coo_line_entry nmodes line = some e) :
    sptensor_coo_read_loop nmodes (fuel + 1) tns (line ++ tail) =
      sptensor_coo_read_loop nmodes fuel (sptensor_coo_set tns e.1 e.2) tail := by
  unfold coo_line_entry at h
  split at h
  · rename_i idx f hr
    cases hv : f.as_value with
    | none => rw [hv] at h; simp at h
    | some v =>
      rw [hv] at h
      simp only [Option.map_some', Option.some.injEq] at h
      subst h
      rw [sptensor_coo_read_loop, read_index_loop_append nmodes line tail idx [f] hr]
      simp only [List.singleton_append, hv]
  · cases h

theorem read_loop_stops {V : Type} [Zero V] [DecidableEq V] (nmodes fuel : Nat)
    (tns : sptensor_coo V) (line tail : List (coo_field V))
    (h : coo_line_stops nmodes line = true) :
    sptensor_coo_read_loop nmodes (fuel + 1) tns (line ++ tail) = some tns := by
  have key : ∀ (n : Nat) (l : List (coo_field V)), coo_line_stops n l = true →
      sptensor_coo_read_index_loop n (l ++ tail) = none ∨
      ∃ idx f r, sptensor_coo_read_index_loop n (l ++ tail) = some (idx, f :: r) ∧
        f.as_value = none := by
    intro n
    induction n with
    | zero =>
      intro l hl
      cases l with
      | nil => simp [coo_line_stops] at hl
      | cons f rest =>
        right
        refine ⟨[], f, rest ++ tail, by simp [sptensor_coo_read_index_loop], ?_⟩
        simpa [coo_line_stops] using hl
    | succ n ih =>
      intro l hl
      cases l with
      | nil => simp [coo_line_stops] at hl
      | cons f rest =>
        rw [List.cons_append, sptensor_coo_read_index_loop]
        cases hf : f.as_index with
        | none => left; rfl
        | some x =>
          simp only [coo_line_stops, hf, Option.isNone_some, Bool.false_or] at hl
          rcases ih rest hl with h1 | ⟨idx, g, r, h1, h2⟩
          · left; simp [h1]
          · right; exact ⟨x :: idx, g, r, by simp [h1], h2⟩
  rw [sptensor_coo_read_loop]
  rcases key nmodes line h with h1 | ⟨idx, g, r, h1, h2⟩
  · rw [h1]
  · rw [h1]
    simp only [h2]

theorem read_loop_lines {V : Type} [Zero V] [DecidableEq V] (nmodes : Nat)
    (good : List (List (coo_field V))) (bad tail : List (coo_field V))
    (hgood : ∀ line ∈ good, (coo_line_entry nmodes line).isSome = true)
    (hbad : coo_line_stops nmodes bad = true)
    (fuel : Nat) (hfuel : good.length < fuel) (tns : sptensor_coo V) :
    sptensor_coo_read_loop nmodes fuel tns (good.flatten ++ bad ++ tail) =
      some (sptensor_coo_set_all tns (good.filterMap (coo_line_entry nmodes))) := by
  induction good generalizing fuel tns with
  | nil =>
    obtain ⟨f, rfl⟩ : ∃ f, fuel = f + 1 := ⟨fuel - 1, by simp at hfuel; omega⟩
    simp only [List.flatten_nil, List.nil_append, List.filterMap_nil]
    rw [read_loop_stops nmodes f tns bad tail hbad]
    rfl
  | cons line rest ih =>
    obtain ⟨f, rfl⟩ : ∃ f, fuel = f + 1 := ⟨fuel - 1, by simp at hfuel; omega⟩
    have hl := hgood line (by simp)
    obtain ⟨e, he⟩ := Option.isSome_iff_exists.mp hl
    rw [List.flatten_cons, List.append_assoc, List.append_assoc,
      read_loop_entry_line nmodes f tns line _ e he, ← List.append_assoc,
      ih (fun l hm => hgood l (List.mem_cons_of_mem _ hm)) f
        (by simp at hfuel; omega)]
    rw [List.filterMap_cons, he]
    rfl

/-- C24 (fails as stated): the reader converts field after field and white space,
line ends included, only separates fields.  With the header `3 3 4 5`, the well-formed
line `1 1 1 5`, then the line `2 2`, which holds no full coordinate and value, then the
line `3 4 5 6`, `sptensor_coo_read` completes the short line from the next one and
stores `(2,2,3) = 4`, an entry that is not among the well-formed lines before the short
line. -/
theorem sptensor_coo_read_short_line :
    coo_line_entry 3 ([1, 1, 1, 5].map coo_field_digits) = some ([1, 1, 1], 5) ∧
    coo_line_entry 3 ([2, 2].map coo_field_digits) = none ∧
    (sptensor_coo_read ([3, 3, 4, 5].map coo_field_digits ++
        ([1, 1, 1, 5].map coo_field_digits ++ ([2, 2].map coo_field_digits ++
          [3, 4, 5, 6].map coo_field_digits)))).map (fun t => (t.modes, t.dim, t.coo, t.data))
      = some (3, [3, 4, 5], [[1, 1, 1], [2, 2, 3]], [5, 4]) ∧
    (sptensor_coo_read ([3, 3, 4, 5].map coo_field_digits ++
        ([1, 1, 1, 5].map coo_field_digits ++ ([2, 2].map coo_field_digits ++
          [3, 4, 5, 6].map coo_field_digits)))).map (fun t => sptensor_coo_get t [2, 2, 3])
      = some 4 := by
  decide

/-- C24 (amended): for every input made of a well-formed header (a field that converts
to `nmodes`, then `nmodes` fields that convert to the dimensions), then well-formed entry
lines, then a first line holding a field that stops the reader (among its first `nmodes`
fields one that does not convert as an index, or after `nmodes` indexes a field that does
not convert as a value), then arbitrary further lines, `sptensor_coo_read` returns, and
the tensor it returns is the freshly allocated one after `sptensor_set` with the entries of
the well-formed lines, in order (so a later line for a coordinate overrides an earlier
one); nothing of the stopping line or of the lines after it is stored. -/
theorem sptensor_coo_read_stops_at_bad_field {V : Type} [Zero V] [DecidableEq V]
    (nmodes : Nat) (dims : List Nat) (header : List (coo_field V))
    (good : List (List (coo_field V))) (bad : List (coo_field V))
    (rest : List (List (coo_field V)))
    (hheader : header.map (fun f => f.as_index) = (nmodes :: dims).map some)
    (hdims : dims.length = nmodes)
    (hgood : ∀ line ∈ good, (coo_line_entry nmodes line).isSome = true)
    (hbad : coo_line_stops nmodes bad = true) :
    sptensor_coo_read (header ++ (good.flatten ++ bad ++ rest.flatten)) =
      some (sptensor_coo_set_all (sptensor_coo_alloc dims nmodes)
        (good.filterMap (coo_line_entry nmodes))) := by
  cases header with
  | nil => simp at hheader
  | cons f0 hd =>
    simp only [List.map_cons, List.cons.injEq] at hheader
    obtain ⟨hf0, hhd⟩ := hheader
    have hdimsread : ∀ (ds : List Nat) (fs : List (coo_field V)) (tl : List (coo_field V)),
        fs.map (fun f => f.as_index) = ds.map some →
        sptensor_coo_read_index_loop ds.length (fs ++ tl) = some (ds, tl) := by
      intro ds
      induction ds with
      | nil =>
        intro fs tl h
        have : fs = [] := by simpa using h
        subst this
        rfl
      | cons d ds ih =>
        intro fs tl h
        cases fs with
        | nil => simp at h
        | cons g gs =>
          simp only [List.map_cons, List.cons.injEq] at h
          rw [List.length_cons, List.cons_append, sptensor_coo_read_index_loop, h.1]
          simp only []
          rw [ih gs tl h.2]
          rfl
    rw [List.cons_append, sptensor_coo_read]
    simp only [hf0]
    rw [← hdims, hdimsread dims hd _ hhd]
    simp only []
    rw [hdims]
    exact read_loop_lines nmodes good bad rest.flatten hgood hbad _
      (by
        have h1 : good.length ≤ good.flatten.length := by
          clear hbad
          induction good with
          | nil => simp
          | cons l ls ih =>
            have hl := hgood l (by simp)
            have hpos : 0 < l.length := by
              cases l with
              | nil =>
                cases nmodes with
                | zero => simp [coo_line_entry, sptensor_coo_read_index_loop] at hl
                | succ n => simp [coo_line_entry, sptensor_coo_read_index_loop] at hl
              | cons a as => simp
            have := ih (fun x hx => hgood x (List.mem_cons_of_mem _ hx))
            simp only [List.length_cons, List.flatten_cons, List.length_append]
            omega
        simp only [List.length_append]
        omega) _

/-- Witness for C24 (amended): header `3 3 4 5`, the lines `1 1 1 5` and `1 1 1 7`, then
the line `2 2 word 8`, then the line `3 4 5 6`: the tensor returned holds `(1,1,1) = 7`
and nothing else. -/
theorem sptensor_coo_read_stops_at_bad_field_witness :
    sptensor_coo_read ([3, 3, 4, 5].map coo_field_digits ++
        ([[1, 1, 1, 5].map coo_field_digits, [1, 1, 1, 7].map coo_field_digits].flatten ++
          [coo_field_digits 2, coo_field_digits 2, coo_field_word, coo_field_digits 8] ++
          [[3, 4, 5, 6].map coo_field_digits].flatten)) =
      some (sptensor_coo_set_all (sptensor_coo_alloc [3, 4, 5] 3)
        ([[1, 1, 1, 5].map coo_field_digits, [1, 1, 1, 7].map coo_field_digits].filterMap
          (coo_line_entry 3))) :=
  sptensor_coo_read_stops_at_bad_field 3 [3, 4, 5] ([3, 3, 4, 5].map coo_field_digits)
    [[1, 1, 1, 5].map coo_field_digits, [1, 1, 1, 7].map coo_field_digits]
    [coo_field_digits 2, coo_field_digits 2, coo_field_word, coo_field_digits 8]
    [[3, 4, 5, 6].map coo_field_digits] (by decide) (by decide) (by decide) (by decide)

/-! ## The hash backend -/

theorem hash_bucket_search_le {V : Type} (k : Nat) (b : List (Nat × V)) :
    (sptensor_hash_bucket_search k b).2 ≤ b.length := by
  induction b with
  | nil => simp [sptensor_hash_bucket_search]
  | cons e es ih =>
    rw [sptensor_hash_bucket_search]
    split
    · simp
    · split
      · simp
      · simp only [List.length_cons]; omega

theorem hash_bucket_search_found {V : Type} (k : Nat) (b : List (Nat × V))
    (h : (sptensor_hash_bucket_search k b).1 = true) :
    ∃ v, b.get? (sptensor_hash_bucket_search k b).2 = some (k, v) := by
  induction b with
  | nil => simp [sptensor_hash_bucket_search] at h
  | cons e es ih =>
    rw [sptensor_hash_bucket_search] at h ⊢
    split at h
    · rename_i he
      rw [if_pos he]
      exact ⟨e.2, by simp [← he]⟩
    · rename_i he
      rw [if_neg he]
      split at h
      · simp at h
      · rename_i hlt
        rw [if_neg hlt]
        obtain ⟨v, hv⟩ := ih h
        exact ⟨v, by simpa using hv⟩

theorem hash_bucket_search_absent {V : Type} (k : Nat) (b : List (Nat × V))
    (hs : b.Pairwise (fun x y => x.1 < y.1))
    (h : (sptensor_hash_bucket_search k b).1 = false) (v : V) : (k, v) ∉ b := by
  induction b with
  | nil => simp
  | cons e es ih =>
    rw [sptensor_hash_bucket_search] at h
    rw [List.pairwise_cons] at hs
    split at h
    · simp at h
    · rename_i he
      split at h
      · rename_i hlt
        intro hm
        rcases List.mem_cons.mp hm with h1 | h1
        · exact he (by rw [← h1])
        · have := hs.1 _ h1
          simp only at this
          omega
      · intro hm
        rcases List.mem_cons.mp hm with h1 | h1
        · exact he (by rw [← h1])
        · exact ih hs.2 h h1

theorem hash_bucket_key_unique {V : Type} (b : List (Nat × V))
    (hs : b.Pairwise (fun x y => x.1 < y.1)) (k : Nat) (v1 v2 : V)
    (h1 : (k, v1) ∈ b) (h2 : (k, v2) ∈ b) : v1 = v2 := by
  induction b with
  | nil => simp at h1
  | cons e es ih =>
    rw [List.pairwise_cons] at hs
    rcases List.mem_cons.mp h1 with a1 | a1 <;> rcases List.mem_cons.mp h2 with a2 | a2
    · rw [← a1] at a2
      exact (Prod.mk.inj a2).2.symm
    · have := hs.1 _ a2
      rw [← a1] at this
      simp at this
    · have := hs.1 _ a1
      rw [← a2] at this
      simp at this
    · exact ih hs.2 a1 a2

theorem hash_bucket_insert_sorted {V : Type} (k : Nat) (v : V) (b : List (Nat × V))
    (hs : b.Pairwise (fun x y => x.1 < y.1))
    (h : (sptensor_hash_bucket_search k b).1 = false) :
    (b.insertIdx (sptensor_hash_bucket_search k b).2 (k, v)).Pairwise
      (fun x y => x.1 < y.1) := by
  induction b with
  | nil => simp [sptensor_hash_bucket_search]
  | cons e es ih =>
    rw [sptensor_hash_bucket_search] at h ⊢
    rw [List.pairwise_cons] at hs
    split at h
    · simp at h
    · rename_i he
      rw [if_neg he]
      split at h
      · rename_i hlt
        rw [if_pos hlt]
        simp only [List.insertIdx_zero]
        rw [List.pairwise_cons]
        refine ⟨?_, List.pairwise_cons.mpr hs⟩
        intro y hy
        rcases List.mem_cons.mp hy with h1 | h1
        · rw [h1]; exact hlt
        · have := hs.1 _ h1
          simp only at this ⊢
          omega
      · rename_i hlt
        rw [if_neg hlt]
        simp only [List.insertIdx_succ_cons]
        rw [List.pairwise_cons]
        refine ⟨?_, ih hs.2 h⟩
        intro y hy
        rcases (List.mem_insertIdx (hash_bucket_search_le k es)).mp hy with h1 | h1
        · rw [h1]
          simp only
          omega
        · exact hs.1 _ h1

theorem hash_bucket_overwrite_sorted {V : Type} (k : Nat) (v : V) (b : List (Nat × V))
    (hs : b.Pairwise (fun x y => x.1 < y.1))
    (h : (sptensor_hash_bucket_search k b).1 = true) :
    (b.set (sptensor_hash_bucket_search k b).2 (k, v)).Pairwise (fun x y => x.1 < y.1) := by
  induction b with
  | nil => simp
  | cons e es ih =>
    rw [sptensor_hash_bucket_search] at h ⊢
    rw [List.pairwise_cons] at hs
    split at h
    · rename_i he
      rw [if_pos he]
      simp only [List.set_cons_zero]
      rw [List.pairwise_cons]
      refine ⟨?_, hs.2⟩
      intro y hy
      have := hs.1 _ hy
      simp only at this ⊢
      omega
    · rename_i he
      rw [if_neg he]
      split at h
      · simp at h
      · rename_i hlt
        rw [if_neg hlt]
        simp only [List.set_cons_succ]
        rw [List.pairwise_cons]
        refine ⟨?_, ih hs.2 h⟩
        intro y hy
        rcases List.mem_or_eq_of_mem_set hy with h1 | h1
        · exact hs.1 _ h1
        · rw [h1]
          simp only
          omega

theorem hash_bucket_get_iff {V : Type} (k : Nat) (b : List (Nat × V))
    (hs : b.Pairwise (fun x y => x.1 < y.1)) (v : V) :
    ((sptensor_hash_bucket_search k b).1 = true ∧
      (b.get? (sptensor_hash_bucket_search k b).2).map Prod.snd = some v) ↔ (k, v) ∈ b := by
  constructor
  · rintro ⟨hf, hv⟩
    obtain ⟨v2, h2⟩ := hash_bucket_search_found k b hf
    rw [h2] at hv
    simp only [Option.map_some', Option.some.injEq] at hv
    subst hv
    exact List.get?_mem h2
  · intro hm
    have hf : (sptensor_hash_bucket_search k b).1 = true := by
      by_contra hne
      exact hash_bucket_search_absent k b hs (by simpa using hne) v hm
    obtain ⟨v2, h2⟩ := hash_bucket_search_found k b hf
    have := hash_bucket_key_unique b hs k v2 v (List.get?_mem h2) hm
    subst this
    exact ⟨hf, by rw [h2]; rfl⟩

theorem hash_table_getD_set {V : Type} (tbl : List (List (Nat × V))) (i j : Nat)
    (x : List (Nat × V)) (hi : i < tbl.length) :
    (tbl.set i x).getD j [] = if j = i then x else tbl.getD j [] := by
  rw [List.getD_eq_getElem?_getD, List.getD_eq_getElem?_getD, List.getElem?_set]
  by_cases h : i = j
  · subst h
    simp [hi]
  · have h2 : ¬ j = i := fun e => h e.symm
    simp [h, h2]

theorem hash_table_wf_set {V : Type} (nb : Nat) (tbl : List (List (Nat × V))) (i : Nat)
    (x : List (Nat × V)) (hwf : hash_table_wf nb tbl) (hi : i < nb)
    (hs : x.Pairwise (fun a b => a.1 < b.1)) (hm : ∀ e ∈ x, e.1 % nb = i) :
    hash_table_wf nb (tbl.set i x) := by
  obtain ⟨h1, h2, h3⟩ := hwf
  refine ⟨by rw [List.length_set]; exact h1, h2, ?_⟩
  intro j hj
  rw [hash_table_getD_set tbl i j x (by omega)]
  by_cases h : j = i
  · rw [if_pos h, h]
    exact ⟨hs, hm⟩
  · rw [if_neg h]
    exact h3 j hj

theorem hash_table_mem_flatten {V : Type} (nb : Nat) (tbl : List (List (Nat × V)))
    (hwf : hash_table_wf nb tbl) (e : Nat × V) :
    e ∈ tbl.flatten ↔ e ∈ tbl.getD (e.1 % nb) [] := by
  obtain ⟨h1, h2, h3⟩ := hwf
  rw [List.mem_flatten]
  constructor
  · rintro ⟨l, hl, hel⟩
    obtain ⟨i, hi, rfl⟩ := List.getElem_of_mem hl
    have hg : tbl.getD i [] = tbl[i] := List.getD_eq_getElem _ _ hi
    have := (h3 i (by omega)).2 e (by rw [hg]; exact hel)
    rw [this, hg]
    exact hel
  · intro h
    have hlt : e.1 % nb < tbl.length := by rw [h1]; exact Nat.mod_lt _ h2
    rw [List.getD_eq_getElem _ _ hlt] at h
    exact ⟨_, List.getElem_mem hlt, h⟩

theorem hash_get_congr {V : Type} [Zero V] (enc : List Nat → Nat) (t1 t2 : sptensor_hash V)
    (h1 : hash_table_wf t1.nbuckets t1.hashtable)
    (h2 : hash_table_wf t2.nbuckets t2.hashtable)
    (hm : ∀ e, e ∈ t1.hashtable.flatten ↔ e ∈ t2.hashtable.flatten) (c : List Nat) :
    sptensor_hash_get enc t1 c = sptensor_hash_get enc t2 c := by
  have key : ∀ (t : sptensor_hash V), hash_table_wf t.nbuckets t.hashtable → ∀ v,
      (if (sptensor_hash_search enc t c).1 = true then
        ((t.hashtable.getD (enc c % t.nbuckets) []).get?
          (sptensor_hash_search enc t c).2).map Prod.snd else none) = some v ↔
      (enc c, v) ∈ t.hashtable.flatten := by
    intro t ht v
    rw [hash_table_mem_flatten t.nbuckets t.hashtable ht (enc c, v)]
    have hs := (ht.2.2 (enc c % t.nbuckets) (Nat.mod_lt _ ht.2.1)).1
    rw [← hash_bucket_get_iff (enc c) _ hs v]
    unfold sptensor_hash_search
    by_cases hf : (sptensor_hash_bucket_search (enc c)
        (t.hashtable.getD (enc c % t.nbuckets) [])).1 = true
    · rw [if_pos hf]
      exact ⟨fun h => ⟨hf, h⟩, fun h => h.2⟩
    · rw [if_neg hf]
      exact ⟨fun h => (by cases h), fun h => absurd h.1 hf⟩
  have hform : ∀ (t : sptensor_hash V), sptensor_hash_get enc t c =
      (if (sptensor_hash_search enc t c).1 = true then
        ((t.hashtable.getD (enc c % t.nbuckets) []).get?
          (sptensor_hash_search enc t c).2).map Prod.snd else none).getD 0 := by
    intro t
    unfold sptensor_hash_get
    split <;> rfl
  rw [hform t1, hform t2]
  congr 1
  apply Option.ext
  intro v
  rw [Option.mem_def, Option.mem_def, key t1 h1 v, key t2 h2 v]
  exact hm _

theorem hash_reinsert_spec {V : Type} (nb : Nat) (tbl : List (List (Nat × V)))
    (e : Nat × V) (hwf : hash_table_wf nb tbl) (hnew : ∀ v, (e.1, v) ∉ tbl.flatten) :
    hash_table_wf nb (sptensor_hash_reinsert nb tbl e) ∧
      ∀ x, x ∈ (sptensor_hash_reinsert nb tbl e).flatten ↔ x = e ∨ x ∈ tbl.flatten := by
  have hlt : e.1 % nb < nb := Nat.mod_lt _ hwf.2.1
  have hb := hwf.2.2 (e.1 % nb) hlt
  have hnf : (sptensor_hash_bucket_search e.1 (tbl.getD (e.1 % nb) [])).1 = false := by
    cases hf : (sptensor_hash_bucket_search e.1 (tbl.getD (e.1 % nb) [])).1 with
    | false => rfl
    | true =>
      obtain ⟨v, hv⟩ := hash_bucket_search_found e.1 _ hf
      have hmem : (e.1, v) ∈ tbl.getD (e.1 % nb) [] := List.get?_mem hv
      exact absurd ((hash_table_mem_flatten nb tbl hwf (e.1, v)).mpr hmem) (hnew v)
  have hre : sptensor_hash_reinsert nb tbl e = tbl.set (e.1 % nb)
      ((tbl.getD (e.1 % nb) []).insertIdx
        (sptensor_hash_bucket_search e.1 (tbl.getD (e.1 % nb) [])).2 e) := by
    unfold sptensor_hash_reinsert
    rw [hnf]
    rfl
  have hmemb : ∀ x, x ∈ (tbl.getD (e.1 % nb) []).insertIdx
      (sptensor_hash_bucket_search e.1 (tbl.getD (e.1 % nb) [])).2 e ↔
      x = e ∨ x ∈ tbl.getD (e.1 % nb) [] :=
    fun x => List.mem_insertIdx (hash_bucket_search_le e.1 _)
  have hwf2 : hash_table_wf nb (sptensor_hash_reinsert nb tbl e) := by
    rw [hre]
    apply hash_table_wf_set nb tbl _ _ hwf hlt
    · exact hash_bucket_insert_sorted e.1 e.2 _ hb.1 hnf
    · intro x hx
      rcases (hmemb x).mp hx with h1 | h1
      · rw [h1]
      · exact hb.2 x h1
  refine ⟨hwf2, ?_⟩
  intro x
  rw [hash_table_mem_flatten nb _ hwf2 x, hash_table_mem_flatten nb tbl hwf x, hre,
    hash_table_getD_set tbl _ _ _ (by rw [hwf.1]; exact hlt)]
  by_cases hx : x.1 % nb = e.1 % nb
  · rw [if_pos hx, hmemb x, hx]
  · rw [if_neg hx]
    constructor
    · intro h; exact Or.inr h
    · rintro (h | h)
      · rw [h] at hx; exact absurd rfl hx
      · exact h

theorem hash_reinsert_all {V : Type} (nb : Nat) (l : List (Nat × V))
    (tbl : List (List (Nat × V))) (hwf : hash_table_wf nb tbl)
    (hnew : ∀ x ∈ l, ∀ v, (x.1, v) ∉ tbl.flatten)
    (hl : l.Pairwise (fun a b => a.1 ≠ b.1)) :
    hash_table_wf nb (l.foldl (sptensor_hash_reinsert nb) tbl) ∧
      ∀ x, x ∈ (l.foldl (sptensor_hash_reinsert nb) tbl).flatten ↔
        x ∈ tbl.flatten ∨ x ∈ l := by
  induction l generalizing tbl with
  | nil => exact ⟨hwf, by simp⟩
  | cons e es ih =>
    rw [List.pairwise_cons] at hl
    obtain ⟨h1, h2⟩ := hash_reinsert_spec nb tbl e hwf (hnew e (by simp))
    have h3 := ih (sptensor_hash_reinsert nb tbl e) h1
      (by
        intro x hx v hm
        rcases (h2 _).mp hm with h4 | h4
        · have := hl.1 x hx
          rw [← h4] at this
          exact this rfl
        · exact hnew x (List.mem_cons_of_mem _ hx) v h4)
      hl.2
    rw [List.foldl_cons]
    refine ⟨h3.1, ?_⟩
    intro x
    rw [h3.2 x, h2 x, List.mem_cons]
    tauto

theorem hash_table_wf_empty {V : Type} (nb : Nat) (h : 0 < nb) :
    hash_table_wf nb (List.replicate nb ([] : List (Nat × V))) := by
  refine ⟨by simp, h, ?_⟩
  intro i hi
  have : (List.replicate nb ([] : List (Nat × V))).getD i [] = [] := by
    rw [List.getD_eq_getElem _ _ (by simpa using hi), List.getElem_replicate]
  rw [this]
  simp

theorem hash_table_keys_distinct {V : Type} (nb : Nat) (tbl : List (List (Nat × V)))
    (hwf : hash_table_wf nb tbl) : tbl.flatten.Pairwise (fun a b => a.1 ≠ b.1) := by
  obtain ⟨h1, h2, h3⟩ := hwf
  rw [List.pairwise_flatten]
  constructor
  · intro l hl
    obtain ⟨i, hi, rfl⟩ := List.getElem_of_mem hl
    have hg : tbl.getD i [] = tbl[i] := List.getD_eq_getElem _ _ hi
    have := (h3 i (by omega)).1
    rw [hg] at this
    exact this.imp (fun h => Nat.ne_of_lt h)
  · rw [List.pairwise_iff_getElem]
    intro i j hi hj hij x hx y hy
    have hgi : tbl.getD i [] = tbl[i] := List.getD_eq_getElem _ _ hi
    have hgj : tbl.getD j [] = tbl[j] := List.getD_eq_getElem _ _ hj
    have e1 := (h3 i (by omega)).2 x (by rw [hgi]; exact hx)
    have e2 := (h3 j (by omega)).2 y (by rw [hgj]; exact hy)
    intro h
    rw [h] at e1
    omega

theorem hash_rehash_spec {V : Type} (t : sptensor_hash V)
    (hwf : hash_table_wf t.nbuckets t.hashtable) :
    hash_table_wf (sptensor_hash_rehash t).nbuckets (sptensor_hash_rehash t).hashtable ∧
      ∀ x, x ∈ (sptensor_hash_rehash t).hashtable.flatten ↔ x ∈ t.hashtable.flatten := by
  have h := hash_reinsert_all (2 * t.nbuckets) t.hashtable.flatten
    (List.replicate (2 * t.nbuckets) []) (hash_table_wf_empty _ (by have := hwf.2.1; omega))
    (by intro x _ v hm; simp at hm)
    (hash_table_keys_distinct t.nbuckets t.hashtable hwf)
  refine ⟨h.1, ?_⟩
  intro x
  have := h.2 x
  simp only [List.flatten_replicate_nil, List.not_mem_nil, false_or] at this
  exact this

theorem hash_set_wf {V : Type} [Zero V] [DecidableEq V] (enc : List Nat → Nat)
    (full : Nat → Nat → Bool) (t : sptensor_hash V) (idx : List Nat) (v : V)
    (hwf : hash_table_wf t.nbuckets t.hashtable) :
    hash_table_wf (sptensor_hash_set enc full t idx v).nbuckets
      (sptensor_hash_set enc full t idx v).hashtable := by
  have hlt : enc idx % t.nbuckets < t.nbuckets := Nat.mod_lt _ hwf.2.1
  have hb := hwf.2.2 (enc idx % t.nbuckets) hlt
  unfold sptensor_hash_set
  split
  · rename_i hf
    split
    · apply hash_table_wf_set t.nbuckets t.hashtable _ _ hwf hlt
      · exact hb.1.sublist (List.eraseIdx_sublist _ _)
      · intro e he
        exact hb.2 e (List.mem_of_mem_eraseIdx he)
    · apply hash_table_wf_set t.nbuckets t.hashtable _ _ hwf hlt
      · exact hash_bucket_overwrite_sorted (enc idx) v _ hb.1 hf
      · intro e he
        rcases List.mem_or_eq_of_mem_set he with h1 | h1
        · exact hb.2 e h1
        · rw [h1]
  · rename_i hf
    have hins : hash_table_wf t.nbuckets (t.hashtable.set (enc idx % t.nbuckets)
        ((t.hashtable.getD (enc idx % t.nbuckets) []).insertIdx
          (sptensor_hash_search enc t idx).2 (enc idx, v))) := by
      apply hash_table_wf_set t.nbuckets t.hashtable _ _ hwf hlt
      · exact hash_bucket_insert_sorted (enc idx) v _ hb.1 ((Bool.not_eq_true _).mp hf)
      · intro e he
        rcases (List.mem_insertIdx (hash_bucket_search_le (enc idx) _)).mp he with h1 | h1
        · rw [h1]
        · exact hb.2 e h1
    split
    · exact hwf
    · split
      · exact (hash_rehash_spec
          (⟨t.modes, t.dim, t.hashtable.set (enc idx % t.nbuckets)
            ((t.hashtable.getD (enc idx % t.nbuckets) []).insertIdx
              (sptensor_hash_search enc t idx).2 (enc idx, v)), t.nbuckets,
            t.curr_size + 1⟩ : sptensor_hash V) hins).1
      · exact hins

theorem hash_set_all_wf {V : Type} [Zero V] [DecidableEq V] (enc : List Nat → Nat)
    (full : Nat → Nat → Bool) (ops : List (List Nat × V)) (t : sptensor_hash V)
    (hwf : hash_table_wf t.nbuckets t.hashtable) :
    hash_table_wf (sptensor_hash_set_all enc full t ops).nbuckets
      (sptensor_hash_set_all enc full t ops).hashtable := by
  induction ops generalizing t with
  | nil => exact hwf
  | cons op ops ih =>
    unfold sptensor_hash_set_all
    rw [List.foldl_cons]
    exact ih _ (hash_set_wf enc full t op.1 op.2 hwf)

set_option maxRecDepth 100000 in
/-- The scenario of the spec on the hash backend, with the mixed-radix key and a rehash
whenever the table holds two entries or more: three of the four insertions rehash, the
table ends with `1024` buckets, and the four values are still read back, with zero at
`(1,1,2)`. -/
theorem hash_rehash_csftest :
    (sptensor_hash_set_all (mixed_radix_key [3, 4, 5]) (fun s _ => decide (2 ≤ s))
      (sptensor_hash_alloc [3, 4, 5] 3)
      [([1, 1, 1], (99 : Int)), ([2, 3, 1], 44), ([2, 4, 4], 100), ([3, 2, 2], 1)]).nbuckets
      = 1024 ∧
    [[1, 1, 1], [2, 3, 1], [2, 4, 4], [3, 2, 2], [1, 1, 2]].map
      (sptensor_hash_get (mixed_radix_key [3, 4, 5])
        (sptensor_hash_set_all (mixed_radix_key [3, 4, 5]) (fun s _ => decide (2 ≤ s))
          (sptensor_hash_alloc [3, 4, 5] 3)
          [([1, 1, 1], (99 : Int)), ([2, 3, 1], 44), ([2, 4, 4], 100), ([3, 2, 2], 1)]))
      = [99, 44, 100, 1, 0] := by
  decide

/-! ## Enumeration of a slice view -/

theorem coord_in_range_nil_iff (c : List Nat) : coord_in_range [] c ↔ c = [] := by
  unfold coord_in_range
  constructor
  · intro h
    exact List.length_eq_zero.mp h.1
  · intro h
    subst h
    exact ⟨rfl, fun i hi => absurd hi (Nat.not_lt_zero i)⟩

theorem coord_in_range_cons_iff (d : Nat) (ds : List Nat) (x : Nat) (xs : List Nat) :
    coord_in_range (d :: ds) (x :: xs) ↔ (1 ≤ x ∧ x ≤ d) ∧ coord_in_range ds xs := by
  unfold coord_in_range
  constructor
  · rintro ⟨h1, h2⟩
    refine ⟨by simpa using h2 0 (by simp), by simpa using h1, ?_⟩
    intro i hi
    have := h2 (i + 1) (by simp; omega)
    simpa using this
  · rintro ⟨h0, h1, h2⟩
    refine ⟨by simp [h1], ?_⟩
    intro i hi
    cases i with
    | zero => simpa using h0
    | succ i =>
      have := h2 i (by simp at hi; omega)
      simpa using this

theorem coord_in_range_cons_left (d : Nat) (ds c : List Nat)
    (h : coord_in_range (d :: ds) c) :
    ∃ x xs, c = x :: xs ∧ (1 ≤ x ∧ x ≤ d) ∧ coord_in_range ds xs := by
  cases c with
  | nil =>
    have := h.1
    simp at this
  | cons x xs => exact ⟨x, xs, rfl, (coord_in_range_cons_iff d ds x xs).mp h⟩

theorem slice_view_to_wrapped (w : Nat) (sp : tensor_slice_spec) (m i : Nat) (c : List Nat)
    (hs : ∀ j, i ≤ j → j < i + m →
      1 ≤ sp.«begin».getD j 0 ∧ sp.«begin».getD j 0 ≤ sp.«end».getD j 0 ∧
      sp.«end».getD j 0 < 2 ^ w ∧
      (sp.fixed.getD j 0 ≠ 0 →
        sp.«begin».getD j 0 ≤ sp.fixed.getD j 0 ∧ sp.fixed.getD j 0 ≤ sp.«end».getD j 0))
    (hc : coord_in_range (tensor_slice_dim_loop w sp m i) c) :
    tensor_slice_index_within_loop sp (tensor_slice_to_loop w sp m i c) i = true ∧
      tensor_slice_from_loop w sp (tensor_slice_to_loop w sp m i c) i = c := by
  induction m generalizing i c with
  | zero =>
    rw [tensor_slice_dim_loop, coord_in_range_nil_iff] at hc
    subst hc
    simp [tensor_slice_to_loop, tensor_slice_index_within_loop, tensor_slice_from_loop]
  | succ m ih =>
    obtain ⟨hb1, hbe, hew, hfx⟩ := hs i (le_refl _) (by omega)
    have hs1 : ∀ j, i + 1 ≤ j → j < i + 1 + m →
        1 ≤ sp.«begin».getD j 0 ∧ sp.«begin».getD j 0 ≤ sp.«end».getD j 0 ∧
        sp.«end».getD j 0 < 2 ^ w ∧
        (sp.fixed.getD j 0 ≠ 0 →
          sp.«begin».getD j 0 ≤ sp.fixed.getD j 0 ∧ sp.fixed.getD j 0 ≤ sp.«end».getD j 0) :=
      fun j h1 h2 => hs j (by omega) (by omega)
    rw [tensor_slice_dim_loop] at hc
    rw [tensor_slice_to_loop]
    by_cases hf : sp.fixed.getD i 0 ≠ 0
    · rw [if_pos hf] at hc
      rw [if_pos hf, tensor_slice_index_within_loop, tensor_slice_from_loop, if_pos hf]
      obtain ⟨h1, h2⟩ := ih (i + 1) c hs1 hc
      have hr := hfx hf
      rw [if_neg (by intro h; exact h.2 rfl), if_neg (by omega)]
      exact ⟨h1, h2⟩
    · rw [if_neg hf] at hc
      rw [if_neg hf, tensor_slice_index_within_loop, tensor_slice_from_loop, if_neg hf]
      rw [sp_index_dim_plain w _ _ hew hbe (by omega)] at hc
      obtain ⟨x, c1, rfl, hx, hc1⟩ := coord_in_range_cons_left _ _ c hc
      obtain ⟨h1, h2⟩ := ih (i + 1) c1 hs1 hc1
      simp only [List.headD_cons, List.tail_cons]
      have hx2 : x < 2 ^ w := by omega
      rw [sp_index_from_to w x _ hx2, h2]
      rw [sp_index_to_plain w x _ hx.1 hx2 (by omega)]
      rw [if_neg (by intro h; exact hf h.1), if_neg (by omega)]
      exact ⟨h1, rfl⟩

theorem slice_wrapped_to_view (w : Nat) (sp : tensor_slice_spec) (x : List Nat) (i : Nat)
    (hs : ∀ j, i ≤ j → j < i + x.length →
      1 ≤ sp.«begin».getD j 0 ∧ sp.«begin».getD j 0 ≤ sp.«end».getD j 0 ∧
      sp.«end».getD j 0 < 2 ^ w)
    (hin : tensor_slice_index_within_loop sp x i = true) :
    coord_in_range (tensor_slice_dim_loop w sp x.length i) (tensor_slice_from_loop w sp x i) ∧
      tensor_slice_to_loop w sp x.length i (tensor_slice_from_loop w sp x i) = x := by
  induction x generalizing i with
  | nil =>
    simp [tensor_slice_dim_loop, tensor_slice_from_loop, tensor_slice_to_loop,
      coord_in_range_nil_iff]
  | cons a x ih =>
    obtain ⟨hb1, hbe, hew⟩ := hs i (le_refl _) (by simp)
    have hs1 : ∀ j, i + 1 ≤ j → j < i + 1 + x.length →
        1 ≤ sp.«begin».getD j 0 ∧ sp.«begin».getD j 0 ≤ sp.«end».getD j 0 ∧
        sp.«end».getD j 0 < 2 ^ w :=
      fun j h1 h2 => hs j (by omega) (by simp; omega)
    rw [tensor_slice_index_within_loop] at hin
    split at hin
    · cases hin
    · rename_i hc1
      split at hin
      · cases hin
      · rename_i hc2
        obtain ⟨h1, h2⟩ := ih (i + 1) hs1 hin
        rw [List.length_cons, tensor_slice_dim_loop, tensor_slice_from_loop,
          tensor_slice_to_loop]
        by_cases hf : sp.fixed.getD i 0 ≠ 0
        · rw [if_pos hf, if_pos hf, if_pos hf, h2]
          have ha : a = sp.fixed.getD i 0 := by
            by_contra hne
            exact hc1 ⟨hf, hne⟩
          exact ⟨h1, by rw [ha]⟩
        · rw [if_neg hf, if_neg hf, if_neg hf]
          simp only [List.headD_cons, List.tail_cons]
          have ha2 : a < 2 ^ w := by omega
          rw [sp_index_to_from w a _ ha2, h2]
          rw [sp_index_dim_plain w _ _ hew hbe (by omega),
            sp_index_dim_plain w a _ ha2 (by omega) (by omega)]
          refine ⟨?_, rfl⟩
          rw [coord_in_range_cons_iff]
          exact ⟨⟨by omega, by omega⟩, h1⟩

theorem slice_drop_take_succ (xs : List (List Nat)) (i m : Nat) (hi : i < xs.length) :
    (xs.drop i).take (m + 1) = xs.get ⟨i, hi⟩ :: (xs.drop (i + 1)).take m := by
  rw [List.drop_eq_getElem_cons hi, List.take_succ_cons]
  rfl

theorem tensor_slice_nnz_loop_filter {V : Type} (u : tensor_view V) (sp : tensor_slice_spec)
    (xs : List (List Nat)) (hidx : ∀ j, j < xs.length → u.get_idx j = xs.get? j)
    (m i count : Nat) (hm : i + m ≤ xs.length) :
    tensor_slice_nnz_loop u sp m i count =
      some (count + (((xs.drop i).take m).filter
        (fun x => tensor_slice_index_within sp u.nmodes x)).length) := by
  induction m generalizing i count with
  | zero => simp [tensor_slice_nnz_loop]
  | succ m ih =>
    have hi : i < xs.length := by omega
    rw [tensor_slice_nnz_loop, hidx i hi, List.get?_eq_get hi]
    simp only []
    rw [ih (i + 1) _ (by omega), slice_drop_take_succ xs i m hi, List.filter_cons]
    by_cases hw : tensor_slice_index_within sp u.nmodes (xs.get ⟨i, hi⟩) = true
    · rw [if_pos hw, if_pos hw, List.length_cons]
      congr 1
      omega
    · rw [if_neg hw, if_neg hw]

theorem tensor_slice_idx_loop_filter {V : Type} (w : Nat) (u : tensor_view V)
    (sp : tensor_slice_spec) (xs : List (List Nat))
    (hidx : ∀ j, j < xs.length → u.get_idx j = xs.get? j)
    (m j i : Nat) (hm : j + m ≤ xs.length) :
    tensor_slice_idx_loop w u sp m j i =
      ((((xs.drop j).take m).filter
        (fun x => tensor_slice_index_within sp u.nmodes x)).get? i).map
        (tensor_slice_from w sp u.nmodes) := by
  induction m generalizing j i with
  | zero => simp [tensor_slice_idx_loop]
  | succ m ih =>
    have hj : j < xs.length := by omega
    rw [tensor_slice_idx_loop, hidx j hj, List.get?_eq_get hj]
    simp only []
    rw [slice_drop_take_succ xs j m hj, List.filter_cons]
    by_cases hw : tensor_slice_index_within sp u.nmodes (xs.get ⟨j, hj⟩) = true
    · rw [if_pos hw, if_pos hw]
      cases i with
      | zero => simp
      | succ i =>
        rw [if_neg (by omega), ih (j + 1) _ (by omega)]
        simp
    · rw [if_neg hw, if_neg hw, ih (j + 1) _ (by omega)]

/-- C21 (fails as stated): `tensor_slice_index_within` applies the range test
`begin <= idx <= end` to the fixed modes too, while `get` of the slice does not.  For the
tensor of `test/csftest.c` (four distinct in-range coordinates with non-zero values) and
the spec that fixes mode `0` at `2` with the range `3..3` for that mode
(`begin <= end <= dim` in every mode), the slice has dimensions `(4,5)` and `get` is `44`
at its in-range coordinate `(3,1)`, but `tensor_slice_nnz` is `0` and `tensor_slice_idx`
enumerates nothing. -/
theorem tensor_slice_nnz_misses_fixed_outside_range :
    (sptensor_view csftest_sptensor).dim = [3, 4, 5] ∧
    csftest_sptensor.idx = [[1, 1, 1], [2, 3, 1], [2, 4, 4], [3, 2, 2]] ∧
    csftest_sptensor.ar = [99, 44, 100, 1] ∧
    (∀ i < 3, 1 ≤ csftest_slice_spec_outside.«begin».getD i 0 ∧
      csftest_slice_spec_outside.«begin».getD i 0 ≤ csftest_slice_spec_outside.«end».getD i 0 ∧
      csftest_slice_spec_outside.«end».getD i 0 ≤
        (sptensor_view csftest_sptensor).dim.getD i 0) ∧
    (tensor_slice 32 (sptensor_view csftest_sptensor) csftest_slice_spec_outside).dim
      = [4, 5] ∧
    coord_in_range
      (tensor_slice 32 (sptensor_view csftest_sptensor) csftest_slice_spec_outside).dim
      [3, 1] ∧
    (tensor_slice 32 (sptensor_view csftest_sptensor) csftest_slice_spec_outside).get [3, 1]
      = some 44 ∧
    (tensor_slice 32 (sptensor_view csftest_sptensor) csftest_slice_spec_outside).nnz
      = some 0 ∧
    (tensor_slice 32 (sptensor_view csftest_sptensor) csftest_slice_spec_outside).get_idx 0
      = none := by
  decide

/-- C21 (amended): let `u` be a view whose nonzero list `xs` holds pairwise distinct
in-range coordinates with non-zero values (and whose `get` is zero elsewhere), and let the
spec have `1 <= begin <= end <= dim` in every mode and, in addition, every fixed value
inside `begin..end` of its mode.  Then there is a duplicate-free list `L` of view
coordinates such that `tensor_slice_nnz` is its length, `tensor_slice_idx(i)` is its
`i`-th element for every `i` below that, and `L` holds exactly the in-range coordinates
`c` of the slice with `get(c) != 0`; so `nnz` is the number of those coordinates. -/
theorem tensor_slice_nnz_idx_enumerate {V : Type} [Zero V] (w : Nat) (u : tensor_view V)
    (sp : tensor_slice_spec) (xs : List (List Nat))
    (_hdim : u.dim.length = u.nmodes)
    (hnnz : u.nnz = some xs.length)
    (hidx : ∀ j, j < xs.length → u.get_idx j = xs.get? j)
    (hnodup : xs.Nodup)
    (hrange : ∀ x ∈ xs, coord_in_range u.dim x)
    (hget : ∀ x ∈ xs, ∃ val, u.get x = some val ∧ val ≠ 0)
    (hzero : ∀ y, y.length = u.nmodes → y ∉ xs → u.get y = some 0)
    (hlen : sp.fixed.length = u.nmodes ∧ sp.«begin».length = u.nmodes ∧
      sp.«end».length = u.nmodes)
    (hbe : ∀ i < u.nmodes, 1 ≤ sp.«begin».getD i 0 ∧
      sp.«begin».getD i 0 ≤ sp.«end».getD i 0 ∧ sp.«end».getD i 0 ≤ u.dim.getD i 0)
    (hfix : ∀ i < u.nmodes, sp.fixed.getD i 0 ≠ 0 →
      sp.«begin».getD i 0 ≤ sp.fixed.getD i 0 ∧ sp.fixed.getD i 0 ≤ sp.«end».getD i 0)
    (hw : ∀ i < u.nmodes, u.dim.getD i 0 < 2 ^ w) :
    ∃ L : List (List Nat), L.Nodup ∧
      (tensor_slice w u sp).nnz = some L.length ∧
      (∀ i, i < L.length → (tensor_slice w u sp).get_idx i = L.get? i) ∧
      (∀ c, c ∈ L ↔ coord_in_range (tensor_slice w u sp).dim c ∧
        ∃ val, (tensor_slice w u sp).get c = some val ∧ val ≠ 0) ∧
      Set.ncard {c | coord_in_range (tensor_slice w u sp).dim c ∧
        ∃ val, (tensor_slice w u sp).get c = some val ∧ val ≠ 0} = L.length := by
  have hcopy : tensor_slice_copy_spec sp u.nmodes = sp := by
    unfold tensor_slice_copy_spec
    rw [List.take_of_length_le (le_of_eq hlen.1), List.take_of_length_le (le_of_eq hlen.2.1),
      List.take_of_length_le (le_of_eq hlen.2.2)]
  have hxlen : ∀ x ∈ xs, x.length = u.nmodes := fun x hx => by
    rw [(hrange x hx).1, _hdim]
  have hs1 : ∀ j, 0 ≤ j → j < 0 + u.nmodes →
      1 ≤ sp.«begin».getD j 0 ∧ sp.«begin».getD j 0 ≤ sp.«end».getD j 0 ∧
      sp.«end».getD j 0 < 2 ^ w ∧
      (sp.fixed.getD j 0 ≠ 0 →
        sp.«begin».getD j 0 ≤ sp.fixed.getD j 0 ∧ sp.fixed.getD j 0 ≤ sp.«end».getD j 0) := by
    intro j _ h2
    have hj : j < u.nmodes := by omega
    have h3 := hbe j hj
    have h4 := hw j hj
    exact ⟨h3.1, h3.2.1, by omega, hfix j hj⟩
  have hfromto : ∀ x ∈ xs, tensor_slice_index_within sp u.nmodes x = true →
      coord_in_range (tensor_slice_dim_loop w sp u.nmodes 0)
        (tensor_slice_from w sp u.nmodes x) ∧
      tensor_slice_to w sp u.nmodes (tensor_slice_from w sp u.nmodes x) = x := by
    intro x hx hin
    have hl := hxlen x hx
    unfold tensor_slice_index_within at hin
    unfold tensor_slice_from tensor_slice_to
    rw [List.take_of_length_le (le_of_eq hl)] at hin ⊢
    have := slice_wrapped_to_view w sp x 0
      (fun j h1 h2 => by
        have h5 := hs1 j h1 (by rw [hl] at h2; exact h2)
        exact ⟨h5.1, h5.2.1, h5.2.2.1⟩) hin
    rw [hl] at this
    exact this
  have hdimeq : (tensor_slice w u sp).dim = tensor_slice_dim_loop w sp u.nmodes 0 := by
    simp only [tensor_slice, hcopy]
  have hgeteq : ∀ c, (tensor_slice w u sp).get c = u.get (tensor_slice_to w sp u.nmodes c) := by
    intro c
    simp only [tensor_slice, hcopy, base_view_get, Option.some_bind]
  have hmem : ∀ c, c ∈ (xs.filter (fun x => tensor_slice_index_within sp u.nmodes x)).map
        (tensor_slice_from w sp u.nmodes) ↔
      coord_in_range (tensor_slice w u sp).dim c ∧
        ∃ val, (tensor_slice w u sp).get c = some val ∧ val ≠ 0 := by
    intro c
    rw [hdimeq, hgeteq, List.mem_map]
    constructor
    · rintro ⟨x, hx, rfl⟩
      rw [List.mem_filter] at hx
      obtain ⟨h1, h2⟩ := hfromto x hx.1 hx.2
      rw [h2]
      exact ⟨h1, hget x hx.1⟩
    · rintro ⟨hc, val, hv, hne⟩
      have hylen : (tensor_slice_to w sp u.nmodes c).length = u.nmodes :=
        tensor_slice_to_loop_length w sp u.nmodes 0 c
      have hyin : tensor_slice_to w sp u.nmodes c ∈ xs := by
        by_contra hnot
        rw [hzero _ hylen hnot] at hv
        exact hne (Option.some.inj hv).symm
      obtain ⟨h1, h2⟩ := slice_view_to_wrapped w sp u.nmodes 0 c hs1 hc
      refine ⟨tensor_slice_to w sp u.nmodes c, ?_, ?_⟩
      · rw [List.mem_filter]
        refine ⟨hyin, ?_⟩
        unfold tensor_slice_index_within
        rw [List.take_of_length_le (le_of_eq hylen)]
        exact h1
      · unfold tensor_slice_from
        rw [List.take_of_length_le (le_of_eq hylen)]
        exact h2
  have hnd : ((xs.filter (fun x => tensor_slice_index_within sp u.nmodes x)).map
      (tensor_slice_from w sp u.nmodes)).Nodup := by
    apply List.Nodup.map_on
    · intro x hx y hy hxy
      rw [List.mem_filter] at hx hy
      have h1 := (hfromto x hx.1 hx.2).2
      have h2 := (hfromto y hy.1 hy.2).2
      rw [← h1, ← h2, hxy]
    · exact hnodup.filter _
  refine ⟨(xs.filter (fun x => tensor_slice_index_within sp u.nmodes x)).map
    (tensor_slice_from w sp u.nmodes), hnd, ?_, ?_, hmem, ?_⟩
  · simp only [tensor_slice, hcopy, tensor_slice_nnz, hnnz]
    rw [tensor_slice_nnz_loop_filter u sp xs hidx xs.length 0 0 (by omega)]
    simp
  · intro i _
    simp only [tensor_slice, hcopy, tensor_slice_idx, hnnz]
    rw [tensor_slice_idx_loop_filter w u sp xs hidx xs.length 0 i (by omega)]
    simp
  · have hset : {c | coord_in_range (tensor_slice w u sp).dim c ∧
        ∃ val, (tensor_slice w u sp).get c = some val ∧ val ≠ 0} =
        ((((xs.filter (fun x => tensor_slice_index_within sp u.nmodes x)).map
          (tensor_slice_from w sp u.nmodes)).toFinset : Finset (List Nat)) :
          Set (List Nat)) := by
      ext c
      simp only [Set.mem_setOf_eq, Finset.mem_coe, List.mem_toFinset]
      exact (hmem c).symm
    rw [hset, Set.ncard_coe_Finset, List.toFinset_card_of_nodup hnd]

/-- Witness for C21 (amended): the slice of `test/csftest.c`, mode `0` fixed at `2` with
the default ranges, over the tensor with nonzero list `(1,1,1), (2,3,1), (2,4,4),
(3,2,2)`. -/
theorem tensor_slice_nnz_idx_enumerate_witness :
    ∃ L : List (List Nat), L.Nodup ∧
      (tensor_slice 32 (sptensor_view csftest_sptensor) csftest_slice_spec).nnz
        = some L.length ∧
      (∀ i, i < L.length →
        (tensor_slice 32 (sptensor_view csftest_sptensor) csftest_slice_spec).get_idx i
          = L.get? i) ∧
      (∀ c, c ∈ L ↔
        coord_in_range
          (tensor_slice 32 (sptensor_view csftest_sptensor) csftest_slice_spec).dim c ∧
        ∃ val, (tensor_slice 32 (sptensor_view csftest_sptensor) csftest_slice_spec).get c
          = some val ∧ val ≠ 0) ∧
      Set.ncard {c | coord_in_range
          (tensor_slice 32 (sptensor_view csftest_sptensor) csftest_slice_spec).dim c ∧
        ∃ val, (tensor_slice 32 (sptensor_view csftest_sptensor) csftest_slice_spec).get c
          = some val ∧ val ≠ 0} = L.length :=
  tensor_slice_nnz_idx_enumerate 32 (sptensor_view csftest_sptensor) csftest_slice_spec
    [[1, 1, 1], [2, 3, 1], [2, 4, 4], [3, 2, 2]]
    (by decide) (by decide) (by decide) (by decide) (by decide)
    (by
      intro x hx
      simp only [List.mem_cons, List.mem_singleton, List.not_mem_nil, or_false] at hx
      rcases hx with rfl | rfl | rfl | rfl
      · exact ⟨99, by decide, by decide⟩
      · exact ⟨44, by decide, by decide⟩
      · exact ⟨100, by decide, by decide⟩
      · exact ⟨1, by decide, by decide⟩)
    (by
      intro y hy hn
      have hidx : csftest_sptensor.idx = [[1, 1, 1], [2, 3, 1], [2, 4, 4], [3, 2, 2]] := by
        decide
      have h := coo_get_of_not_mem csftest_sptensor.nmodes csftest_sptensor.dim
        csftest_sptensor.idx csftest_sptensor.ar y hy (by decide) (by rw [hidx]; exact hn)
      exact congrArg some h)
    (by decide) (by decide) (by decide) (by decide)

/-! ## Positional and coordinate access of wrapping views -/

theorem unfold_to_from_in_range {V : Type} (v : tensor_view V) (n : Nat) (c : List Nat)
    (hn : n < v.nmodes) (hdim : v.dim.length = v.nmodes) (hc : coord_in_range v.dim c) :
    ∃ d, (unfold_tensor_exact v n).«from» c = some d ∧ (unfold_tensor_exact v n).«to» d = some c := by
  obtain ⟨hclen, hcin⟩ := hc
  have hcl : c.length = v.nmodes := by rw [hclen, hdim]
  obtain ⟨_, _, hjk⟩ := unfold_tensor_data_closed v.nmodes v.dim n hdim
  have hun : (unfold_tensor_data_exact v.nmodes v.dim n).n = n := rfl
  have hfrom : (unfold_tensor_exact v n).«from» c =
      some [c.getD n 0, 1 + matricize_below v.dim c n v.nmodes] := by
    simp only [unfold_tensor_exact, unfold_from_exact]
    rw [List.take_of_length_le (le_of_eq hcl)]
    have h := unfold_from_loop_closed (unfold_tensor_data_exact v.nmodes v.dim n) v.dim c
      v.nmodes hcl hjk c [] 1 (by simp)
    simp only [List.length_nil, hun] at h
    have h0 : unfold_k_at n 0 = 0 := by simp [unfold_k_at]
    have hp0 : matricize_below v.dim c n 0 = 0 := by simp [matricize_below]
    rw [h0, hp0, Nat.add_zero] at h
    rw [h, hun]
    rfl
  have hto : (unfold_tensor_exact v n).«to» [c.getD n 0, 1 + matricize_below v.dim c n v.nmodes]
      = some c := by
    simp only [unfold_tensor_exact, unfold_to_exact, List.getD_cons_zero, List.getD_cons_succ]
    have h := unfold_to_loop_closed (unfold_tensor_data_exact v.nmodes v.dim n) v.dim c
      v.nmodes hcl hdim hjk hcin v.nmodes (le_refl _) []
    rw [hun] at h
    have hk : ((unfold_k_at n v.nmodes : Nat) : Int) - 1 = (v.nmodes : Int) - 2 := by
      unfold unfold_k_at
      rw [if_pos hn]
      omega
    rw [hk, List.append_nil, List.take_of_length_le (le_of_eq hcl)] at h
    rw [Nat.add_sub_cancel_left]
    exact h
  exact ⟨_, hfrom, hto⟩

/-- C31 (code deviates): on the slice of `test/csftest.c` (mode `0` fixed at `2`) over
the wrapper view of the tensor `(1,1,1) = 99, (2,3,1) = 44, (2,4,4) = 100, (3,2,2) = 1`,
whose `geti(k)` is `get(get_idx(k))` at each of its four positions, the slice has two
nonzero positions, `get_idx(0) = (3,1)` and `get(3,1) = 44`, but `geti(0) = 99`;
likewise `get_idx(1) = (4,4)`, `get(4,4) = 100` and `geti(1) = 44`. -/
theorem tensor_slice_geti_differs :
    (sptensor_view csftest_sptensor).nnz = some 4 ∧
    (∀ k, k < 4 → (sptensor_view csftest_sptensor).geti k =
      ((sptensor_view csftest_sptensor).get_idx k).bind (sptensor_view csftest_sptensor).get) ∧
    (tensor_slice 32 (sptensor_view csftest_sptensor) csftest_slice_spec).nnz = some 2 ∧
    (tensor_slice 32 (sptensor_view csftest_sptensor) csftest_slice_spec).get_idx 0
      = some [3, 1] ∧
    (tensor_slice 32 (sptensor_view csftest_sptensor) csftest_slice_spec).get [3, 1]
      = some 44 ∧
    (tensor_slice 32 (sptensor_view csftest_sptensor) csftest_slice_spec).geti 0
      = some 99 ∧
    (tensor_slice 32 (sptensor_view csftest_sptensor) csftest_slice_spec).get_idx 1
      = some [4, 4] ∧
    (tensor_slice 32 (sptensor_view csftest_sptensor) csftest_slice_spec).get [4, 4]
      = some 100 ∧
    (tensor_slice 32 (sptensor_view csftest_sptensor) csftest_slice_spec).geti 1
      = some 44 := by
  decide

/-! ## The unfold view in the index type -/

theorem c_index_of_int_natCast (w j : Nat) (h : j < 2 ^ w) :
    c_index_of_int w (j : Int) = j := by
  unfold c_index_of_int
  rw [← Int.natCast_mod, Nat.mod_eq_of_lt h, Int.toNat_natCast]

theorem c_int_of_index_small (x : Nat) (h : x < 2 ^ 31) : c_int_of_index x = (x : Int) := by
  unfold c_int_of_index c_int_bits
  have h1 : x % 2 ^ 32 = x := Nat.mod_eq_of_lt (by omega)
  rw [h1, if_pos (by simpa using h)]

theorem two_pow_32_le (w : Nat) (hw : 32 ≤ w) : 2 ^ 32 ≤ 2 ^ w :=
  Nat.pow_le_pow_right (by decide) hw

theorem unfold_to_loop_eq_exact (w : Nat) (uv : unfold_view) (in0 : Nat) (hw : 32 ≤ w)
    (i j : Nat) (k : Int) (out : List Nat) (hj : j < 2 ^ 31) :
    unfold_to_loop w uv in0 i (j : Int) k out = unfold_to_loop_exact uv in0 i j k out := by
  have h32 := two_pow_32_le w hw
  induction i generalizing j k out with
  | zero => rfl
  | succ i ih =>
    rw [unfold_to_loop, unfold_to_loop_exact]
    by_cases hn : i = uv.n
    · rw [if_pos hn, if_pos hn]
      exact ih j k _ hj
    · rw [if_neg hn, if_neg hn]
      cases hr : unfold_jk_read uv k with
      | none => rfl
      | some c =>
        simp only []
        by_cases hc : c = 0
        · rw [if_pos hc, if_pos hc]
        · rw [if_neg hc, if_neg hc, c_index_of_int_natCast w j (by omega)]
          have hm : j % c < 2 ^ 31 := lt_of_le_of_lt (Nat.mod_le _ _) hj
          have hd : j / c + 1 < 2 ^ w := by
            have := Nat.div_le_self j c
            omega
          rw [c_int_of_index_small _ hm]
          have ha : sp_index_add w (j / c) 1 = j / c + 1 := by
            unfold sp_index_add
            exact Nat.mod_eq_of_lt hd
          rw [ha]
          exact ih (j % c) (k - 1) _ hm

theorem unfold_from_loop_exact_mono (uv : unfold_view) (rest : List Nat) (i k acc r : Nat)
    (h : unfold_from_loop_exact uv rest i k acc = some r) : acc ≤ r := by
  induction rest generalizing i k acc with
  | nil =>
    rw [unfold_from_loop_exact] at h
    exact le_of_eq (Option.some.inj h)
  | cons x rest ih =>
    rw [unfold_from_loop_exact] at h
    by_cases hn : i = uv.n
    · rw [if_pos hn] at h
      exact ih _ _ _ h
    · rw [if_neg hn] at h
      cases hc : uv.jk.get? k with
      | none => rw [hc] at h; cases h
      | some c =>
        rw [hc] at h
        have := ih _ _ _ h
        exact le_trans (Nat.le_add_right _ _) this

theorem unfold_from_loop_eq_exact (w : Nat) (uv : unfold_view) (rest : List Nat)
    (i k acc r : Nat) (h : unfold_from_loop_exact uv rest i k acc = some r)
    (hr : r < 2 ^ w) (hx : ∀ x ∈ rest, 1 ≤ x ∧ x < 2 ^ w) :
    unfold_from_loop w uv rest i k acc = some r := by
  induction rest generalizing i k acc with
  | nil =>
    rw [unfold_from_loop_exact] at h
    rw [unfold_from_loop]
    exact h
  | cons x rest ih =>
    have hx1 : ∀ y ∈ rest, 1 ≤ y ∧ y < 2 ^ w := fun y hy => hx y (List.mem_cons_of_mem _ hy)
    rw [unfold_from_loop_exact] at h
    rw [unfold_from_loop]
    by_cases hn : i = uv.n
    · rw [if_pos hn] at h ⊢
      exact ih _ _ _ h hx1
    · rw [if_neg hn] at h ⊢
      cases hc : uv.jk.get? k with
      | none => rw [hc] at h; cases h
      | some c =>
        rw [hc] at h
        simp only [] at h ⊢
        have hmono := unfold_from_loop_exact_mono uv rest _ _ _ r h
        obtain ⟨hx0, hxw⟩ := hx x (by simp)
        have hsub : sp_index_sub w x 1 = x - 1 := sp_index_sub_of_le w x 1 hxw hx0
        have hmul : sp_index_mul w (x - 1) c = (x - 1) * c := by
          unfold sp_index_mul
          apply Nat.mod_eq_of_lt
          have : (x - 1) * c ≤ acc + (x - 1) * c := Nat.le_add_left _ _
          omega
        have hadd : sp_index_add w acc ((x - 1) * c) = acc + (x - 1) * c := by
          unfold sp_index_add
          apply Nat.mod_eq_of_lt
          omega
        rw [hsub, hmul, hadd]
        exact ih _ _ _ h hx1

theorem unfold_tensor_loop_exact_prefix (n : Nat) (ds : List Nat) (i : Nat)
    (st : Nat × List Nat) :
    ∃ tl, (unfold_tensor_loop_exact n ds i st).2 = st.2 ++ tl := by
  induction ds generalizing i st with
  | nil => exact ⟨[], by simp [unfold_tensor_loop_exact]⟩
  | cons d ds ih =>
    rw [unfold_tensor_loop_exact]
    by_cases hn : i = n
    · rw [if_pos hn]
      exact ih _ _
    · rw [if_neg hn]
      obtain ⟨tl, h⟩ := ih (i + 1) (st.1 * d, st.2 ++ [st.2.getD (st.2.length - 1) 0 * d])
      exact ⟨(st.2.getD (st.2.length - 1) 0 * d) :: tl, by rw [h]; simp⟩

theorem unfold_tensor_loop_eq_exact (w n : Nat) (ds : List Nat) (i : Nat)
    (st : Nat × List Nat) (hlast : st.1 = st.2.getD (st.2.length - 1) 0)
    (hb : ∀ x ∈ (unfold_tensor_loop_exact n ds i st).2, x < 2 ^ w) :
    unfold_tensor_loop w n ds i st = unfold_tensor_loop_exact n ds i st := by
  induction ds generalizing i st with
  | nil => rfl
  | cons d ds ih =>
    rw [unfold_tensor_loop_exact] at hb
    rw [unfold_tensor_loop, unfold_tensor_loop_exact]
    by_cases hn : i = n
    · rw [if_pos hn] at hb
      rw [if_pos hn, if_pos hn]
      exact ih _ _ hlast hb
    · rw [if_neg hn] at hb
      rw [if_neg hn, if_neg hn]
      obtain ⟨tl, htl⟩ := unfold_tensor_loop_exact_prefix n ds (i + 1)
        (st.1 * d, st.2 ++ [st.2.getD (st.2.length - 1) 0 * d])
      have hlt : st.2.getD (st.2.length - 1) 0 * d < 2 ^ w := by
        apply hb
        rw [htl]
        simp
      have e1 : sp_index_mul w (st.2.getD (st.2.length - 1) 0) d =
          st.2.getD (st.2.length - 1) 0 * d := Nat.mod_eq_of_lt hlt
      have e2 : sp_index_mul w st.1 d = st.1 * d := by
        rw [hlast]
        exact e1
      rw [e1, e2]
      apply ih _ _ _ hb
      simp only [List.length_append, List.length_singleton, Nat.add_sub_cancel]
      rw [List.getD_append_right _ _ _ _ (le_refl _), Nat.sub_self, List.getD_cons_zero,
        hlast]

theorem unfold_tensor_loop_length (w n : Nat) (ds : List Nat) (i : Nat)
    (st st2 : Nat × List Nat) (h : st.2.length = st2.2.length) :
    (unfold_tensor_loop w n ds i st).2.length =
      (unfold_tensor_loop_exact n ds i st2).2.length := by
  induction ds generalizing i st st2 with
  | nil => exact h
  | cons d ds ih =>
    rw [unfold_tensor_loop, unfold_tensor_loop_exact]
    by_cases hn : i = n
    · rw [if_pos hn, if_pos hn]
      exact ih _ _ _ h
    · rw [if_neg hn, if_neg hn]
      apply ih
      simp [h]

theorem unfold_tensor_data_jk_length_w (w nmodes n : Nat) (dim : List Nat) (hn : n < nmodes)
    (hd : dim.length = nmodes) :
    (unfold_tensor_data w nmodes dim n).jk.length =
      (unfold_tensor_data w nmodes dim n).jk_alloc + 1 := by
  have h := unfold_tensor_data_jk_length nmodes n dim hn hd
  have hl := unfold_tensor_loop_length w n (dim.take nmodes) 0 (1, [1]) (1, [1]) rfl
  exact hl.trans h

theorem unfold_k_at_surj (n nm k : Nat) (hk : k < nm) :
    ∃ i, i ≤ nm ∧ unfold_k_at n i = k := by
  by_cases h : k ≤ n
  · exact ⟨k, by omega, by unfold unfold_k_at; rw [if_neg (by omega)]⟩
  · exact ⟨k + 1, by omega, by unfold unfold_k_at; rw [if_pos (by omega)]; omega⟩

theorem unfold_tensor_data_eq_exact (w nmodes n : Nat) (dim : List Nat) (hn : n < nmodes)
    (hd : dim.length = nmodes)
    (hb : ∀ i, i ≤ nmodes → unfold_stride dim n i < 2 ^ w) :
    unfold_tensor_data w nmodes dim n = unfold_tensor_data_exact nmodes dim n := by
  obtain ⟨_, hlen, hjk⟩ := unfold_tensor_data_closed nmodes dim n hd
  have hall : ∀ x ∈ (unfold_tensor_loop_exact n (dim.take nmodes) 0 (1, [1])).2,
      x < 2 ^ w := by
    intro x hx
    obtain ⟨k, hk, rfl⟩ := List.getElem_of_mem hx
    have hk2 : k < nmodes := by
      have : (unfold_tensor_data_exact nmodes dim n).jk.length = unfold_k_at n nmodes + 1 :=
        hlen
      have e : unfold_k_at n nmodes = nmodes - 1 := by
        unfold unfold_k_at; rw [if_pos hn]
      have hk' : k < (unfold_tensor_data_exact nmodes dim n).jk.length := hk
      omega
    obtain ⟨i, hi, rfl⟩ := unfold_k_at_surj n nmodes k hk2
    have h1 := hjk i hi
    have h2 : (unfold_tensor_data_exact nmodes dim n).jk.get? (unfold_k_at n i) =
        some ((unfold_tensor_loop_exact n (dim.take nmodes) 0 (1, [1])).2.get
          ⟨unfold_k_at n i, hk⟩) :=
      List.get?_eq_get hk
    rw [h1] at h2
    have h3 := Option.some.inj h2
    show (unfold_tensor_loop_exact n (dim.take nmodes) 0 (1, [1])).2.get
      ⟨unfold_k_at n i, hk⟩ < 2 ^ w
    rw [← h3]
    exact hb i hi
  have h := unfold_tensor_loop_eq_exact w n (dim.take nmodes) 0 (1, [1]) rfl hall
  unfold unfold_tensor_data unfold_tensor_data_exact
  simp only [h]

theorem unfold_stride_mono_step (dim : List Nat) (n : Nat) (hpos : ∀ d ∈ dim, 0 < d)
    (i e : Nat) (he : i + e ≤ dim.length) :
    unfold_stride dim n i ≤ unfold_stride dim n (i + e) := by
  induction e with
  | zero => exact le_refl _
  | succ e ih =>
    have hlt : i + e < dim.length := by omega
    have h1 := ih (by omega)
    rw [← Nat.add_assoc, unfold_stride_succ dim n (i + e) hlt]
    by_cases hn : i + e = n
    · rw [if_pos hn]; exact h1
    · rw [if_neg hn]
      have hp : 0 < dim.getD (i + e) 0 := by
        rw [List.getD_eq_getElem _ _ hlt]
        exact hpos _ (List.getElem_mem hlt)
      exact le_trans h1 (Nat.le_mul_of_pos_right _ hp)

theorem unfold_stride_mono (dim : List Nat) (n : Nat) (hpos : ∀ d ∈ dim, 0 < d)
    (i : Nat) (hi : i ≤ dim.length) :
    unfold_stride dim n i ≤ unfold_stride dim n dim.length := by
  have h := unfold_stride_mono_step dim n hpos i (dim.length - i) (by omega)
  have e : i + (dim.length - i) = dim.length := by omega
  rw [e] at h
  exact h

theorem unfold_stride_full (dim : List Nat) (n : Nat) :
    unfold_stride dim n dim.length = (dim.eraseIdx n).prod := by
  unfold unfold_stride
  rw [List.take_of_length_le (le_refl _)]

theorem unfold_stride_bound (w : Nat) (dim : List Nat) (n nmodes : Nat)
    (hd : dim.length = nmodes) (hpos : ∀ d ∈ dim, 0 < d)
    (hprod : (dim.eraseIdx n).prod < 2 ^ w) (i : Nat) (hi : i ≤ nmodes) :
    unfold_stride dim n i < 2 ^ w := by
  have h := unfold_stride_mono dim n hpos i (by omega)
  rw [unfold_stride_full] at h
  omega


theorem coord_in_range_mem_bounds (w : Nat) (dim c : List Nat) (hc : coord_in_range dim c)
    (hdimw : ∀ d ∈ dim, d < 2 ^ w) : ∀ x ∈ c, 1 ≤ x ∧ x < 2 ^ w := by
  intro x hx
  obtain ⟨i, hi, rfl⟩ := List.getElem_of_mem hx
  have hi2 : i < dim.length := by rw [← hc.1]; exact hi
  have h := hc.2 i hi2
  rw [List.getD_eq_getElem _ _ hi, List.getD_eq_getElem _ _ hi2] at h
  have := hdimw _ (List.getElem_mem hi2)
  exact ⟨h.1, by omega⟩

theorem coord_in_range_dims_pos (dim c : List Nat) (hc : coord_in_range dim c) :
    ∀ d ∈ dim, 0 < d := by
  intro d hd
  obtain ⟨i, hi, rfl⟩ := List.getElem_of_mem hd
  have h := hc.2 i hi
  rw [List.getD_eq_getElem dim 0 hi] at h
  omega

theorem unfold_view_data_eq_exact {V : Type} (w : Nat) (v : tensor_view V) (n : Nat)
    (hn : n < v.nmodes) (hdim : v.dim.length = v.nmodes) (hpos : ∀ d ∈ v.dim, 0 < d)
    (hprodw : (v.dim.eraseIdx n).prod < 2 ^ w) :
    unfold_tensor_data w v.nmodes v.dim n = unfold_tensor_data_exact v.nmodes v.dim n :=
  unfold_tensor_data_eq_exact w v.nmodes n v.dim hn hdim
    (unfold_stride_bound w v.dim n v.nmodes hdim hpos hprodw)

theorem unfold_view_to_eq_exact {V : Type} (w : Nat) (v : tensor_view V) (n : Nat)
    (c : List Nat) (hw : 32 ≤ w)
    (hdata : unfold_tensor_data w v.nmodes v.dim n =
      unfold_tensor_data_exact v.nmodes v.dim n)
    (hc1 : 1 ≤ c.getD 1 0) (hc1b : c.getD 1 0 - 1 < 2 ^ 31) :
    (unfold_tensor w v n).«to» c = (unfold_tensor_exact v n).«to» c := by
  have h32 := two_pow_32_le w hw
  show unfold_to w (unfold_tensor_data w v.nmodes v.dim n) v.nmodes c =
    unfold_to_exact (unfold_tensor_data_exact v.nmodes v.dim n) v.nmodes c
  rw [hdata]
  unfold unfold_to unfold_to_exact
  rw [sp_index_sub_of_le w _ 1 (by omega) hc1, c_int_of_index_small _ hc1b]
  exact unfold_to_loop_eq_exact w _ _ hw _ _ _ _ hc1b

theorem unfold_view_from_eq_exact {V : Type} (w : Nat) (v : tensor_view V) (n : Nat)
    (c d : List Nat)
    (hdata : unfold_tensor_data w v.nmodes v.dim n =
      unfold_tensor_data_exact v.nmodes v.dim n)
    (hex : (unfold_tensor_exact v n).«from» c = some d) (hd : d.getD 1 0 < 2 ^ w)
    (hx : ∀ x ∈ c.take v.nmodes, 1 ≤ x ∧ x < 2 ^ w) :
    (unfold_tensor w v n).«from» c = some d := by
  show unfold_from w (unfold_tensor_data w v.nmodes v.dim n) v.nmodes c = some d
  have hex2 : unfold_from_exact (unfold_tensor_data_exact v.nmodes v.dim n) v.nmodes c =
      some d := hex
  rw [hdata]
  unfold unfold_from
  unfold unfold_from_exact at hex2
  cases hl : unfold_from_loop_exact (unfold_tensor_data_exact v.nmodes v.dim n)
      (c.take v.nmodes) 0 0 1 with
  | none => rw [hl] at hex2; cases hex2
  | some r =>
    rw [hl] at hex2
    simp only [Option.map_some', Option.some.injEq] at hex2
    have hr : r < 2 ^ w := by
      rw [← hex2] at hd
      simpa using hd
    rw [unfold_from_loop_eq_exact w _ _ 0 0 1 r hl hr hx]
    simp only [Option.map_some', Option.some.injEq]
    exact hex2

/-- C10 (fails as stated): the claim has no bound on the dimensions.  For dimensions
`(65536, 65536, 2, 2)` (all positive, four modes), `n = 3` and an index type of `32` bits
the coefficients are `jk = (1, 65536, 0, 0)`, the product `65536 * 65536` having wrapped
to `0`; at the view coordinate `(2, 3)`, which satisfies `1 <= 2 <= dim[3]` and
`1 <= 3 <=` product of the other dimensions, `unfold_to` divides by `jk[2] = 0`, so there
is no `unfold_from(unfold_to(c))`. -/
theorem unfold_from_to_wraps :
    (3 < unfold_wide_view.nmodes ∧ 2 ≤ unfold_wide_view.nmodes ∧
      ∀ d ∈ unfold_wide_view.dim, 0 < d) ∧
    (1 ≤ 2 ∧ 2 ≤ unfold_wide_view.dim.getD 3 0) ∧
    (1 ≤ 3 ∧ 3 ≤ (unfold_wide_view.dim.eraseIdx 3).prod) ∧
    (unfold_tensor_data 32 unfold_wide_view.nmodes unfold_wide_view.dim 3).jk
      = [1, 65536, 0, 0] ∧
    (unfold_tensor 32 unfold_wide_view 3).«to» [2, 3] = none ∧
    ((unfold_tensor 32 unfold_wide_view 3).«to» [2, 3]).bind
      (unfold_tensor 32 unfold_wide_view 3).«from» = none := by
  decide

/-- C10 (amended): for the unfold view built by `unfold_tensor(v, n)` with
`n < nmodes(v)`, `nmodes(v) >= 2` and all dimensions of `v` positive, when in addition
the index type is at least as wide as `int`, the dimensions are values of the index type
and the product of the dimensions other than `n` is below `2^31`: for every valid view
coordinate `c = (c0, c1)` (`1 <= c0 <= dim(v)[n]`, `1 <= c1 <=` product of the other
dimensions), `unfold_to(c)` is defined and `unfold_from(unfold_to(c)) = c`. -/
theorem unfold_from_to {V : Type} (w : Nat) (v : tensor_view V) (n c0 c1 : Nat)
    (hn : n < v.nmodes) (hnm : 2 ≤ v.nmodes) (hdim : v.dim.length = v.nmodes)
    (hpos : ∀ d ∈ v.dim, 0 < d)
    (hw : 32 ≤ w) (hdimw : ∀ d ∈ v.dim, d < 2 ^ w)
    (hprod : (v.dim.eraseIdx n).prod < 2 ^ 31)
    (hc0 : 1 ≤ c0 ∧ c0 ≤ v.dim.getD n 0)
    (hc1 : 1 ≤ c1 ∧ c1 ≤ (v.dim.eraseIdx n).prod) :
    (∃ u, (unfold_tensor w v n).«to» [c0, c1] = some u ∧ u.length = v.nmodes ∧
        (unfold_tensor w v n).«from» u = some [c0, c1]) ∧
      ((unfold_tensor w v n).«to» [c0, c1]).bind (unfold_tensor w v n).«from»
        = some [c0, c1] := by
  have h32 := two_pow_32_le w hw
  have hdata := unfold_view_data_eq_exact w v n hn hdim hpos (by omega)
  obtain ⟨⟨pre, hto, hlen, hfrom⟩, _⟩ :=
    exact_unfold_from_to v n c0 c1 hn hnm hdim hpos hc0 hc1
  obtain ⟨out, hto2, hrange⟩ := exact_unfold_to_in_range v n [c0, c1] hn hdim hpos rfl
    (by simpa using hc0) (by simpa using hc1)
  have hout : out = pre := by
    rw [hto] at hto2
    exact (Option.some.inj hto2).symm
  subst hout
  have hto3 : (unfold_tensor w v n).«to» [c0, c1] = some out := by
    rw [unfold_view_to_eq_exact w v n [c0, c1] hw hdata (by simpa using hc1.1)
      (by simp only [List.getD_cons_succ, List.getD_cons_zero]; omega)]
    exact hto
  have hfrom3 : (unfold_tensor w v n).«from» out = some [c0, c1] := by
    apply unfold_view_from_eq_exact w v n out [c0, c1] hdata hfrom
    · simp only [List.getD_cons_succ, List.getD_cons_zero]; omega
    · intro x hx
      exact coord_in_range_mem_bounds w v.dim out hrange hdimw x (List.mem_of_mem_take hx)
  refine ⟨⟨out, hto3, hlen, hfrom3⟩, ?_⟩
  rw [hto3, Option.some_bind, hfrom3]

/-- Witness for C10 (amended): the tensor of shape `(3,4,5)` unfolded along mode `1`, at
the view coordinate `(2, 7)`, with a `32`-bit index type. -/
theorem unfold_from_to_witness :
    ((unfold_tensor 32 (⟨3, [3, 4, 5], some 0, fun _ => none, fun _ => none,
        fun _ => some 0, fun c => some c, fun c => some c⟩ : tensor_view Int) 1).«to»
        [2, 7]).bind
      (unfold_tensor 32 (⟨3, [3, 4, 5], some 0, fun _ => none, fun _ => none,
        fun _ => some 0, fun c => some c, fun c => some c⟩ : tensor_view Int) 1).«from» =
      some [2, 7] :=
  (unfold_from_to 32 (⟨3, [3, 4, 5], some 0, fun _ => none, fun _ => none,
      fun _ => some 0, fun c => some c, fun c => some c⟩ : tensor_view Int) 1 2 7
    (by decide) (by decide) (by decide) (by decide) (by decide) (by decide) (by decide)
    (by decide) (by decide)).2

/-- C11 (fails as stated): for dimensions `(65536, 65536, 2, 2)`, `n = 3` and an index
type of `32` bits, the in-range wrapped coordinate `(1, 1, 2, 1)` is sent by
`unfold_from` to `(1, 1)`, the coefficient `jk[2]` being the wrapped product `0`, and
`unfold_to` then divides by that coefficient: there is no
`unfold_to(unfold_from(c'))`. -/
theorem unfold_to_after_from_wraps :
    (3 < unfold_wide_view.nmodes ∧ 2 ≤ unfold_wide_view.nmodes ∧
      ∀ d ∈ unfold_wide_view.dim, 0 < d) ∧
    coord_in_range unfold_wide_view.dim [1, 1, 2, 1] ∧
    (unfold_tensor 32 unfold_wide_view 3).«from» [1, 1, 2, 1] = some [1, 1] ∧
    ((unfold_tensor 32 unfold_wide_view 3).«from» [1, 1, 2, 1]).bind
      (unfold_tensor 32 unfold_wide_view 3).«to» = none := by
  decide

/-- C11 (amended): for the unfold view built by `unfold_tensor(v, n)` with
`n < nmodes(v)`, `nmodes(v) >= 2` and positive dimensions, when in addition the index
type is at least as wide as `int`, the dimensions are values of the index type and the
product of the dimensions other than `n` is below `2^31`: for every in-range coordinate
`c` of `v`, `unfold_from(c)` is defined and `unfold_to(unfold_from(c)) = c`. -/
theorem unfold_to_after_from {V : Type} (w : Nat) (v : tensor_view V) (n : Nat)
    (c : List Nat)
    (hn : n < v.nmodes) (hnm : 2 ≤ v.nmodes) (hdim : v.dim.length = v.nmodes)
    (hpos : ∀ d ∈ v.dim, 0 < d)
    (hw : 32 ≤ w) (hdimw : ∀ d ∈ v.dim, d < 2 ^ w)
    (hprod : (v.dim.eraseIdx n).prod < 2 ^ 31)
    (hc : coord_in_range v.dim c) :
    (∃ u, (unfold_tensor w v n).«from» c = some u ∧ u.length = 2 ∧
        (unfold_tensor w v n).«to» u = some c) ∧
      ((unfold_tensor w v n).«from» c).bind (unfold_tensor w v n).«to» = some c := by
  have h32 := two_pow_32_le w hw
  have hdata := unfold_view_data_eq_exact w v n hn hdim hpos (by omega)
  obtain ⟨⟨u, hfrom, hlen, hto⟩, _⟩ := exact_unfold_to_after_from v n c hn hnm hdim hpos hc
  have hcol := (exact_unfold_tensor_matricisation v n hn hdim).2.2.2.2 c
    (by rw [hc.1, hdim])
  have hu : u = [c.getD n 0, matricize_column v.dim c n v.nmodes] := by
    rw [hfrom] at hcol
    exact Option.some.inj hcol
  have hlt : matricize_below v.dim c n v.nmodes < (v.dim.eraseIdx n).prod := by
    have h := matricize_below_lt v.dim c n hc.2 v.nmodes (le_of_eq hdim.symm)
    rw [← hdim, unfold_stride_full] at h
    rw [← hdim]
    exact h
  have hu1 : u.getD 1 0 = 1 + matricize_below v.dim c n v.nmodes := by
    rw [hu]; rfl
  have hfrom3 : (unfold_tensor w v n).«from» c = some u := by
    apply unfold_view_from_eq_exact w v n c u hdata hfrom
    · rw [hu1]; omega
    · intro x hx
      exact coord_in_range_mem_bounds w v.dim c hc hdimw x (List.mem_of_mem_take hx)
  have hto3 : (unfold_tensor w v n).«to» u = some c := by
    rw [unfold_view_to_eq_exact w v n u hw hdata (by rw [hu1]; omega) (by rw [hu1]; omega)]
    exact hto
  refine ⟨⟨u, hfrom3, hlen, hto3⟩, ?_⟩
  rw [hfrom3, Option.some_bind, hto3]

/-- Witness for C11 (amended): the tensor of shape `(3,4,5)` unfolded along mode `1`, at
the wrapped coordinate `(2, 3, 4)`, with a `32`-bit index type. -/
theorem unfold_to_after_from_witness :
    ((unfold_tensor 32 (⟨3, [3, 4, 5], some 0, fun _ => none, fun _ => none,
        fun _ => some 0, fun c => some c, fun c => some c⟩ : tensor_view Int) 1).«from»
        [2, 3, 4]).bind
      (unfold_tensor 32 (⟨3, [3, 4, 5], some 0, fun _ => none, fun _ => none,
        fun _ => some 0, fun c => some c, fun c => some c⟩ : tensor_view Int) 1).«to» =
      some [2, 3, 4] :=
  (unfold_to_after_from 32 (⟨3, [3, 4, 5], some 0, fun _ => none, fun _ => none,
      fun _ => some 0, fun c => some c, fun c => some c⟩ : tensor_view Int) 1 [2, 3, 4]
    (by decide) (by decide) (by decide) (by decide) (by decide) (by decide) (by decide)
    (by decide)).2


/-- C27 (fails as stated): for dimensions `(65536, 65536, 2, 2)`, all positive, `n = 3`
and an index type of `32` bits, the coefficient `jk[2]` is the wrapped product
`65536 * 65536 = 0`, and at the in-range view coordinate `(1, 1)` `unfold_to` divides by
it. -/
theorem unfold_to_divides_by_zero :
    (3 < unfold_wide_view.nmodes ∧ ∀ d ∈ unfold_wide_view.dim, 0 < d) ∧
    (1 ≤ 1 ∧ 1 ≤ unfold_wide_view.dim.getD 3 0) ∧
    (1 ≤ 1 ∧ 1 ≤ (unfold_wide_view.dim.eraseIdx 3).prod) ∧
    unfold_jk_read (unfold_tensor_data 32 unfold_wide_view.nmodes unfold_wide_view.dim 3) 2
      = some 0 ∧
    (unfold_tensor 32 unfold_wide_view 3).«to» [1, 1] = none := by
  decide

/-- C27 (amended): for the unfold view built by `unfold_tensor(v, n)` with
`n < nmodes(v)` and positive dimensions, when in addition the index type is at least as
wide as `int` and the product of the dimensions other than `n` is below `2^31`:
`unfold_to` is defined (no division by zero, no undefined coefficient) at every view
coordinate `c` with `1 <= c[0] <= dim(v)[n]` and `1 <= c[1] <=` the product of the other
dimensions, and its result is an in-range coordinate of `v`. -/
theorem unfold_to_in_range {V : Type} (w : Nat) (v : tensor_view V) (n : Nat)
    (c : List Nat)
    (hn : n < v.nmodes) (hdim : v.dim.length = v.nmodes) (hpos : ∀ d ∈ v.dim, 0 < d)
    (hw : 32 ≤ w) (hprod : (v.dim.eraseIdx n).prod < 2 ^ 31)
    (hclen : c.length = 2)
    (hc0 : 1 ≤ c.getD 0 0 ∧ c.getD 0 0 ≤ v.dim.getD n 0)
    (hc1 : 1 ≤ c.getD 1 0 ∧ c.getD 1 0 ≤ (v.dim.eraseIdx n).prod) :
    ∃ out, (unfold_tensor w v n).«to» c = some out ∧ coord_in_range v.dim out := by
  have h32 := two_pow_32_le w hw
  have hdata := unfold_view_data_eq_exact w v n hn hdim hpos (by omega)
  obtain ⟨out, hto, hrange⟩ := exact_unfold_to_in_range v n c hn hdim hpos hclen hc0 hc1
  refine ⟨out, ?_, hrange⟩
  rw [unfold_view_to_eq_exact w v n c hw hdata hc1.1 (by omega)]
  exact hto

/-- Witness for C27 (amended): the tensor of shape `(3,4,5)` unfolded along mode `1`, at
the view coordinate `(4, 15)`, the last row and last column, with a `32`-bit index
type. -/
theorem unfold_to_in_range_witness :
    ∃ out, (unfold_tensor 32 (⟨3, [3, 4, 5], some 0, fun _ => none, fun _ => none,
        fun _ => some 0, fun c => some c, fun c => some c⟩ : tensor_view Int) 1).«to» [4, 15]
        = some out ∧ coord_in_range [3, 4, 5] out :=
  unfold_to_in_range 32 (⟨3, [3, 4, 5], some 0, fun _ => none, fun _ => none,
    fun _ => some 0, fun c => some c, fun c => some c⟩ : tensor_view Int) 1 [4, 15]
    (by decide) (by decide) (by decide) (by decide) (by decide) (by decide) (by decide)
    (by decide)

/-- C12 (fails as stated): for dimensions `(65536, 65536, 2, 2)`, `n = 2` and an index
type of `32` bits, `unfold_tensor` yields the dimensions `(2, 0)` where the product of the
other dimensions is `2^33`, and the coefficient `jk[2]`, inside the allocation of three
entries, is `0` where the product of the first two dimensions is `2^32`. -/
theorem unfold_tensor_dim_wraps :
    2 < unfold_wide_view.nmodes ∧
    (unfold_tensor 32 unfold_wide_view 2).dim = [2, 0] ∧
    (unfold_wide_view.dim.eraseIdx 2).prod = 2 ^ 33 ∧
    (unfold_tensor_data 32 unfold_wide_view.nmodes unfold_wide_view.dim 2).jk_alloc = 3 ∧
    (unfold_tensor_data 32 unfold_wide_view.nmodes unfold_wide_view.dim 2).jk.get? 2
      = some 0 ∧
    ((unfold_wide_view.dim.eraseIdx 2).take 2).prod = 2 ^ 32 := by
  decide

/-- C12 (amended): when every product of leading dimensions of `v` with mode `n` skipped
(the product of all the dimensions other than `n` included) is below `2^w`, the range of
the index type, `unfold_tensor(v, n)` yields a 2-mode view with dimensions
`(dim(v)[n], product of dim(v)[i] over i != n)` whose coefficients in the allocated cells
`k < nmodes - 1` are `jk[k] =` the product of the first `k` dimensions of `v` with mode `n`
skipped (so `jk[0] = 1`); and for every in-range coordinate `c` of `v` whose dimensions
are values of the index type, `unfold_from` is the standard mode-`n` matricisation:
`from(c)[0] = c[n]` and `from(c)[1] = 1 + sum over i != n of (c[i] - 1) * product of
dim(v)[m] over m < i, m != n`. -/
theorem unfold_tensor_matricisation {V : Type} (w : Nat) (v : tensor_view V) (n : Nat)
    (hn : n < v.nmodes) (hdim : v.dim.length = v.nmodes)
    (hb : ∀ k, k < v.nmodes → ((v.dim.eraseIdx n).take k).prod < 2 ^ w) :
    (unfold_tensor w v n).nmodes = 2 ∧
      (unfold_tensor w v n).dim = [v.dim.getD n 0, (v.dim.eraseIdx n).prod] ∧
      (2 ≤ v.nmodes → (unfold_tensor_data w v.nmodes v.dim n).jk.get? 0 = some 1) ∧
      (∀ k, k < v.nmodes - 1 →
        (unfold_tensor_data w v.nmodes v.dim n).jk.get? k =
          some ((v.dim.eraseIdx n).take k).prod) ∧
      (∀ c : List Nat, coord_in_range v.dim c → (∀ d ∈ v.dim, d < 2 ^ w) →
        (unfold_tensor w v n).«from» c =
          some [c.getD n 0, matricize_column v.dim c n v.nmodes]) := by
  have hstr : ∀ i, i ≤ v.nmodes → unfold_stride v.dim n i < 2 ^ w := by
    intro i hi
    unfold unfold_stride
    rw [take_eraseIdx_eq]
    apply hb
    unfold unfold_k_at
    split <;> omega
  have hdata := unfold_tensor_data_eq_exact w v.nmodes n v.dim hn hdim hstr
  obtain ⟨_, hd, hj0, hjk, hfrom⟩ := exact_unfold_tensor_matricisation v n hn hdim
  have hprodw : (v.dim.eraseIdx n).prod < 2 ^ w := by
    have h := hstr v.nmodes (le_refl _)
    rw [← hdim, unfold_stride_full] at h
    exact h
  refine ⟨rfl, ?_, ?_, ?_, ?_⟩
  · show (unfold_tensor_data w v.nmodes v.dim n).dim = _
    rw [hdata]
    exact hd
  · intro _
    rw [hdata]
    exact hj0
  · intro k hk
    rw [hdata]
    exact hjk k (by omega)
  · intro c hc hdimw
    have hex := hfrom c (by rw [hc.1, hdim])
    apply unfold_view_from_eq_exact w v n c _ hdata hex
    · have hlt : matricize_below v.dim c n v.nmodes < (v.dim.eraseIdx n).prod := by
        have h := matricize_below_lt v.dim c n hc.2 v.nmodes (le_of_eq hdim.symm)
        rw [← hdim, unfold_stride_full] at h
        rw [← hdim]
        exact h
      have e : ([c.getD n 0, matricize_column v.dim c n v.nmodes] : List Nat).getD 1 0 =
          1 + matricize_below v.dim c n v.nmodes := rfl
      rw [e]
      omega
    · intro x hx
      exact coord_in_range_mem_bounds w v.dim c hc hdimw x (List.mem_of_mem_take hx)

/-- Witness for C12 (amended): the tensor of shape `(3,4,5)` unfolded along mode `1` has
dimensions `(4, 15)`, with a `32`-bit index type. -/
theorem unfold_tensor_matricisation_witness :
    (unfold_tensor 32 (⟨3, [3, 4, 5], some 0, fun _ => none, fun _ => none,
        fun _ => some 0, fun c => some c, fun c => some c⟩ : tensor_view Int) 1).dim =
      [4, 15] :=
  (unfold_tensor_matricisation 32 (⟨3, [3, 4, 5], some 0, fun _ => none, fun _ => none,
      fun _ => some 0, fun c => some c, fun c => some c⟩ : tensor_view Int) 1
    (by decide) (by decide) (by decide)).2.1


theorem unfold_to_from_in_range_w {V : Type} (w : Nat) (v : tensor_view V) (n : Nat)
    (c : List Nat) (hn : n < v.nmodes) (hdim : v.dim.length = v.nmodes)
    (hw : 32 ≤ w) (hdimw : ∀ d ∈ v.dim, d < 2 ^ w)
    (hprod : (v.dim.eraseIdx n).prod < 2 ^ 31) (hc : coord_in_range v.dim c) :
    ∃ d, (unfold_tensor w v n).«from» c = some d ∧ (unfold_tensor w v n).«to» d = some c := by
  have h32 := two_pow_32_le w hw
  have hpos := coord_in_range_dims_pos v.dim c hc
  have hdata := unfold_view_data_eq_exact w v n hn hdim hpos (by omega)
  obtain ⟨u, hfrom, hto⟩ := unfold_to_from_in_range v n c hn hdim hc
  have hcol := (exact_unfold_tensor_matricisation v n hn hdim).2.2.2.2 c
    (by rw [hc.1, hdim])
  have hu : u = [c.getD n 0, matricize_column v.dim c n v.nmodes] := by
    rw [hfrom] at hcol
    exact Option.some.inj hcol
  have hlt : matricize_below v.dim c n v.nmodes < (v.dim.eraseIdx n).prod := by
    have h := matricize_below_lt v.dim c n hc.2 v.nmodes (le_of_eq hdim.symm)
    rw [← hdim, unfold_stride_full] at h
    rw [← hdim]
    exact h
  have hu1 : u.getD 1 0 = 1 + matricize_below v.dim c n v.nmodes := by
    rw [hu]; rfl
  refine ⟨u, ?_, ?_⟩
  · apply unfold_view_from_eq_exact w v n c u hdata hfrom
    · rw [hu1]; omega
    · intro x hx
      exact coord_in_range_mem_bounds w v.dim c hc hdimw x (List.mem_of_mem_take hx)
  · rw [unfold_view_to_eq_exact w v n u hw hdata (by rw [hu1]; omega) (by rw [hu1]; omega)]
    exact hto

/-- C32 (fails as stated): let `u` be the wrapper view of the tensor with dimensions
`(65536, 65536, 2, 2)` and the single entry `(1,1,1,1) = 5`; its nonzero coordinate is in
range and `geti(u,0) = get(u, get_idx(u,0))`.  For the unfold view along mode `3` with an
index type of `32` bits, `get_idx(w,0) = (1,1)` and `geti(w,0) = 5`, but
`get(w, (1,1))` divides by the coefficient `jk[2]`, the wrapped product
`65536 * 65536 = 0`, and returns nothing. -/
theorem unfold_view_geti_get_wraps :
    (sptensor_view unfold_wide_sptensor).nnz = some 1 ∧
    (sptensor_view unfold_wide_sptensor).get_idx 0 = some [1, 1, 1, 1] ∧
    coord_in_range (sptensor_view unfold_wide_sptensor).dim [1, 1, 1, 1] ∧
    (sptensor_view unfold_wide_sptensor).geti 0 =
      ((sptensor_view unfold_wide_sptensor).get_idx 0).bind
        (sptensor_view unfold_wide_sptensor).get ∧
    (unfold_tensor 32 (sptensor_view unfold_wide_sptensor) 3).nnz = some 1 ∧
    (unfold_tensor 32 (sptensor_view unfold_wide_sptensor) 3).get_idx 0 = some [1, 1] ∧
    (unfold_tensor 32 (sptensor_view unfold_wide_sptensor) 3).geti 0 = some 5 ∧
    ((unfold_tensor 32 (sptensor_view unfold_wide_sptensor) 3).get_idx 0).bind
      (unfold_tensor 32 (sptensor_view unfold_wide_sptensor) 3).get = none := by
  decide

/-- C32 (amended): let `u` be a view with `nnz(u) = N` whose nonzero coordinates are in
range and with `geti(u,k) = get(u, get_idx(u,k))` for every `k < N`.  For the transpose
view `tensor_transpose(u, t0, t1)` with `t0, t1 < nmodes(u)`, and for the unfold view
`unfold_tensor(u, n)` with `n < nmodes(u)` when in addition the index type is at least as
wide as `int`, the dimensions are values of the index type and the product of the
dimensions other than `n` is below `2^31`, written `w`: `nnz(w) = nnz(u)`, and for every
`i < N` the translation `from(get_idx(u,i))` is defined, `get_idx(w,i)` is that
coordinate, and `geti(w,i) = get(w, get_idx(w,i))`. -/
theorem base_view_enumeration_agrees {V : Type} (w : Nat) (u : tensor_view V)
    (n t0 t1 N : Nat)
    (hn : n < u.nmodes) (h0 : t0 < u.nmodes) (h1 : t1 < u.nmodes)
    (hdim : u.dim.length = u.nmodes) (hnnz : u.nnz = some N)
    (hu : ∀ k, k < N → ∃ c, u.get_idx k = some c ∧ coord_in_range u.dim c ∧
      u.geti k = u.get c)
    (hw : 32 ≤ w) (hdimw : ∀ d ∈ u.dim, d < 2 ^ w)
    (hprod : (u.dim.eraseIdx n).prod < 2 ^ 31) :
    ((unfold_tensor w u n).nnz = u.nnz ∧ (unfold_tensor w u n).nnz = some N ∧
      ∀ i, i < N → ∃ c d, u.get_idx i = some c ∧ (unfold_tensor w u n).«from» c = some d ∧
        (unfold_tensor w u n).get_idx i = some d ∧
        (unfold_tensor w u n).geti i = (unfold_tensor w u n).get d) ∧
    ((tensor_transpose u t0 t1).nnz = u.nnz ∧ (tensor_transpose u t0 t1).nnz = some N ∧
      ∀ i, i < N → ∃ c d, u.get_idx i = some c ∧
        (tensor_transpose u t0 t1).«from» c = some d ∧
        (tensor_transpose u t0 t1).get_idx i = some d ∧
        (tensor_transpose u t0 t1).geti i = (tensor_transpose u t0 t1).get d) := by
  refine ⟨⟨rfl, hnnz, ?_⟩, ⟨rfl, hnnz, ?_⟩⟩
  · intro i hi
    obtain ⟨c, hc1, hc2, hc3⟩ := hu i hi
    obtain ⟨d, hd1, hd2⟩ := unfold_to_from_in_range_w w u n c hn hdim hw hdimw hprod hc2
    refine ⟨c, d, hc1, hd1, ?_, ?_⟩
    · have : (unfold_tensor w u n).get_idx i =
          (u.get_idx i).bind (unfold_tensor w u n).«from» := rfl
      rw [this, hc1, Option.some_bind, hd1]
    · have hg : (unfold_tensor w u n).get d =
          ((unfold_tensor w u n).«to» d).bind u.get := rfl
      have hi2 : (unfold_tensor w u n).geti i = u.geti i := rfl
      rw [hg, hd2, Option.some_bind, hi2, hc3]
  · intro i hi
    obtain ⟨c, hc1, hc2, hc3⟩ := hu i hi
    have hcl : c.length = u.nmodes := by rw [hc2.1, hdim]
    refine ⟨c, tensor_transpose_index t0 t1 u.nmodes c, hc1, rfl, ?_, ?_⟩
    · have : (tensor_transpose u t0 t1).get_idx i =
          (u.get_idx i).bind (fun c => some (tensor_transpose_index t0 t1 u.nmodes c)) := rfl
      rw [this, hc1, Option.some_bind]
    · have hg : (tensor_transpose u t0 t1).get (tensor_transpose_index t0 t1 u.nmodes c) =
          u.get (tensor_transpose_index t0 t1 u.nmodes
            (tensor_transpose_index t0 t1 u.nmodes c)) := rfl
      have hi2 : (tensor_transpose u t0 t1).geti i = u.geti i := rfl
      rw [hg, tensor_transpose_index_involutive t0 t1 u.nmodes c hcl h0 h1, hi2, hc3]

/-- Witness for C32 (amended): the wrapper view of the tensor of `test/csftest.c`, unfolded
along mode `1` with a `32`-bit index type and transposed in modes `0` and `2`. -/
theorem base_view_enumeration_agrees_witness :
    ((unfold_tensor 32 (sptensor_view csftest_sptensor) 1).nnz
        = (sptensor_view csftest_sptensor).nnz ∧
      (unfold_tensor 32 (sptensor_view csftest_sptensor) 1).nnz = some 4 ∧
      ∀ i, i < 4 → ∃ c d, (sptensor_view csftest_sptensor).get_idx i = some c ∧
        (unfold_tensor 32 (sptensor_view csftest_sptensor) 1).«from» c = some d ∧
        (unfold_tensor 32 (sptensor_view csftest_sptensor) 1).get_idx i = some d ∧
        (unfold_tensor 32 (sptensor_view csftest_sptensor) 1).geti i =
          (unfold_tensor 32 (sptensor_view csftest_sptensor) 1).get d) ∧
    ((tensor_transpose (sptensor_view csftest_sptensor) 0 2).nnz
        = (sptensor_view csftest_sptensor).nnz ∧
      (tensor_transpose (sptensor_view csftest_sptensor) 0 2).nnz = some 4 ∧
      ∀ i, i < 4 → ∃ c d, (sptensor_view csftest_sptensor).get_idx i = some c ∧
        (tensor_transpose (sptensor_view csftest_sptensor) 0 2).«from» c = some d ∧
        (tensor_transpose (sptensor_view csftest_sptensor) 0 2).get_idx i = some d ∧
        (tensor_transpose (sptensor_view csftest_sptensor) 0 2).geti i =
          (tensor_transpose (sptensor_view csftest_sptensor) 0 2).get d) :=
  base_view_enumeration_agrees 32 (sptensor_view csftest_sptensor) 1 0 2 4
    (by decide) (by decide) (by decide) (by decide) (by decide)
    (by
      intro k hk
      have h : ∀ j, j < 4 →
          (((sptensor_view csftest_sptensor).get_idx j).map
            (fun c => decide (coord_in_range (sptensor_view csftest_sptensor).dim c))
              = some true ∧
            (sptensor_view csftest_sptensor).geti j =
              ((sptensor_view csftest_sptensor).get_idx j).bind
                (sptensor_view csftest_sptensor).get) := by
        decide
      obtain ⟨h1, h2⟩ := h k hk
      cases hg : (sptensor_view csftest_sptensor).get_idx k with
      | none => rw [hg] at h1; cases h1
      | some c =>
        rw [hg] at h1 h2
        simp only [Option.map_some', Option.some.injEq, decide_eq_true_eq] at h1
        exact ⟨c, rfl, h1, h2⟩)
    (by decide) (by decide) (by decide)

/-! ## Assignment of `mpf_t` values -/

theorem mpf_limbs_loop_le (fuel n : Nat) (hf : n ≤ fuel) (hn : n ≠ 0) :
    2 ^ (mpf_limb_bits * (mpf_limbs_loop fuel n - 1)) ≤ n := by
  induction fuel generalizing n with
  | zero => omega
  | succ fuel ih =>
    unfold mpf_limbs_loop
    simp only [hn, if_false, Nat.add_sub_cancel]
    have hlt : n / 2 ^ mpf_limb_bits < n :=
      Nat.div_lt_self (Nat.pos_of_ne_zero hn) (by decide)
    by_cases hq : n / 2 ^ mpf_limb_bits = 0
    · have h0 : mpf_limbs_loop fuel (n / 2 ^ mpf_limb_bits) = 0 := by
        rw [hq]
        cases fuel <;> simp [mpf_limbs_loop]
      rw [h0]
      exact Nat.pos_of_ne_zero hn
    · have hqf : n / 2 ^ mpf_limb_bits ≤ fuel := by omega
      have h1 := ih (n / 2 ^ mpf_limb_bits) hqf hq
      have hpos : 0 < mpf_limbs_loop fuel (n / 2 ^ mpf_limb_bits) := by
        cases fuel with
        | zero => exact absurd (Nat.le_zero.mp hqf) hq
        | succ f => simp [mpf_limbs_loop, hq]
      have he : mpf_limb_bits * mpf_limbs_loop fuel (n / 2 ^ mpf_limb_bits) =
          mpf_limb_bits * (mpf_limbs_loop fuel (n / 2 ^ mpf_limb_bits) - 1) +
            mpf_limb_bits := by
        rw [← Nat.mul_succ]
        congr 1
        omega
      rw [he, Nat.pow_add]
      calc 2 ^ (mpf_limb_bits * (mpf_limbs_loop fuel (n / 2 ^ mpf_limb_bits) - 1)) *
            2 ^ mpf_limb_bits
          ≤ n / 2 ^ mpf_limb_bits * 2 ^ mpf_limb_bits := Nat.mul_le_mul_right _ h1
        _ ≤ n := Nat.div_mul_le_self _ _

theorem mpf_limbs_le (n : Nat) (hn : n ≠ 0) :
    2 ^ (mpf_limb_bits * (mpf_limbs n - 1)) ≤ n :=
  mpf_limbs_loop_le n n (le_refl n) hn

theorem mpf_set_limbs_eq_zero_iff (prec : Nat) (m : Int) :
    mpf_set_limbs prec m = 0 ↔ m = 0 := by
  unfold mpf_set_limbs
  by_cases hs : mpf_limbs m.natAbs ≤ prec + 1
  · simp [hs]
  · simp only [hs, if_false]
    have hm : m.natAbs ≠ 0 := by
      intro h0
      apply hs
      rw [h0]
      show 0 ≤ prec + 1
      omega
    have hm0 : m ≠ 0 := fun h => hm (by simp [h])
    have hle := mpf_limbs_le m.natAbs hm
    have hk : mpf_limb_bits * (mpf_limbs m.natAbs - (prec + 1)) ≤
        mpf_limb_bits * (mpf_limbs m.natAbs - 1) := Nat.mul_le_mul_left _ (by omega)
    have hpow : 2 ^ (mpf_limb_bits * (mpf_limbs m.natAbs - (prec + 1))) ≤ m.natAbs :=
      le_trans (Nat.pow_le_pow_right (by decide) hk) hle
    have hpos : 0 < 2 ^ (mpf_limb_bits * (mpf_limbs m.natAbs - (prec + 1))) :=
      Nat.pow_pos (by decide)
    have hdiv : 0 < m.natAbs / 2 ^ (mpf_limb_bits * (mpf_limbs m.natAbs - (prec + 1))) :=
      Nat.div_pos hpow hpos
    have hne : m.natAbs / 2 ^ (mpf_limb_bits * (mpf_limbs m.natAbs - (prec + 1))) *
        2 ^ (mpf_limb_bits * (mpf_limbs m.natAbs - (prec + 1))) ≠ 0 :=
      Nat.pos_iff_ne_zero.mp (Nat.mul_pos hdiv hpos)
    constructor
    · intro h
      exfalso
      split at h
      · exact hne (by exact_mod_cast neg_eq_zero.mp h)
      · exact hne (by exact_mod_cast h)
    · intro h
      exact absurd h hm0

theorem coo_set_mpf_eq {V : Type} [Zero V] [DecidableEq V] (store : V → V)
    (hstore : ∀ v, store v = 0 ↔ v = 0) (t : sptensor_coo V) (i : List Nat) (v : V) :
    sptensor_coo_set_mpf store t i v = sptensor_coo_set t i (store v) := by
  unfold sptensor_coo_set_mpf sptensor_coo_set
  by_cases hv : v = 0
  · have h2 : store v = 0 := (hstore v).mpr hv
    simp [hv, h2]
    simp [(hstore 0).mpr rfl]
  · have h2 : ¬ store v = 0 := fun h => hv ((hstore v).mp h)
    simp [hv, h2]

theorem coo_set_all_mpf_eq {V : Type} [Zero V] [DecidableEq V] (store : V → V)
    (hstore : ∀ v, store v = 0 ↔ v = 0) (ops : List (List Nat × V)) (t : sptensor_coo V) :
    sptensor_coo_set_all_mpf store t ops =
      sptensor_coo_set_all t (ops.map (fun op => (op.1, store op.2))) := by
  induction ops generalizing t with
  | nil => rfl
  | cons op ops ih =>
    simp only [sptensor_coo_set_all_mpf, sptensor_coo_set_all, List.foldl_cons,
      List.map_cons] at ih ⊢
    rw [coo_set_mpf_eq store hstore, ih]

theorem coo_get_mpf_eq {V : Type} [Zero V] (load : V → V) (hload : load 0 = 0)
    (t : sptensor_coo V) (i : List Nat) :
    sptensor_coo_get_mpf load t i = load (sptensor_coo_get t i) := by
  unfold sptensor_coo_get_mpf sptensor_coo_get
  by_cases h : sptensor_coo_search t i = -1
  · simp [h, hload]
  · simp [h]

theorem last_set_value_map {V : Type} [Zero V] (f : V → V) (hf : f 0 = 0)
    (ops : List (List Nat × V)) (c : List Nat) :
    last_set_value (ops.map (fun op => (op.1, f op.2))) c = f (last_set_value ops c) := by
  unfold last_set_value
  rw [← List.map_reverse]
  generalize ops.reverse = l
  induction l with
  | nil => simp [hf]
  | cons op l ih =>
    simp only [List.map_cons, List.find?_cons]
    by_cases h : op.1 = c
    · simp [h]
    · simpa [h] using ih

theorem nz_walk_mpf_eq {V : Type} (load : V → V) (fuel : Nat)
    (itr : struct_sptensor_coo_nz_iterator V) :
    sptensor_coo_nz_walk_mpf load fuel itr =
      (sptensor_coo_nz_walk fuel itr).map
        (List.map (fun p => (p.1, p.2.map load))) := by
  induction fuel generalizing itr with
  | zero => rfl
  | succ fuel ih =>
    unfold sptensor_coo_nz_walk_mpf sptensor_coo_nz_walk
    by_cases hv : sptensor_coo_nz_valid itr = true
    · simp only [hv, if_true]
      rw [ih]
      cases sptensor_coo_nz_walk fuel (sptensor_coo_nz_next itr).2 with
      | none => rfl
      | some rest =>
        simp only [Option.map_some', List.map_cons, sptensor_coo_nz_iterator_get_mpf,
          sptensor_coo_nz_iterator_get]
        congr 3
        split <;> rfl
    · simp [hv]

set_option maxRecDepth 100000 in
/-- C1 (fails as stated): `sptensor_coo_set` of the integer
`2 ^ 200 + 1` (four limbs) at `(1,1,1)` of a fresh tensor stores it through
`mpf_init_set` in an entry of the default precision, which keeps three limbs, and
`sptensor_coo_get` into a variable of 256 bits then returns `2 ^ 200`, not the value
passed by the set. -/
theorem coo_get_after_set_truncates :
    sptensor_coo_get_mpf (mpf_set_limbs 5)
        (sptensor_coo_set_all_mpf (mpf_set_limbs mpf_default_prec)
          (sptensor_coo_alloc [3, 4, 5] 3) [([1, 1, 1], 2 ^ 200 + 1)]) [1, 1, 1] = 2 ^ 200 ∧
      sptensor_coo_get_mpf (mpf_set_limbs 5)
        (sptensor_coo_set_all_mpf (mpf_set_limbs mpf_default_prec)
          (sptensor_coo_alloc [3, 4, 5] 3) [([1, 1, 1], 2 ^ 200 + 1)]) [1, 1, 1] ≠
        last_set_value [([1, 1, 1], 2 ^ 200 + 1)] [1, 1, 1] := by
  decide

/-- C1 (amended): after any finite sequence of `sptensor_coo_set` calls on a freshly
allocated COO tensor, `sptensor_coo_get` at a coordinate of the arity returns the value passed
by the last call that addressed that coordinate as the assignments deliver it, that is
truncated to the precision of the stored entry (`store`) and then to that of the result
variable (`load`), and zero when no call addressed it; when both assignments reproduce
every value of the sequence, it returns the value passed itself.  Of the assignments only
this is used: they map zero to zero and nothing else to zero. -/
theorem coo_get_after_sets {V : Type} [Zero V] [DecidableEq V] (store load : V → V)
    (hstore : ∀ v, store v = 0 ↔ v = 0) (hload : load 0 = 0)
    (dims : List Nat) (n : Nat) (ops : List (List Nat × V)) (c : List Nat)
    (hops : ∀ op ∈ ops, op.1.length = n) (hc : c.length = n) :
    sptensor_coo_get_mpf load
        (sptensor_coo_set_all_mpf store (sptensor_coo_alloc dims n) ops) c =
      last_set_value (ops.map (fun op => (op.1, load (store op.2)))) c ∧
    ((∀ op ∈ ops, load (store op.2) = op.2) →
      sptensor_coo_get_mpf load
          (sptensor_coo_set_all_mpf store (sptensor_coo_alloc dims n) ops) c =
        last_set_value ops c) := by
  have hmain : sptensor_coo_get_mpf load
        (sptensor_coo_set_all_mpf store (sptensor_coo_alloc dims n) ops) c =
      last_set_value (ops.map (fun op => (op.1, load (store op.2)))) c := by
    rw [coo_get_mpf_eq load hload, coo_set_all_mpf_eq store hstore,
      coo_get_set_all_last dims n _ c
        (by
          intro op hop
          obtain ⟨o, ho, rfl⟩ := List.mem_map.mp hop
          exact hops o ho) hc,
      last_set_value_map store ((hstore 0).mpr rfl),
      last_set_value_map (fun v => load (store v))
        (by show load (store 0) = 0; rw [(hstore 0).mpr rfl, hload])]
  refine ⟨hmain, ?_⟩
  intro hex
  rw [hmain]
  congr 1
  have h : ∀ op ∈ ops, (fun op : List Nat × V => (op.1, load (store op.2))) op = id op := by
    intro op hop
    show (op.1, load (store op.2)) = op
    rw [hex op hop]
  rw [List.map_congr_left h, List.map_id]

/-- Witness for C1 on a three-mode tensor with entries and result variable of the default
precision: the second write to `(1,1,1)` wins. -/
theorem coo_get_after_sets_witness :
    sptensor_coo_get_mpf (mpf_set_limbs mpf_default_prec)
      (sptensor_coo_set_all_mpf (mpf_set_limbs mpf_default_prec)
        (sptensor_coo_alloc [3, 4, 5] 3)
        [([1, 1, 1], 99), ([2, 3, 1], 44), ([1, 1, 1], 7)]) [1, 1, 1] = 7 :=
  ((coo_get_after_sets (mpf_set_limbs mpf_default_prec) (mpf_set_limbs mpf_default_prec)
    (mpf_set_limbs_eq_zero_iff mpf_default_prec) (by decide) [3, 4, 5] 3
    [([1, 1, 1], 99), ([2, 3, 1], 44), ([1, 1, 1], 7)]
    [1, 1, 1] (by decide) (by decide)).1).trans (by decide)

set_option maxRecDepth 100000 in
/-- C5 (fails as stated): after the single set of the non-zero
integer `2 ^ 200 + 1` at `(1,1,1)` on a fresh tensor, whose entries have the default
precision, the nonzero iterator yields `((1,1,1), 2 ^ 200)` to a variable of 256 bits,
which is not the pair that was set. -/
theorem coo_nz_iterator_yields_truncated :
    sptensor_coo_nz_walk_mpf (mpf_set_limbs 5) 2 (sptensor_coo_nz_iterator
        (sptensor_coo_set_all_mpf (mpf_set_limbs mpf_default_prec)
          (sptensor_coo_alloc [3, 4, 5] 3) [([1, 1, 1], 2 ^ 200 + 1)])) =
      some [([1, 1, 1], some (2 ^ 200))] ∧
    sptensor_coo_nz_walk_mpf (mpf_set_limbs 5) 2 (sptensor_coo_nz_iterator
        (sptensor_coo_set_all_mpf (mpf_set_limbs mpf_default_prec)
          (sptensor_coo_alloc [3, 4, 5] 3) [([1, 1, 1], 2 ^ 200 + 1)])) ≠
      some ([([1, 1, 1], (2 ^ 200 + 1 : Int))].map (fun op => (op.1, some op.2))) := by
  decide

/-- C5 (amended): setting pairwise distinct coordinates with non-zero values on a freshly
allocated COO tensor makes the nonzero iterator yield these coordinates in insertion order,
each with its value as the assignments deliver it (truncated to the precision of the
stored entry, `store`, and then to that of the variable read into, `load`), hence with
the value set itself when both assignments reproduce it; for dimensions `(3,4,5)`, the
default precision and the four sets of the test program it yields the four pairs in
order, and `get((1,1,2))` is zero. -/
theorem coo_nz_iterator_insertion_order {V : Type} [Zero V] [DecidableEq V]
    (store load : V → V) (hstore : ∀ v, store v = 0 ↔ v = 0)
    (dims : List Nat) (n : Nat) (ops : List (List Nat × V))
    (hops : ∀ op ∈ ops, op.1.length = n) (hnd : (ops.map Prod.fst).Nodup)
    (hnz : ∀ op ∈ ops, op.2 ≠ 0) :
    (∀ fuel, ops.length < fuel →
      sptensor_coo_nz_walk_mpf load fuel (sptensor_coo_nz_iterator
          (sptensor_coo_set_all_mpf store (sptensor_coo_alloc dims n) ops)) =
        some (ops.map (fun op => (op.1, some (load (store op.2)))))) ∧
      ((∀ op ∈ ops, load (store op.2) = op.2) → ∀ fuel, ops.length < fuel →
        sptensor_coo_nz_walk_mpf load fuel (sptensor_coo_nz_iterator
            (sptensor_coo_set_all_mpf store (sptensor_coo_alloc dims n) ops)) =
          some (ops.map (fun op => (op.1, some op.2)))) ∧
      sptensor_coo_nz_walk_mpf (mpf_set_limbs mpf_default_prec) 5 (sptensor_coo_nz_iterator
          (sptensor_coo_set_all_mpf (mpf_set_limbs mpf_default_prec)
            (sptensor_coo_alloc [3, 4, 5] 3)
            [([1, 1, 1], 99), ([2, 3, 1], 44), ([2, 4, 4], 100), ([3, 2, 2], 1)])) =
        some [([1, 1, 1], some 99), ([2, 3, 1], some 44), ([2, 4, 4], some 100),
          ([3, 2, 2], some 1)] ∧
      itr_dump_mpf (mpf_set_limbs mpf_default_prec) 5 (sptensor_coo_nz_iterator
          (sptensor_coo_set_all_mpf (mpf_set_limbs mpf_default_prec)
            (sptensor_coo_alloc [3, 4, 5] 3)
            [([1, 1, 1], 99), ([2, 3, 1], 44), ([2, 4, 4], 100), ([3, 2, 2], 1)])) =
        some [([1, 1, 1], 99), ([2, 3, 1], 44), ([2, 4, 4], 100), ([3, 2, 2], 1)] ∧
      sptensor_coo_get_mpf (mpf_set_limbs mpf_default_prec)
          (sptensor_coo_set_all_mpf (mpf_set_limbs mpf_default_prec)
            (sptensor_coo_alloc [3, 4, 5] 3)
            [([1, 1, 1], 99), ([2, 3, 1], 44), ([2, 4, 4], 100), ([3, 2, 2], 1)])
        [1, 1, 2] = 0 := by
  have hmain : ∀ fuel, ops.length < fuel →
      sptensor_coo_nz_walk_mpf load fuel (sptensor_coo_nz_iterator
          (sptensor_coo_set_all_mpf store (sptensor_coo_alloc dims n) ops)) =
        some (ops.map (fun op => (op.1, some (load (store op.2))))) := by
    intro fuel hfuel
    have hops2 : ∀ op ∈ ops.map (fun op => (op.1, store op.2)), op.1.length = n := by
      intro op hop
      obtain ⟨o, ho, rfl⟩ := List.mem_map.mp hop
      exact hops o ho
    have hfst : (ops.map (fun op => (op.1, store op.2))).map Prod.fst = ops.map Prod.fst := by
      rw [List.map_map]
      rfl
    have hsnd : (ops.map (fun op => (op.1, store op.2))).map Prod.snd =
        ops.map (fun op => store op.2) := by
      rw [List.map_map]
      rfl
    have hnz2 : ∀ op ∈ ops.map (fun op => (op.1, store op.2)), op.2 ≠ 0 := by
      intro op hop
      obtain ⟨o, ho, rfl⟩ := List.mem_map.mp hop
      exact fun h => hnz o ho ((hstore o.2).mp h)
    have hinv := coo_set_all_invariant (ops.map (fun op => (op.1, store op.2)))
      (sptensor_coo_alloc dims n : sptensor_coo V)
      hops2 (coo_alloc_invariant dims n).2 (coo_alloc_invariant dims n).1
    have hfresh := coo_set_all_fresh (ops.map (fun op => (op.1, store op.2)))
      (sptensor_coo_alloc dims n : sptensor_coo V)
      hops2 (coo_alloc_invariant dims n).2 (by rw [hfst]; exact hnd)
      (by simp [sptensor_coo_alloc]) hnz2
    have hcoo : (sptensor_coo_set_all (sptensor_coo_alloc dims n : sptensor_coo V)
        (ops.map (fun op => (op.1, store op.2)))).coo = ops.map Prod.fst := by
      rw [hfresh.1, hfst]; simp [sptensor_coo_alloc]
    have hdata : (sptensor_coo_set_all (sptensor_coo_alloc dims n : sptensor_coo V)
        (ops.map (fun op => (op.1, store op.2)))).data = ops.map (fun op => store op.2) := by
      rw [hfresh.2, hsnd]; simp [sptensor_coo_alloc]
    rw [nz_walk_mpf_eq, coo_set_all_mpf_eq store hstore,
      nz_walk_all _ hinv.2 hinv.1.1 fuel (by rw [hcoo]; simpa using hfuel), hcoo, hdata]
    rw [List.zip_map']
    simp only [Option.map_some', List.map_map, Option.some.injEq]
    rfl
  refine ⟨hmain, ?_, by decide, by decide, by decide⟩
  intro hex fuel hfuel
  rw [hmain fuel hfuel]
  congr 1
  apply List.map_congr_left
  intro op hop
  rw [hex op hop]

/-- Witness for C5: the four sets of the test program at the default precision, walked
with five loop tests. -/
theorem coo_nz_iterator_insertion_order_witness :
    sptensor_coo_nz_walk_mpf (mpf_set_limbs mpf_default_prec) 5 (sptensor_coo_nz_iterator
        (sptensor_coo_set_all_mpf (mpf_set_limbs mpf_default_prec)
          (sptensor_coo_alloc [3, 4, 5] 3)
          [([1, 1, 1], 99), ([2, 3, 1], 44), ([2, 4, 4], 100), ([3, 2, 2], 1)])) =
      some ([([1, 1, 1], (99 : Int)), ([2, 3, 1], 44), ([2, 4, 4], 100),
        ([3, 2, 2], 1)].map
          (fun op => (op.1, some (mpf_set_limbs mpf_default_prec
            (mpf_set_limbs mpf_default_prec op.2))))) :=
  (coo_nz_iterator_insertion_order (mpf_set_limbs mpf_default_prec)
    (mpf_set_limbs mpf_default_prec) (mpf_set_limbs_eq_zero_iff mpf_default_prec)
    [3, 4, 5] 3
    [([1, 1, 1], 99), ([2, 3, 1], 44), ([2, 4, 4], 100), ([3, 2, 2], 1)]
    (by decide) (by decide) (by decide)).1 5 (by decide)

/-! ## Writing and reading back -/

theorem range_map_getD {α : Type} (f : Nat → α) (l : List Nat) (n : Nat)
    (h : l.length = n) :
    (List.range n).map (fun i => f (l.getD i 0)) = l.map f := by
  subst h
  apply List.ext_getElem
  · simp
  · intro i h1 h2
    simp only [List.length_map, List.length_range] at h1
    simp [List.getElem?_eq_getElem h1]

theorem write_loop_eq_dump {V : Type} [Zero V] (fmt_u : Nat → coo_field V)
    (fmt_Ff : V → coo_field V) (tns : sptensor_coo V) (fuel : Nat)
    (itr : struct_sptensor_coo_nz_iterator V) (ht : itr.t = tns) :
    sptensor_coo_write_loop fmt_u fmt_Ff tns fuel itr =
      (itr_dump fuel itr).map (fun es =>
        (es.map (fun e => (List.range tns.modes).map (fun i => fmt_u (e.1.getD i 0)) ++
          [fmt_Ff e.2])).flatten) := by
  induction fuel generalizing itr with
  | zero => rfl
  | succ fuel ih =>
    unfold sptensor_coo_write_loop itr_dump
    by_cases hv : sptensor_coo_nz_valid itr = true
    · simp only [hv, if_true]
      rw [ih _ (by rw [nz_next_t, ht])]
      cases itr_dump fuel (sptensor_coo_nz_next itr).2 with
      | none => rfl
      | some rest => simp [ht]
    · simp [hv]

theorem read_index_loop_fields {V : Type} (ds : List Nat) (fs tl : List (coo_field V))
    (h : fs.map (fun f => f.as_index) = ds.map some) :
    sptensor_coo_read_index_loop ds.length (fs ++ tl) = some (ds, tl) := by
  induction ds generalizing fs with
  | nil =>
    have : fs = [] := by simpa using h
    subst this
    rfl
  | cons d ds ih =>
    cases fs with
    | nil => simp at h
    | cons g gs =>
      simp only [List.map_cons, List.cons.injEq] at h
      rw [List.length_cons, List.cons_append, sptensor_coo_read_index_loop, h.1]
      simp only []
      rw [ih gs h.2]
      rfl

theorem coo_line_entry_printed {V : Type} (fmt_u : Nat → coo_field V)
    (hu : ∀ n, (fmt_u n).as_index = some n) (c : List Nat) (f : coo_field V) (v : V)
    (hf : f.as_value = some v) :
    coo_line_entry c.length (c.map fmt_u ++ [f]) = some (c, v) := by
  unfold coo_line_entry
  rw [read_index_loop_fields c (c.map fmt_u) [f]
    (by rw [List.map_map]; exact List.map_congr_left (fun n _ => hu n))]
  simp [hf]

theorem read_loop_end {V : Type} [Zero V] [DecidableEq V] (nmodes fuel : Nat)
    (tns : sptensor_coo V) :
    sptensor_coo_read_loop nmodes (fuel + 1) tns [] = some tns := by
  rw [sptensor_coo_read_loop]
  cases nmodes with
  | zero => rfl
  | succ n => rfl

theorem read_loop_lines_end {V : Type} [Zero V] [DecidableEq V] (nmodes : Nat)
    (good : List (List (coo_field V)))
    (hgood : ∀ line ∈ good, (coo_line_entry nmodes line).isSome = true)
    (fuel : Nat) (hfuel : good.length < fuel) (tns : sptensor_coo V) :
    sptensor_coo_read_loop nmodes fuel tns good.flatten =
      some (sptensor_coo_set_all tns (good.filterMap (coo_line_entry nmodes))) := by
  induction good generalizing fuel tns with
  | nil =>
    obtain ⟨f, rfl⟩ : ∃ f, fuel = f + 1 := ⟨fuel - 1, by simp at hfuel; omega⟩
    simp only [List.flatten_nil, List.filterMap_nil]
    rw [read_loop_end]
    rfl
  | cons line rest ih =>
    obtain ⟨f, rfl⟩ : ∃ f, fuel = f + 1 := ⟨fuel - 1, by simp at hfuel; omega⟩
    have hl := hgood line (by simp)
    obtain ⟨e, he⟩ := Option.isSome_iff_exists.mp hl
    rw [List.flatten_cons, read_loop_entry_line nmodes f tns line _ e he,
      ih (fun l hm => hgood l (List.mem_cons_of_mem _ hm)) f (by simp at hfuel; omega)]
    rw [List.filterMap_cons, he]
    rfl

theorem last_set_value_graph {V : Type} [Zero V] (f : List Nat → V) (l : List (List Nat))
    (c : List Nat) :
    last_set_value (l.map (fun x => (x, f x))) c = if c ∈ l then f c else 0 := by
  unfold last_set_value
  rw [← List.map_reverse]
  have hmem : c ∈ l ↔ c ∈ l.reverse := by simp
  simp only [hmem]
  generalize l.reverse = r
  induction r with
  | nil => simp
  | cons x r ih =>
    simp only [List.map_cons, List.find?_cons, List.mem_cons]
    by_cases h : x = c
    · simp [h]
    · have h2 : ¬ c = x := fun e => h e.symm
      simpa [h, h2] using ih

theorem coo_set_all_dim {V : Type} [Zero V] [DecidableEq V] (ops : List (List Nat × V))
    (t : sptensor_coo V) : (sptensor_coo_set_all t ops).dim = t.dim := by
  induction ops generalizing t with
  | nil => rfl
  | cons op ops ih =>
    simp only [sptensor_coo_set_all, List.foldl_cons] at ih ⊢
    rw [ih, coo_set_dim]

theorem coo_write_text {V : Type} [Zero V] (fmt_u : Nat → coo_field V)
    (fmt_Ff : V → coo_field V) (t : sptensor_coo V) (har : coo_arity t)
    (hdim : t.dim.length = t.modes) (fuel : Nat) (hfuel : t.coo.length < fuel) :
    sptensor_coo_write fmt_u fmt_Ff fuel t =
      some ((t.modes :: t.dim).map fmt_u ++
        (t.coo.map (fun c => c.map fmt_u ++ [fmt_Ff (sptensor_coo_get t c)])).flatten) := by
  unfold sptensor_coo_write
  rw [write_loop_eq_dump fmt_u fmt_Ff t fuel _ (nz_iterator_start t har).1,
    itr_dump_all t har fuel hfuel, range_map_getD fmt_u t.dim t.modes hdim]
  simp only [Option.map_some', List.map_map, List.map_cons, List.cons_append,
    Option.some.injEq, List.cons.injEq, true_and, List.append_cancel_left_eq]
  congr 1
  apply List.map_congr_left
  intro c hc
  show (List.range t.modes).map (fun i => fmt_u (c.getD i 0)) ++ _ = _
  rw [range_map_getD fmt_u c t.modes (har c hc)]

theorem coo_write_read {V : Type} [Zero V] [DecidableEq V] (fmt_u : Nat → coo_field V)
    (fmt_Ff : V → coo_field V) (back : V → V) (hu : ∀ n, (fmt_u n).as_index = some n)
    (hback : back 0 = 0) (t : sptensor_coo V) (har : coo_arity t)
    (hdim : t.dim.length = t.modes)
    (hval : ∀ c ∈ t.coo,
      (fmt_Ff (sptensor_coo_get t c)).as_value = some (back (sptensor_coo_get t c)))
    (fuel : Nat) (hfuel : t.coo.length < fuel) :
    ∃ text r, sptensor_coo_write fmt_u fmt_Ff fuel t = some text ∧
      sptensor_coo_read text = some r ∧ r.modes = t.modes ∧ r.dim = t.dim ∧
      ∀ c, c.length = t.modes → sptensor_coo_get r c = back (sptensor_coo_get t c) := by
  have hlines : ∀ line ∈ t.coo.map (fun c => c.map fmt_u ++ [fmt_Ff (sptensor_coo_get t c)]),
      (coo_line_entry t.modes line).isSome = true := by
    intro line hl
    obtain ⟨c, hc, rfl⟩ := List.mem_map.mp hl
    have h := coo_line_entry_printed fmt_u hu c _ _ (hval c hc)
    rw [har c hc] at h
    rw [h]
    rfl
  have hentries : (t.coo.map (fun c => c.map fmt_u ++ [fmt_Ff (sptensor_coo_get t c)])).filterMap
      (coo_line_entry t.modes) = t.coo.map (fun c => (c, back (sptensor_coo_get t c))) := by
    rw [List.filterMap_map]
    have : ∀ c ∈ t.coo, (coo_line_entry t.modes ∘
        fun c => c.map fmt_u ++ [fmt_Ff (sptensor_coo_get t c)]) c =
          some ((fun c => (c, back (sptensor_coo_get t c))) c) := by
      intro c hc
      have h := coo_line_entry_printed fmt_u hu c _ _ (hval c hc)
      rw [har c hc] at h
      exact h
    rw [List.filterMap_congr this]
    generalize t.coo = l
    induction l with
    | nil => rfl
    | cons a l ih => simp [List.filterMap_cons, ih]
  have hlen : (t.coo.map (fun c => c.map fmt_u ++ [fmt_Ff (sptensor_coo_get t c)])).length <
      (t.coo.map (fun c => c.map fmt_u ++ [fmt_Ff (sptensor_coo_get t c)])).flatten.length
        + 1 := by
    generalize t.coo = l
    induction l with
    | nil => simp
    | cons a l ih =>
      simp only [List.map_cons, List.length_cons, List.flatten_cons, List.length_append,
        List.length_map, List.length_singleton] at ih ⊢
      omega
  refine ⟨_, sptensor_coo_set_all (sptensor_coo_alloc t.dim t.modes)
      (t.coo.map (fun c => (c, back (sptensor_coo_get t c)))),
    coo_write_text fmt_u fmt_Ff t har hdim fuel hfuel, ?_, ?_, ?_, ?_⟩
  · rw [List.map_cons, List.cons_append, sptensor_coo_read]
    simp only [hu]
    have hd := read_index_loop_fields t.dim (t.dim.map fmt_u)
      (t.coo.map (fun c => c.map fmt_u ++ [fmt_Ff (sptensor_coo_get t c)])).flatten
      (by rw [List.map_map]; exact List.map_congr_left (fun n _ => hu n))
    rw [hdim] at hd
    rw [hd]
    simp only []
    rw [read_loop_lines_end t.modes _ hlines _ hlen, hentries]
  · rw [coo_set_all_modes]
    rfl
  · rw [coo_set_all_dim]
    show t.dim.take t.modes = t.dim
    rw [← hdim, List.take_length]
  · intro c hc
    rw [coo_get_set_all_last t.dim t.modes _ c
      (by
        intro op hop
        obtain ⟨x, hx, rfl⟩ := List.mem_map.mp hop
        exact har x hx) hc,
      last_set_value_graph (fun x => back (sptensor_coo_get t x))]
    by_cases hm : c ∈ t.coo
    · simp [hm]
    · have h0 : sptensor_coo_get t c = 0 := by
        have := coo_get_of_not_mem t.modes t.dim t.coo t.data c hc har hm
        simpa using this
      simp [hm, h0, hback]

/-- C23 (fails as stated): `%Ff` prints six decimals.  With values
counted in units of `10 ^ (-7)`, the tensor of dimensions `(3,4,5)` that holds one unit at
`(1,1,1)` and `99` at `(2,3,1)` is written with the first value as `0.000000`; reading
the text back returns a tensor with the same mode count and dimensions and the same value
at `(2,3,1)`, in which `(1,1,1)` reads zero. -/
theorem coo_write_read_drops_small_value :
    sptensor_coo_get (sptensor_coo_set_all (sptensor_coo_alloc [3, 4, 5] 3)
        [([1, 1, 1], 1), ([2, 3, 1], 990000000)]) [1, 1, 1] = 1 ∧
      ((sptensor_coo_write coo_field_unsigned coo_field_Ff 3
          (sptensor_coo_set_all (sptensor_coo_alloc [3, 4, 5] 3)
            [([1, 1, 1], 1), ([2, 3, 1], 990000000)])).bind sptensor_coo_read).map
        (fun r => (r.modes, r.dim, sptensor_coo_get r [1, 1, 1], sptensor_coo_get r [2, 3, 1]))
        = some (3, [3, 4, 5], 0, 990000000) := by
  decide

/-- C23 (amended): for every COO tensor `t` reached from a fresh one by set calls,
`sptensor_coo_write` returns a text and `sptensor_coo_read` of that text returns a tensor
with the mode count and dimensions of `t` whose `get` at every coordinate of the arity is
the `get` of `t` as `%Ff` prints it and reads it back (`back`); it equals the `get` of `t`
at every coordinate when the stored values are read back from their printed form
unchanged.  Of the conversions this is used: `%u` reads back the number it printed, and a
printed zero reads as zero. -/
theorem coo_write_read_round_trip {V : Type} [Zero V] [DecidableEq V]
    (fmt_u : Nat → coo_field V) (fmt_Ff : V → coo_field V) (back : V → V)
    (hu : ∀ n, (fmt_u n).as_index = some n) (hback : back 0 = 0)
    (dims : List Nat) (n : Nat) (ops : List (List Nat × V)) (hdims : n ≤ dims.length)
    (hops : ∀ op ∈ ops, op.1.length = n)
    (hval : ∀ c ∈ (sptensor_coo_set_all (sptensor_coo_alloc dims n) ops).coo,
      (fmt_Ff (sptensor_coo_get
          (sptensor_coo_set_all (sptensor_coo_alloc dims n) ops) c)).as_value =
        some (back (sptensor_coo_get
          (sptensor_coo_set_all (sptensor_coo_alloc dims n) ops) c)))
    (fuel : Nat)
    (hfuel : (sptensor_coo_set_all (sptensor_coo_alloc dims n) ops).coo.length < fuel) :
    ∃ text r,
      sptensor_coo_write fmt_u fmt_Ff fuel
          (sptensor_coo_set_all (sptensor_coo_alloc dims n) ops) = some text ∧
        sptensor_coo_read text = some r ∧ r.modes = n ∧ r.dim = dims.take n ∧
        (∀ c, c.length = n → sptensor_coo_get r c =
          back (sptensor_coo_get (sptensor_coo_set_all (sptensor_coo_alloc dims n) ops) c)) ∧
        ((∀ c ∈ (sptensor_coo_set_all (sptensor_coo_alloc dims n) ops).coo,
            back (sptensor_coo_get
                (sptensor_coo_set_all (sptensor_coo_alloc dims n) ops) c) =
              sptensor_coo_get (sptensor_coo_set_all (sptensor_coo_alloc dims n) ops) c) →
          ∀ c, c.length = n → sptensor_coo_get r c =
            sptensor_coo_get (sptensor_coo_set_all (sptensor_coo_alloc dims n) ops) c) := by
  have hinv := coo_set_all_invariant ops (sptensor_coo_alloc dims n : sptensor_coo V)
    hops (coo_alloc_invariant dims n).2 (coo_alloc_invariant dims n).1
  have hm : (sptensor_coo_set_all (sptensor_coo_alloc dims n : sptensor_coo V) ops).modes
      = n := by rw [coo_set_all_modes]; rfl
  have hd : (sptensor_coo_set_all (sptensor_coo_alloc dims n : sptensor_coo V) ops).dim
      = dims.take n := by rw [coo_set_all_dim]; rfl
  obtain ⟨text, r, hw, hr, h1, h2, h3⟩ := coo_write_read fmt_u fmt_Ff back hu hback
    (sptensor_coo_set_all (sptensor_coo_alloc dims n) ops) hinv.2
    (by rw [hm, hd, List.length_take]; omega) hval fuel hfuel
  refine ⟨text, r, hw, hr, h1.trans hm, h2.trans hd, ?_, ?_⟩
  · intro c hc
    exact h3 c (by rw [hm]; exact hc)
  · intro hex c hc
    rw [h3 c (by rw [hm]; exact hc)]
    by_cases hmem : c ∈ (sptensor_coo_set_all (sptensor_coo_alloc dims n) ops).coo
    · exact hex c hmem
    · have h0 : sptensor_coo_get (sptensor_coo_set_all (sptensor_coo_alloc dims n) ops) c
          = 0 := by
        have := coo_get_of_not_mem
          (sptensor_coo_set_all (sptensor_coo_alloc dims n) ops).modes
          (sptensor_coo_set_all (sptensor_coo_alloc dims n) ops).dim
          (sptensor_coo_set_all (sptensor_coo_alloc dims n) ops).coo
          (sptensor_coo_set_all (sptensor_coo_alloc dims n) ops).data c
          (by rw [hm]; exact hc) hinv.2 hmem
        simpa using this
      rw [h0, hback]

/-- Witness for C23: dimensions `(3,4,5)`, the values `99`, `44` and `7` (in units of
`10 ^ (-7)`), the second set of `(1,1,1)` overriding the first, printed with six
decimals. -/
theorem coo_write_read_round_trip_witness :
    ∃ text r,
      sptensor_coo_write coo_field_unsigned coo_field_Ff 3
          (sptensor_coo_set_all (sptensor_coo_alloc [3, 4, 5] 3)
            [([1, 1, 1], 990000000), ([2, 3, 1], 440000000), ([1, 1, 1], 70000000)])
        = some text ∧
        sptensor_coo_read text = some r ∧ r.modes = 3 ∧ r.dim = [3, 4, 5] ∧
        ∀ c, c.length = 3 → sptensor_coo_get r c =
          sptensor_coo_get (sptensor_coo_set_all (sptensor_coo_alloc [3, 4, 5] 3)
            [([1, 1, 1], 990000000), ([2, 3, 1], 440000000), ([1, 1, 1], 70000000)]) c := by
  obtain ⟨text, r, h1, h2, h3, h4, _, h6⟩ :=
    coo_write_read_round_trip coo_field_unsigned coo_field_Ff coo_six_decimals
      (fun _ => rfl) (by decide) [3, 4, 5] 3
      [([1, 1, 1], 990000000), ([2, 3, 1], 440000000), ([1, 1, 1], 70000000)]
      (by decide) (by decide) (by decide) 3 (by decide)
  exact ⟨text, r, h1, h2, h3, h4, h6 (by decide)⟩

/-! ## Reading the hash table after a set -/

theorem hash_bucket_erase_mem {V : Type} (k : Nat) (b : List (Nat × V))
    (hs : b.Pairwise (fun x y => x.1 < y.1))
    (h : (sptensor_hash_bucket_search k b).1 = true) (x : Nat × V) :
    x ∈ b.eraseIdx (sptensor_hash_bucket_search k b).2 ↔ x ∈ b ∧ x.1 ≠ k := by
  induction b with
  | nil => simp [sptensor_hash_bucket_search] at h
  | cons e es ih =>
    rw [sptensor_hash_bucket_search] at h ⊢
    rw [List.pairwise_cons] at hs
    by_cases he : e.1 = k
    · rw [if_pos he]
      simp only [List.eraseIdx_cons_zero, List.mem_cons]
      constructor
      · intro hx
        have := hs.1 x hx
        exact ⟨Or.inr hx, by omega⟩
      · rintro ⟨hx | hx, hne⟩
        · rw [hx] at hne
          exact absurd he hne
        · exact hx
    · rw [if_neg he] at h ⊢
      by_cases hlt : k < e.1
      · rw [if_pos hlt] at h
        simp at h
      · rw [if_neg hlt] at h ⊢
        simp only [List.eraseIdx_cons_succ, List.mem_cons]
        rw [ih hs.2 h]
        constructor
        · rintro (hx | ⟨hx, hne⟩)
          · exact ⟨Or.inl hx, by rw [hx]; exact he⟩
          · exact ⟨Or.inr hx, hne⟩
        · rintro ⟨hx | hx, hne⟩
          · exact Or.inl hx
          · exact Or.inr ⟨hx, hne⟩

theorem hash_bucket_set_mem {V : Type} (k : Nat) (v : V) (b : List (Nat × V))
    (hs : b.Pairwise (fun x y => x.1 < y.1))
    (h : (sptensor_hash_bucket_search k b).1 = true) (x : Nat × V) :
    x ∈ b.set (sptensor_hash_bucket_search k b).2 (k, v) ↔
      x = (k, v) ∨ (x ∈ b ∧ x.1 ≠ k) := by
  induction b with
  | nil => simp [sptensor_hash_bucket_search] at h
  | cons e es ih =>
    rw [sptensor_hash_bucket_search] at h ⊢
    rw [List.pairwise_cons] at hs
    by_cases he : e.1 = k
    · rw [if_pos he]
      simp only [List.set_cons_zero, List.mem_cons]
      constructor
      · rintro (hx | hx)
        · exact Or.inl hx
        · have := hs.1 x hx
          exact Or.inr ⟨Or.inr hx, by omega⟩
      · rintro (hx | ⟨hx | hx, hne⟩)
        · exact Or.inl hx
        · rw [hx] at hne
          exact absurd he hne
        · exact Or.inr hx
    · rw [if_neg he] at h ⊢
      by_cases hlt : k < e.1
      · rw [if_pos hlt] at h
        simp at h
      · rw [if_neg hlt] at h ⊢
        simp only [List.set_cons_succ, List.mem_cons]
        rw [ih hs.2 h]
        constructor
        · rintro (hx | hx | ⟨hx, hne⟩)
          · exact Or.inr ⟨Or.inl hx, by rw [hx]; exact he⟩
          · exact Or.inl hx
          · exact Or.inr ⟨Or.inr hx, hne⟩
        · rintro (hx | ⟨hx | hx, hne⟩)
          · exact Or.inr (Or.inl hx)
          · exact Or.inl hx
          · exact Or.inr (Or.inr ⟨hx, hne⟩)

theorem hash_table_set_mem {V : Type} (nb : Nat) (tbl : List (List (Nat × V)))
    (k : Nat) (v : V) (A : Prop) (nbk : List (Nat × V)) (hwf : hash_table_wf nb tbl)
    (hwf2 : hash_table_wf nb (tbl.set (k % nb) nbk))
    (hP : ∀ x, x ∈ nbk ↔ (x = (k, v) ∧ A) ∨ (x ∈ tbl.getD (k % nb) [] ∧ x.1 ≠ k))
    (x : Nat × V) :
    x ∈ (tbl.set (k % nb) nbk).flatten ↔
      (x = (k, v) ∧ A) ∨ (x ∈ tbl.flatten ∧ x.1 ≠ k) := by
  have hlt : k % nb < nb := Nat.mod_lt _ hwf.2.1
  rw [hash_table_mem_flatten nb _ hwf2 x, hash_table_mem_flatten nb tbl hwf x,
    hash_table_getD_set tbl _ _ _ (by rw [hwf.1]; exact hlt)]
  by_cases hx : x.1 % nb = k % nb
  · rw [if_pos hx, hP x, hx]
  · rw [if_neg hx]
    constructor
    · intro h
      refine Or.inr ⟨h, ?_⟩
      intro hk
      rw [hk] at hx
      exact hx rfl
    · rintro (⟨h, _⟩ | ⟨h, _⟩)
      · rw [h] at hx
        exact absurd rfl hx
      · exact h

theorem hash_set_mem {V : Type} [Zero V] [DecidableEq V] (enc : List Nat → Nat)
    (full : Nat → Nat → Bool) (t : sptensor_hash V) (idx : List Nat) (v : V)
    (hwf : hash_table_wf t.nbuckets t.hashtable) (x : Nat × V) :
    x ∈ (sptensor_hash_set enc full t idx v).hashtable.flatten ↔
      (x = (enc idx, v) ∧ v ≠ 0) ∨ (x ∈ t.hashtable.flatten ∧ x.1 ≠ enc idx) := by
  have hlt : enc idx % t.nbuckets < t.nbuckets := Nat.mod_lt _ hwf.2.1
  have hb := hwf.2.2 (enc idx % t.nbuckets) hlt
  unfold sptensor_hash_set
  split
  · rename_i hf
    split
    · rename_i hv
      apply hash_table_set_mem t.nbuckets t.hashtable (enc idx) v (v ≠ 0) _ hwf
      · apply hash_table_wf_set t.nbuckets t.hashtable _ _ hwf hlt
        · exact hb.1.sublist (List.eraseIdx_sublist _ _)
        · intro e he
          exact hb.2 e (List.mem_of_mem_eraseIdx he)
      · intro y
        rw [show (sptensor_hash_search enc t idx).2 = (sptensor_hash_bucket_search (enc idx)
          (t.hashtable.getD (enc idx % t.nbuckets) [])).2 from rfl,
          hash_bucket_erase_mem (enc idx) _ hb.1 hf y]
        constructor
        · intro h
          exact Or.inr h
        · rintro (⟨_, h⟩ | h)
          · exact absurd hv h
          · exact h
    · rename_i hv
      apply hash_table_set_mem t.nbuckets t.hashtable (enc idx) v (v ≠ 0) _ hwf
      · apply hash_table_wf_set t.nbuckets t.hashtable _ _ hwf hlt
        · exact hash_bucket_overwrite_sorted (enc idx) v _ hb.1 hf
        · intro e he
          rcases List.mem_or_eq_of_mem_set he with h1 | h1
          · exact hb.2 e h1
          · rw [h1]
      · intro y
        rw [show (sptensor_hash_search enc t idx).2 = (sptensor_hash_bucket_search (enc idx)
          (t.hashtable.getD (enc idx % t.nbuckets) [])).2 from rfl,
          hash_bucket_set_mem (enc idx) v _ hb.1 hf y]
        constructor
        · rintro (h | h)
          · exact Or.inl ⟨h, hv⟩
          · exact Or.inr h
        · rintro (⟨h, _⟩ | h)
          · exact Or.inl h
          · exact Or.inr h
  · rename_i hf
    have hnf : (sptensor_hash_bucket_search (enc idx)
        (t.hashtable.getD (enc idx % t.nbuckets) [])).1 = false :=
      (Bool.not_eq_true _).mp hf
    have habs : ∀ y ∈ t.hashtable.getD (enc idx % t.nbuckets) [], y.1 ≠ enc idx := by
      intro y hy hk
      have e : (enc idx, y.2) = y := by rw [← hk]
      apply hash_bucket_search_absent (enc idx) _ hb.1 hnf y.2
      rw [e]
      exact hy
    have hins : hash_table_wf t.nbuckets (t.hashtable.set (enc idx % t.nbuckets)
        ((t.hashtable.getD (enc idx % t.nbuckets) []).insertIdx
          (sptensor_hash_search enc t idx).2 (enc idx, v))) := by
      apply hash_table_wf_set t.nbuckets t.hashtable _ _ hwf hlt
      · exact hash_bucket_insert_sorted (enc idx) v _ hb.1 hnf
      · intro e he
        rcases (List.mem_insertIdx (hash_bucket_search_le (enc idx) _)).mp he with h1 | h1
        · rw [h1]
        · exact hb.2 e h1
    have hmem : ∀ (hv : v ≠ 0) (y : Nat × V),
        y ∈ (t.hashtable.set (enc idx % t.nbuckets)
          ((t.hashtable.getD (enc idx % t.nbuckets) []).insertIdx
            (sptensor_hash_search enc t idx).2 (enc idx, v))).flatten ↔
        (y = (enc idx, v) ∧ v ≠ 0) ∨ (y ∈ t.hashtable.flatten ∧ y.1 ≠ enc idx) := by
      intro hv y
      apply hash_table_set_mem t.nbuckets t.hashtable (enc idx) v (v ≠ 0) _ hwf hins
      intro z
      rw [show (sptensor_hash_search enc t idx).2 = (sptensor_hash_bucket_search (enc idx)
        (t.hashtable.getD (enc idx % t.nbuckets) [])).2 from rfl,
        List.mem_insertIdx (hash_bucket_search_le (enc idx) _)]
      constructor
      · rintro (h | h)
        · exact Or.inl ⟨h, hv⟩
        · exact Or.inr ⟨h, habs z h⟩
      · rintro (⟨h, _⟩ | ⟨h, _⟩)
        · exact Or.inl h
        · exact Or.inr h
    split
    · rename_i hv
      constructor
      · intro h
        refine Or.inr ⟨h, ?_⟩
        intro hk
        have h2 := (hash_table_mem_flatten t.nbuckets t.hashtable hwf x).mp h
        rw [hk] at h2
        exact habs x h2 hk
      · rintro (⟨_, h⟩ | ⟨h, _⟩)
        · exact absurd hv h
        · exact h
    · rename_i hv
      split
      · rw [(hash_rehash_spec
          (⟨t.modes, t.dim, t.hashtable.set (enc idx % t.nbuckets)
            ((t.hashtable.getD (enc idx % t.nbuckets) []).insertIdx
              (sptensor_hash_search enc t idx).2 (enc idx, v)), t.nbuckets,
            t.curr_size + 1⟩ : sptensor_hash V) hins).2 x]
        exact hmem hv x
      · exact hmem hv x

theorem hash_get_opt_iff {V : Type} (enc : List Nat → Nat) (t : sptensor_hash V)
    (ht : hash_table_wf t.nbuckets t.hashtable) (c : List Nat) (v : V) :
    (if (sptensor_hash_search enc t c).1 = true then
      ((t.hashtable.getD (enc c % t.nbuckets) []).get?
        (sptensor_hash_search enc t c).2).map Prod.snd else none) = some v ↔
    (enc c, v) ∈ t.hashtable.flatten := by
  rw [hash_table_mem_flatten t.nbuckets t.hashtable ht (enc c, v)]
  have hs := (ht.2.2 (enc c % t.nbuckets) (Nat.mod_lt _ ht.2.1)).1
  rw [← hash_bucket_get_iff (enc c) _ hs v]
  unfold sptensor_hash_search
  by_cases hf : (sptensor_hash_bucket_search (enc c)
      (t.hashtable.getD (enc c % t.nbuckets) [])).1 = true
  · rw [if_pos hf]
    exact ⟨fun h => ⟨hf, h⟩, fun h => h.2⟩
  · rw [if_neg hf]
    exact ⟨fun h => (by cases h), fun h => absurd h.1 hf⟩

theorem hash_get_form {V : Type} [Zero V] (enc : List Nat → Nat) (t : sptensor_hash V)
    (c : List Nat) :
    sptensor_hash_get enc t c =
      (if (sptensor_hash_search enc t c).1 = true then
        ((t.hashtable.getD (enc c % t.nbuckets) []).get?
          (sptensor_hash_search enc t c).2).map Prod.snd else none).getD 0 := by
  unfold sptensor_hash_get
  split <;> rfl

theorem hash_get_set {V : Type} [Zero V] [DecidableEq V] (enc : List Nat → Nat)
    (full : Nat → Nat → Bool) (t : sptensor_hash V) (idx : List Nat) (v : V)
    (hwf : hash_table_wf t.nbuckets t.hashtable) (c : List Nat) :
    sptensor_hash_get enc (sptensor_hash_set enc full t idx v) c =
      if enc c = enc idx then v else sptensor_hash_get enc t c := by
  have hwf2 := hash_set_wf enc full t idx v hwf
  have hiff : ∀ w, (if (sptensor_hash_search enc (sptensor_hash_set enc full t idx v) c).1
        = true then
      (((sptensor_hash_set enc full t idx v).hashtable.getD
          (enc c % (sptensor_hash_set enc full t idx v).nbuckets) []).get?
        (sptensor_hash_search enc (sptensor_hash_set enc full t idx v) c).2).map Prod.snd
      else none) = some w ↔
      ((enc c, w) = (enc idx, v) ∧ v ≠ 0) ∨
        ((enc c, w) ∈ t.hashtable.flatten ∧ enc c ≠ enc idx) := by
    intro w
    rw [hash_get_opt_iff enc _ hwf2 c w, hash_set_mem enc full t idx v hwf (enc c, w)]
  rw [hash_get_form, hash_get_form enc t c]
  by_cases hk : enc c = enc idx
  · rw [if_pos hk]
    by_cases hv : v = 0
    · have hnone : (if (sptensor_hash_search enc (sptensor_hash_set enc full t idx v) c).1
            = true then
          (((sptensor_hash_set enc full t idx v).hashtable.getD
              (enc c % (sptensor_hash_set enc full t idx v).nbuckets) []).get?
            (sptensor_hash_search enc (sptensor_hash_set enc full t idx v) c).2).map Prod.snd
          else none) = none := by
        rw [Option.eq_none_iff_forall_not_mem]
        intro w hw
        rcases (hiff w).mp hw with ⟨_, h⟩ | ⟨_, h⟩
        · exact h hv
        · exact h hk
      rw [hnone, hv]
      rfl
    · rw [(hiff v).mpr (Or.inl ⟨by rw [hk], hv⟩)]
      rfl
  · rw [if_neg hk]
    congr 1
    apply Option.ext
    intro w
    rw [Option.mem_def, Option.mem_def, hiff w, hash_get_opt_iff enc t hwf c w]
    constructor
    · rintro (⟨h, _⟩ | ⟨h, _⟩)
      · exact absurd (Prod.mk.inj h).1 hk
      · exact h
    · intro h
      exact Or.inr ⟨h, hk⟩

theorem hash_get_alloc {V : Type} [Zero V] (enc : List Nat → Nat) (dims : List Nat)
    (nmodes : Nat) (c : List Nat) :
    sptensor_hash_get enc (sptensor_hash_alloc dims nmodes : sptensor_hash V) c = 0 := by
  have hb : ∀ i, (List.replicate NBUCKETS ([] : List (Nat × V))).getD i [] = [] := by
    intro i
    rw [List.getD_eq_getElem?_getD, List.getElem?_replicate]
    split <;> rfl
  unfold sptensor_hash_get sptensor_hash_search sptensor_hash_alloc
  simp only [hb, sptensor_hash_bucket_search]
  rfl

theorem hash_set_all_append {V : Type} [Zero V] [DecidableEq V] (enc : List Nat → Nat)
    (full : Nat → Nat → Bool) (t : sptensor_hash V) (ops : List (List Nat × V))
    (op : List Nat × V) :
    sptensor_hash_set_all enc full t (ops ++ [op]) =
      sptensor_hash_set enc full (sptensor_hash_set_all enc full t ops) op.1 op.2 := by
  simp [sptensor_hash_set_all, List.foldl_append]

theorem hash_get_set_all_last {V : Type} [Zero V] [DecidableEq V] (enc : List Nat → Nat)
    (full : Nat → Nat → Bool) (dims : List Nat) (nmodes : Nat)
    (ops : List (List Nat × V)) (c : List Nat)
    (hinj : ∀ op ∈ ops, enc op.1 = enc c → op.1 = c) :
    sptensor_hash_get enc
        (sptensor_hash_set_all enc full (sptensor_hash_alloc dims nmodes) ops) c =
      last_set_value ops c := by
  induction ops using List.reverseRecOn with
  | nil => simp [sptensor_hash_set_all, hash_get_alloc, last_set_value]
  | append_singleton ops op ih =>
    have hwf := hash_set_all_wf enc full ops
      (sptensor_hash_alloc dims nmodes : sptensor_hash V)
      (hash_table_wf_empty NBUCKETS (by decide))
    rw [hash_set_all_append, hash_get_set enc full _ _ _ hwf,
      ih (fun o ho => hinj o (List.mem_append_left _ ho))]
    simp only [last_set_value, List.reverse_append, List.reverse_cons, List.reverse_nil,
      List.nil_append, List.singleton_append, List.find?_cons]
    by_cases h : op.1 = c
    · simp [h]
    · have h2 : ¬ enc c = enc op.1 := fun e => h (hinj op (by simp) e.symm)
      simp [h, h2]

/-- C25: on the hash backend, for every key encoding `enc` and every rehash threshold
`full`, after any sequence of `sptensor_hash_set` calls from an empty table (the calls
that trigger `sptensor_hash_rehash` included), `sptensor_hash_get` at a coordinate `c`
whose key no other coordinate of the sequence shares returns the value passed by the last
call that addressed `c` and zero when no call did, so every coordinate set still returns
its value and no other coordinate becomes non-zero; the same holds after one more
`sptensor_hash_rehash`, which doubles the bucket count, as does the insertion that
triggers it. -/
theorem hash_rehash_preserves_get {V : Type} [Zero V] [DecidableEq V]
    (enc : List Nat → Nat) (full : Nat → Nat → Bool) (dims : List Nat) (nmodes : Nat)
    (ops : List (List Nat × V)) (c : List Nat)
    (hinj : ∀ op ∈ ops, enc op.1 = enc c → op.1 = c) :
    sptensor_hash_get enc
        (sptensor_hash_set_all enc full (sptensor_hash_alloc dims nmodes) ops) c =
      last_set_value ops c ∧
    sptensor_hash_get enc (sptensor_hash_rehash
        (sptensor_hash_set_all enc full (sptensor_hash_alloc dims nmodes) ops)) c =
      last_set_value ops c ∧
    (sptensor_hash_rehash
        (sptensor_hash_set_all enc full (sptensor_hash_alloc dims nmodes) ops)).nbuckets =
      2 * (sptensor_hash_set_all enc full (sptensor_hash_alloc dims nmodes) ops).nbuckets ∧
    ∀ (idx : List Nat) (v : V), v ≠ 0 →
      (sptensor_hash_search enc
        (sptensor_hash_set_all enc full (sptensor_hash_alloc dims nmodes) ops) idx).1
          = false →
      full ((sptensor_hash_set_all enc full
          (sptensor_hash_alloc dims nmodes) ops).curr_size + 1)
        (sptensor_hash_set_all enc full
          (sptensor_hash_alloc dims nmodes) ops).nbuckets = true →
      (sptensor_hash_set enc full
        (sptensor_hash_set_all enc full (sptensor_hash_alloc dims nmodes) ops)
          idx v).nbuckets =
        2 * (sptensor_hash_set_all enc full
          (sptensor_hash_alloc dims nmodes) ops).nbuckets := by
  have hwf := hash_set_all_wf enc full ops (sptensor_hash_alloc dims nmodes : sptensor_hash V)
    (hash_table_wf_empty NBUCKETS (by decide))
  have h := hash_rehash_spec _ hwf
  have hget := hash_get_set_all_last enc full dims nmodes ops c hinj
  refine ⟨hget, ?_, rfl, ?_⟩
  · rw [hash_get_congr enc _ _ h.1 hwf h.2 c]
    exact hget
  · intro idx v hv hs hfull
    unfold sptensor_hash_set
    rw [hs]
    simp only [Bool.false_eq_true, if_false, hv, hfull, if_true]
    rfl

set_option maxRecDepth 100000 in
/-- Witness for C25: the mixed-radix key of dimensions `(3,4,5)`, a rehash whenever the
table holds two entries or more (three of the four insertions of the test program
rehash), read at `(2,3,1)`. -/
theorem hash_rehash_preserves_get_witness :
    sptensor_hash_get (mixed_radix_key [3, 4, 5])
      (sptensor_hash_set_all (mixed_radix_key [3, 4, 5]) (fun s _ => decide (2 ≤ s))
        (sptensor_hash_alloc [3, 4, 5] 3)
        [([1, 1, 1], (99 : Int)), ([2, 3, 1], 44), ([2, 4, 4], 100), ([3, 2, 2], 1)])
      [2, 3, 1] = 44 :=
  ((hash_rehash_preserves_get (mixed_radix_key [3, 4, 5]) (fun s _ => decide (2 ≤ s))
    [3, 4, 5] 3
    [([1, 1, 1], (99 : Int)), ([2, 3, 1], 44), ([2, 4, 4], 100), ([3, 2, 2], 1)]
    [2, 3, 1] (by decide)).1).trans (by decide)

end SpTensor
